import Mathlib

/-!
# TADbit: the segmenter, the model selector, the task queue and the slice assembler

A shallow embedding of `src/tadbit.c`.

* A C `double` is a value of `Val R`: a finite number of an ordered ring `R`
  (exact arithmetic, no rounding, no overflow), `+∞`, `-∞` or NaN.  The
  operations follow IEEE-754 on the special values; ordered comparisons with NaN
  are false.
* A C array is a total function `Nat → α` on the flat index, a store is `setAt`.
  Two-dimensional arrays keep the flat column-major index `row + col * n` of the
  source.
* A `for (i = lo; i < hi; i++)` loop is `forLoop lo hi body`.
* The threads of the fill phase are a state machine: an interleaving is the
  list of the workers that take the successive steps.
* The library functions (`sqrt`, `log`, `lgamma`) and the floating-point
  sub-computations that no statement below depends on (the block fitter
  `poiss_reg`, the statistics of the pre-screen) are parameters.
-/

namespace TADbit

/-! ## Doubles in exact arithmetic -/

/-- A C `double` in exact arithmetic: finite, `+∞`, `-∞` or NaN. -/
inductive Val (R : Type) where
  | fin (x : R)
  | pinf
  | ninf
  | nan
deriving DecidableEq

namespace Val

variable {R : Type} [LinearOrderedRing R]

/-- The C expression `a + b` on doubles. -/
def add : Val R → Val R → Val R
  | fin a, fin b => fin (a + b)
  | fin _, pinf => pinf
  | fin _, ninf => ninf
  | pinf, fin _ => pinf
  | pinf, pinf => pinf
  | ninf, fin _ => ninf
  | ninf, ninf => ninf
  | _, _ => nan

/-- The C expression `a - b` on doubles. -/
def sub : Val R → Val R → Val R
  | fin a, fin b => fin (a - b)
  | fin _, pinf => ninf
  | fin _, ninf => pinf
  | pinf, fin _ => pinf
  | pinf, ninf => pinf
  | ninf, fin _ => ninf
  | ninf, pinf => ninf
  | _, _ => nan

/-- The C expression `a > b` on doubles (false as soon as one side is NaN). -/
def gt : Val R → Val R → Bool
  | fin a, fin b => decide (b < a)
  | fin _, ninf => true
  | pinf, fin _ => true
  | pinf, ninf => true
  | _, _ => false

/-- The C expression `a < b` on doubles. -/
def lt (a b : Val R) : Bool := gt b a

/-- The C macro `isnan`. -/
def isNaN : Val R → Bool
  | nan => true
  | _ => false

/-- Is the double a finite number? -/
def isFin : Val R → Bool
  | fin _ => true
  | _ => false

/-- The number held by a finite double (`0` for the special values). -/
def toR : Val R → R
  | fin x => x
  | _ => 0

/-- The C expression `a * b` on doubles: an infinity times zero is NaN, otherwise
the sign of an infinite product is the product of the signs. -/
def mul : Val R → Val R → Val R
  | fin a, fin b => fin (a * b)
  | nan, _ => nan
  | _, nan => nan
  | fin a, pinf => if 0 < a then pinf else if a < 0 then ninf else nan
  | fin a, ninf => if 0 < a then ninf else if a < 0 then pinf else nan
  | pinf, fin b => if 0 < b then pinf else if b < 0 then ninf else nan
  | ninf, fin b => if 0 < b then ninf else if b < 0 then pinf else nan
  | pinf, pinf => pinf
  | ninf, ninf => pinf
  | pinf, ninf => ninf
  | ninf, pinf => ninf

/-- The order of the extended real line on the doubles that are not NaN
(`-∞ ≤ x ≤ +∞`); NaN is related to nothing. -/
def le : Val R → Val R → Prop
  | fin a, fin b => a ≤ b
  | ninf, fin _ => True
  | ninf, ninf => True
  | ninf, pinf => True
  | fin _, pinf => True
  | pinf, pinf => True
  | _, _ => False

end Val

/-! ## Arrays and loops -/

/-- The store `a[i] = v`. -/
def setAt {α : Type} (a : Nat → α) (i : Nat) (v : α) : Nat → α :=
  fun k => if k = i then v else a k

/-- Runs `body lo`, `body (lo+1)`, ... `cnt` times. -/
def iter {σ : Type} (body : Nat → σ → σ) : Nat → Nat → σ → σ
  | _, 0, s => s
  | lo, cnt + 1, s => iter body (lo + 1) cnt (body lo s)

/-- The loop `for (i = lo; i < hi; i++) body`. -/
def forLoop {σ : Type} (lo hi : Nat) (body : Nat → σ → σ) (s : σ) : σ :=
  iter body lo (hi - lo) s

/-! ## The segmenter `mlwalk` -/

section Mlwalk

variable {R : Type} [LinearOrderedRing R]

/-- The variables of `mlwalk`. -/
structure MlState (R : Type) where
  new_llik : Nat → Val R
  old_llik : Nat → Val R
  new_bkpt_list : Nat → Int
  old_bkpt_list : Nat → Int
  mllik : Nat → Val R
  breakpoints : Nat → Int

/-- Body of the loop over the start point `i` (lines 395-403), on the pair
`(new_llik, new_bkpt)`.  The loop starts at `i = 3 * nbreaks ≥ 3`, so `i - 1`
is the same in `Nat` and in `int`. -/
def mlwalk_i (llik_mat : Nat → Val R) (n j : Nat) (old_llik : Nat → Val R)
    (i : Nat) (s : (Nat → Val R) × Int) : (Nat → Val R) × Int :=
  let tmp := Val.add (old_llik (i - 1)) (llik_mat (i + j * n))
  if Val.gt tmp (s.1 j) then (setAt s.1 j tmp, (i : Int) - 1) else s

/-- Body of the loop over the end point `j` (lines 390-412), on the pair
`(new_llik, new_bkpt_list)`.  `new_bkpt` is an `int` that starts at `-1`. -/
def mlwalk_j (llik_mat : Nat → Val R) (n nbreaks : Nat) (old_llik : Nat → Val R)
    (old_bkpt_list : Nat → Int) (j : Nat) (s : (Nat → Val R) × (Nat → Int)) :
    (Nat → Val R) × (Nat → Int) :=
  let r := forLoop (3 * nbreaks) (j - 3) (mlwalk_i llik_mat n j old_llik)
    (setAt s.1 j Val.ninf, (-1 : Int))
  let new_bkpt := r.2
  if Val.gt (r.1 j) Val.ninf then
    let copied := forLoop 0 n
      (fun i l => setAt l (j + i * n) (old_bkpt_list (Int.toNat (new_bkpt + (i : Int) * (n : Int)))))
      s.2
    (r.1, setAt copied (Int.toNat ((j : Int) + new_bkpt * (n : Int))) 1)
  else (r.1, s.2)

/-- Body of the dynamic-programming loop over `nbreaks` (lines 383-423). -/
def mlwalk_level (llik_mat : Nat → Val R) (n : Nat) (nbreaks : Nat) (s : MlState R) :
    MlState R :=
  let old_bkpt_list := forLoop 0 (n * n) (fun i o => setAt o i (s.new_bkpt_list i))
    s.old_bkpt_list
  let r := forLoop (3 * nbreaks + 2) n
    (mlwalk_j llik_mat n nbreaks s.old_llik old_bkpt_list) (s.new_llik, s.new_bkpt_list)
  let mllik := setAt s.mllik nbreaks (r.1 (n - 1))
  let rec2 := forLoop 0 n
    (fun i (p : (Nat → Val R) × (Nat → Int)) =>
      (setAt p.1 i (r.1 i), setAt p.2 (i + nbreaks * n) (r.2 (n - 1 + i * n))))
    (s.old_llik, s.breakpoints)
  { new_llik := r.1
    old_llik := rec2.1
    new_bkpt_list := r.2
    old_bkpt_list := old_bkpt_list
    mllik := mllik
    breakpoints := rec2.2 }

/-- The initialisations of `mlwalk` (lines 363-379).  `mllik` and `breakpoints`
are the caller's buffers; the local arrays start from an arbitrary content that
the loops overwrite. -/
def mlwalk_init (llik_mat : Nat → Val R) (n maxbreaks : Nat)
    (mllik : Nat → Val R) (breakpoints : Nat → Int) : MlState R :=
  let breakpoints := forLoop 0 (n * maxbreaks) (fun i b => setAt b i 0) breakpoints
  let lists := forLoop 0 (n * n)
    (fun i (p : (Nat → Int) × (Nat → Int)) => (setAt p.1 i 0, setAt p.2 i 0))
    ((fun _ => 0), (fun _ => 0))
  let mllik := forLoop 0 maxbreaks (fun i a => setAt a i Val.nan) mllik
  let lliks := forLoop 0 n
    (fun i (p : (Nat → Val R) × (Nat → Val R)) =>
      (setAt p.1 i (llik_mat (i * n)), setAt p.2 i Val.ninf))
    ((fun _ => Val.nan), (fun _ => Val.nan))
  { new_llik := lliks.2
    old_llik := lliks.1
    new_bkpt_list := lists.1
    old_bkpt_list := lists.2
    mllik := mllik
    breakpoints := breakpoints }

/-- The state of `mlwalk` when it returns. `m` is not used by the source either. -/
def mlwalk_run (llik_mat : Nat → Val R) (n _m maxbreaks : Nat)
    (mllik : Nat → Val R) (breakpoints : Nat → Int) : MlState R :=
  forLoop 1 maxbreaks (mlwalk_level llik_mat n)
    (mlwalk_init llik_mat n maxbreaks mllik breakpoints)

/-- The function `mlwalk`: the outputs `(mllik, breakpoints)`. -/
def mlwalk (llik_mat : Nat → Val R) (n m maxbreaks : Nat)
    (mllik : Nat → Val R) (breakpoints : Nat → Int) : (Nat → Val R) × (Nat → Int) :=
  let s := mlwalk_run llik_mat n m maxbreaks mllik breakpoints
  (s.mllik, s.breakpoints)

/-! ### The recurrence that `mlwalk` computes

The pure reading of the loops, used to state and prove what the arrays hold. -/

/-- One step of the search for the best start point: the candidate `f i`
replaces the running maximum when it is strictly greater. -/
def scanStep (f : Nat → Val R) (i : Nat) (p : Val R × Int) : Val R × Int :=
  if Val.gt (f i) p.1 then (f i, (i : Int) - 1) else p

/-- The pair `(new_llik[j], new_bkpt)` that the loop over `i` leaves for the end
point `j` at level `nbreaks`, given the previous level `old_llik`. -/
def best (llik_mat : Nat → Val R) (n nbreaks : Nat) (old_llik : Nat → Val R) (j : Nat) :
    Val R × Int :=
  forLoop (3 * nbreaks) (j - 3)
    (scanStep (fun i => Val.add (old_llik (i - 1)) (llik_mat (i + j * n))))
    (Val.ninf, (-1 : Int))

/-- The value `new_llik[j]` of level `nbreaks` (level 0 is the first line of
`llik_mat`). -/
def dpLlik (llik_mat : Nat → Val R) (n : Nat) : Nat → Nat → Val R
  | 0, j => llik_mat (j * n)
  | nb + 1, j => (best llik_mat n (nb + 1) (dpLlik llik_mat n nb) j).1

/-- The value `new_bkpt` of the end point `j` at level `nbreaks`. -/
def dpBkpt (llik_mat : Nat → Val R) (n : Nat) : Nat → Nat → Int
  | 0, _ => -1
  | nb + 1, j => (best llik_mat n (nb + 1) (dpLlik llik_mat n nb) j).2

/-- The break points traced back from the end point `j` at level `nbreaks`. -/
def dpSeg (llik_mat : Nat → Val R) (n : Nat) : Nat → Nat → List Nat
  | 0, _ => []
  | nb + 1, j =>
    dpSeg llik_mat n nb (dpBkpt llik_mat n (nb + 1) j).toNat ++
      [(dpBkpt llik_mat n (nb + 1) j).toNat]

/-- The state of `mlwalk` after the levels `1 .. nb` of the dynamic programming. -/
def mlwalk_upto (llik_mat : Nat → Val R) (n maxbreaks : Nat)
    (mllik : Nat → Val R) (breakpoints : Nat → Int) (nb : Nat) : MlState R :=
  forLoop 1 (nb + 1) (mlwalk_level llik_mat n)
    (mlwalk_init llik_mat n maxbreaks mllik breakpoints)

/-- What the arrays of `mlwalk` hold after level `nb`, in terms of the recurrence. -/
def MlInv (L : Nat → Val R) (n maxbreaks nb : Nat) (s : MlState R) : Prop :=
  (∀ j, 3 * nb + 2 ≤ j → j < n → s.old_llik j = dpLlik L n nb j) ∧
  (∀ j c, 3 * nb + 2 ≤ j → j < n → c < n → Val.gt (dpLlik L n nb j) Val.ninf = true →
    s.new_bkpt_list (j + c * n) = if c ∈ dpSeg L n nb j then 1 else 0) ∧
  (∀ k, 1 ≤ k → k ≤ nb → 3 * k + 3 ≤ n →
    s.mllik k = dpLlik L n k (n - 1) ∧
    (Val.gt (dpLlik L n k (n - 1)) Val.ninf = true →
      ∀ r, r < n → s.breakpoints (r + k * n) = if r ∈ dpSeg L n k (n - 1) then 1 else 0)) ∧
  (∀ k, (k = 0 ∨ nb < k) → k < maxbreaks → s.mllik k = Val.nan)

/-! ### Segmentations, in the words of the specification

A segmentation of `[0, last]` with `k` breaks is given by the right end points
`es = [e_0, ..., e_(k-1)]` of its first `k` segments: the segments are
`[s_0 = 0, e_0]`, `[s_1 = e_0 + 1, e_1]`, ..., `[s_k = e_(k-1) + 1, last]`. -/

/-- The segment number `t`, `[s, e]`, is one the recurrence admits: for `t ≥ 1`
it starts at `s ≥ 3 t` and has `e - s ≥ 4`, and `L[s, e]` is not NaN. -/
def segOK (L : Nat → Val R) (n t s e : Nat) : Prop :=
  (1 ≤ t → 3 * t ≤ s ∧ s + 4 ≤ e) ∧ L (s + e * n) ≠ Val.nan

/-- Every segment of the segmentation, from segment number `t` starting at `s`
on, is admitted. -/
def admits (L : Nat → Val R) (n : Nat) : Nat → Nat → List Nat → Nat → Prop
  | t, s, [], last => segOK L n t s last
  | t, s, e :: es, last => segOK L n t s e ∧ admits L n (t + 1) (e + 1) es last

/-- The sum of `L[s_t, e_t]` over the segments, from the segment starting at `s` on. -/
def total (L : Nat → Val R) (n : Nat) : Nat → List Nat → Nat → R
  | s, [], last => (L (s + last * n)).toR
  | s, e :: es, last => (L (s + e * n)).toR + total L n (e + 1) es last

/-- The segmentation of `[0, last]` with break points `es` has `k` breaks and
is admitted by the recurrence. -/
def Admitted (L : Nat → Val R) (n k : Nat) (es : List Nat) (last : Nat) : Prop :=
  es.length = k ∧ admits L n 0 0 es last

/-- The segmentation of `[0, n-1]` with break points `es` is a best `k`-break
segmentation: it is admitted and no admitted `k`-break segmentation has a
greater total. -/
def BestSegmentation (L : Nat → Val R) (n k : Nat) (es : List Nat) : Prop :=
  Admitted L n k es (n - 1) ∧
    ∀ es', Admitted L n k es' (n - 1) → total L n 0 es' (n - 1) ≤ total L n 0 es (n - 1)

/-- The double `v` is the maximum of the totals of the admitted `k`-break
segmentations of `[0, n-1]`, and `-∞` when none is admitted. -/
def IsMaxTotal (L : Nat → Val R) (n k : Nat) (v : Val R) : Prop :=
  (∃ es, BestSegmentation L n k es ∧ v = Val.fin (total L n 0 es (n - 1))) ∨
    ((∀ es, ¬ Admitted L n k es (n - 1)) ∧ v = Val.ninf)

/-- The column `k` of the `n`-row table `bk` flags exactly the indices of `es`. -/
def FlagsExactly (bk : Nat → Int) (n k : Nat) (es : List Nat) : Prop :=
  ∀ j, j < n → (bk (j + k * n) = 1 ↔ j ∈ es)

/-- The number of entries equal to 1 in the column `k` of the `n`-row table `bk`. -/
def onesInColumn (bk : Nat → Int) (n k : Nat) : Nat :=
  ((List.range n).filter (fun j => decide (bk (j + k * n) = 1))).length

/-- An example matrix for `n = 8`: `L[i, j] = i + 8 j`, every entry finite. -/
def exampleL8 : Nat → Val Int := fun q => Val.fin (q : Int)

/-- An example matrix for `n = 4`: every entry is 5. -/
def exampleL4 : Nat → Val Int := fun _ => Val.fin 5

/-- Every entry of the `n × n` matrix is a finite number or NaN. -/
def FinOrNaN (L : Nat → Val R) (n : Nat) : Prop :=
  ∀ i j, i < n → j < n → L (i + j * n) = Val.nan ∨ ∃ x, L (i + j * n) = Val.fin x

end Mlwalk

/-! ## The model selector of `tadbit` (lines 797-812) -/

section Selector

variable {R : Type} [LinearOrderedRing R]

/-- The `int` expression `n_params = i + m*(8 + i*6)`. -/
def n_params (m i : Nat) : Nat := i + m * (8 + i * 6)

/-- The double `mllik[i] - n_params`, the score that the loop compares. -/
def score (m : Nat) (mllik : Nat → Val R) (i : Nat) : Val R :=
  Val.sub (mllik i) (Val.fin ((n_params m i : Nat) : R))

/-- The loop `for (i = 1 ; i < n/4 ; i++)` with its `break`, started at `i` with
`cnt` iterations left and the current `AIC`; the result is the value of `i`
after the loop. -/
def aic_loop (m : Nat) (mllik : Nat → Val R) : Nat → Nat → Val R → Nat
  | 0, i, _ => i
  | cnt + 1, i, AIC =>
    if Val.gt AIC (score m mllik i) then i
    else aic_loop m mllik cnt (i + 1) (score m mllik i)

/-- The value stored in `seg->nbreaks_opt`: `i - 1` after the loop that starts
at `i = 1` with `AIC = -INFINITY` (`i ≥ 1`, so the subtraction is that of `int`). -/
def nbreaks_opt (n m : Nat) (mllik : Nat → Val R) : Nat :=
  aic_loop m mllik (n / 4 - 1) 1 Val.ninf - 1

/-- The scores `score(1) ≤ score(2) ≤ ... ≤ score(k)` are non-decreasing. -/
def NonDecrUpTo (sc : Nat → Val R) (k : Nat) : Prop :=
  ∀ t, 1 ≤ t → t < k → Val.le (sc t) (sc (t + 1))

/-- An example `mllik` vector: entry `k` is `100 k`. -/
def exampleMllik : Nat → Val Int := fun k => Val.fin (100 * (k : Int))

end Selector

/-! ## The slice assembler `slice` (lines 236-317) -/

section Slice

variable {R : Type} [LinearOrderedRing R]

/-- The struct `ml_block`: four arrays and the number of entries in use. -/
structure ml_block (R : Type) where
  size : Nat
  counts : Nat → Val R
  dist : Nat → Val R
  weights : Nat → Val R
  lgamma : Nat → Val R

/-- The stores of lines 300-309 for the cell `(row, col)` into the block `l`.
`sqrt` is the library function. -/
def slice_store (log_gamma obs dist : Nat → Val R) (sqrt : Val R → Val R) (n : Nat)
    (row col l : Nat) (blocks : Nat → ml_block R) : Nat → ml_block R :=
  let pos := (blocks l).size
  let b0 := blocks l
  let b1 : ml_block R := { b0 with counts := setAt b0.counts pos (log_gamma (row + col * n)) }
  let b2 : ml_block R := { b1 with counts := setAt b1.counts pos (obs (row + col * n)) }
  let b3 : ml_block R := { b2 with dist := setAt b2.dist pos (dist (row + col * n)) }
  let w := sqrt (Val.mul (obs (row + row * n)) (obs (col + col * n)))
  let b4 : ml_block R := { b3 with weights := setAt b3.weights pos w }
  setAt blocks l { b4 with size := b4.size + 1 }

/-- Body of the double loop of `slice` for the cell `(row, col)` (lines 284-309). -/
def slice_cell (log_gamma obs dist : Nat → Val R) (sqrt : Val R → Val R)
    (n start end_ : Nat) (speed : Int) (col row : Nat) (blocks : Nat → ml_block R) :
    Nat → ml_block R :=
  if (obs (row + col * n)).isNaN then blocks
  else if speed > 1 ∧ Int.natAbs ((col : Int) - (row : Int)) > 200 then blocks
  else if row < start then slice_store log_gamma obs dist sqrt n row col 0 blocks
  else if row < col then slice_store log_gamma obs dist sqrt n row col 1 blocks
  else if row > end_ then slice_store log_gamma obs dist sqrt n row col 2 blocks
  else blocks

/-- The function `slice`: the three blocks `blocks[0..2]` after the call. -/
def slice (log_gamma obs dist : Nat → Val R) (sqrt : Val R → Val R)
    (n start end_ : Nat) (speed : Int) (blocks : Nat → ml_block R) : Nat → ml_block R :=
  let blocks0 := forLoop 0 3 (fun l b => setAt b l { b l with size := 0 }) blocks
  forLoop start (end_ + 1)
    (fun col b => forLoop 0 n
      (fun row b => slice_cell log_gamma obs dist sqrt n start end_ speed col row b) b)
    blocks0

/-! ### The blocks, in the words of the specification -/

/-- The cell `(row, col)` is retained: its observation is not NaN and, when the
speed is above 1, its offset `|col - row|` is at most 200. -/
def retained (obs : Nat → Val R) (n : Nat) (speed : Int) (rc : Nat × Nat) : Prop :=
  obs (rc.1 + rc.2 * n) ≠ Val.nan ∧
    (speed ≤ 1 ∨ Int.natAbs ((rc.2 : Int) - (rc.1 : Int)) ≤ 200)

/-- The cell `(row, col)` belongs to the block `l`: `row < start` for the top
block 0, `start ≤ row < col` for the middle block 1, `row > end` for the
bottom block 2. -/
def inBlock (start end_ l : Nat) (rc : Nat × Nat) : Prop :=
  (l = 0 ∧ rc.1 < start) ∨ (l = 1 ∧ start ≤ rc.1 ∧ rc.1 < rc.2) ∨ (l = 2 ∧ end_ < rc.1)

instance (obs : Nat → Val R) (n : Nat) (speed : Int) (rc : Nat × Nat) :
    Decidable (retained obs n speed rc) :=
  inferInstanceAs (Decidable (_ ∧ _))

instance (start end_ l : Nat) (rc : Nat × Nat) : Decidable (inBlock start end_ l rc) :=
  inferInstanceAs (Decidable (_ ∨ _))

/-- The scan order of `slice`: `a` comes before `b` when its column is smaller,
or the columns are equal and its row is smaller. -/
def scanBefore (a b : Nat × Nat) : Prop :=
  a.2 < b.2 ∨ (a.2 = b.2 ∧ a.1 < b.1)

/-- The block that the tests of lines 285-298 pick for the cell `(row, col)`,
if any. -/
def slice_target (obs : Nat → Val R) (n start end_ : Nat) (speed : Int) (col row : Nat) :
    Option Nat :=
  if (obs (row + col * n)).isNaN then none
  else if speed > 1 ∧ Int.natAbs ((col : Int) - (row : Int)) > 200 then none
  else if row < start then some 0
  else if row < col then some 1
  else if row > end_ then some 2
  else none

/-- The cells `(row, col)` of the columns `start .. start + cnt - 1`, in the
scan order of `slice`: column after column, rows `0 .. n - 1` ascending. -/
def scanCells (n start : Nat) : Nat → List (Nat × Nat)
  | 0 => []
  | cnt + 1 => scanCells n start cnt ++ (List.range n).map (fun row => (row, start + cnt))

/-- The cells that the specification puts in the block `l` of the slice
`(start, end)`, in scan order. -/
def blockCells (obs : Nat → Val R) (n start end_ : Nat) (speed : Int) (l : Nat) :
    List (Nat × Nat) :=
  (scanCells n start (end_ + 1 - start)).filter
    (fun rc => decide (retained obs n speed rc ∧ inBlock start end_ l rc))

/-- The block `b` lists the cells `cells` in order: as many entries as cells,
and the entry `pos` holds the observation and the distance of the cell `pos`. -/
def ListsCells (obs dist : Nat → Val R) (n : Nat) (b : ml_block R)
    (cells : List (Nat × Nat)) : Prop :=
  b.size = cells.length ∧
    ∀ pos row col, cells.get? pos = some (row, col) →
      b.counts pos = obs (row + col * n) ∧ b.dist pos = dist (row + col * n)

/-- What the specification says of the three blocks after `slice`: each block
lists its cells in scan order, its cells are exactly the retained cells of the
columns `start .. end` that the classification gives it, no block holds a cell
with `row = col` or `col < row ≤ end`, and without NaN and with `speed ≤ 1` the
sizes are `start * w`, `w * (w - 1) / 2` and `(n - 1 - end) * w` for
`w = end - start + 1`. -/
def SliceSpec (obs dist : Nat → Val R) (n start end_ : Nat) (speed : Int)
    (out : Nat → ml_block R) : Prop :=
  (∀ l, l < 3 → ListsCells obs dist n (out l) (blockCells obs n start end_ speed l)) ∧
  (∀ l rc, rc ∈ blockCells obs n start end_ speed l ↔
    (start ≤ rc.2 ∧ rc.2 ≤ end_ ∧ rc.1 < n ∧ retained obs n speed rc ∧
      inBlock start end_ l rc)) ∧
  (∀ l, (blockCells obs n start end_ speed l).Pairwise scanBefore) ∧
  (∀ l rc, rc ∈ blockCells obs n start end_ speed l →
    rc.1 ≠ rc.2 ∧ ¬ (rc.2 < rc.1 ∧ rc.1 ≤ end_)) ∧
  ((∀ q, obs q ≠ Val.nan) → speed ≤ 1 →
    (out 0).size = start * (end_ - start + 1) ∧
    (out 1).size = (end_ - start + 1) * (end_ - start) / 2 ∧
    (out 2).size = (n - 1 - end_) * (end_ - start + 1))

/-- The content of a block after the `malloc` and `memset` of `fill_llikmat`
(lines 478-488): all four arrays hold `0.0`. -/
def zero_block : ml_block R :=
  { size := 0
    counts := fun _ => Val.fin 0
    dist := fun _ => Val.fin 0
    weights := fun _ => Val.fin 0
    lgamma := fun _ => Val.fin 0 }

/-- Example inputs of `slice` over the integers: every observation is 1, every
pre-computed log-gamma is 7, and the distance of the flat index `q` is `q`. -/
def exampleObs : Nat → Val Int := fun _ => Val.fin 1

/-- The pre-computed log-gamma values of the example. -/
def exampleLg : Nat → Val Int := fun _ => Val.fin 7

/-- The distances of the example. -/
def exampleDist : Nat → Val Int := fun q => Val.fin (q : Int)

end Slice

/-! ## The matrix filler `fill_llikmat` (lines 432-536) and its task queue -/

section Fill

variable {R : Type} [LinearOrderedField R]

/-- The C expression `a / 2` on doubles. -/
def Val.half : Val R → Val R
  | Val.fin x => Val.fin (x / 2)
  | v => v

/-- The function `fit_slice` (lines 207-233).  The block fitter `poiss_reg`
(lines 107-205, a Newton-Raphson iteration on `exp` in floating point) is a
parameter of the fill phase. -/
def fit_slice (poiss_reg : ml_block R → Val R) (blocks : Nat → ml_block R) : Val R :=
  let top := poiss_reg (blocks 0)
  let mid := poiss_reg (blocks 1)
  let bot := poiss_reg (blocks 2)
  Val.add (Val.add (Val.half top) mid) (Val.half bot)

/-- The struct `thread_arg` that the workers share, as `tadbit` fills it (lines
707-717).  The matrix `llikmat` is part of the state; `verbose` only drives the
progress message. -/
structure thread_arg (R : Type) where
  n : Nat
  m : Nat
  obs : Nat → Nat → Val R
  dist : Nat → Val R
  log_gamma : Nat → Nat → Val R
  skip : Nat → Int
  speed : Int

/-- Where a worker stands: before an acquisition of the mutex, holding the job
it captured, or out of its loop. -/
inductive Pc where
  | idle
  | working (job : Nat)
  | exited
deriving DecidableEq

/-- A worker: its program point and its thread-local blocks. -/
structure Worker (R : Type) where
  pc : Pc
  blocks : Nat → ml_block R

/-- The state of the fill phase: the shared index `taskQ_i`, the matrix, the
workers, and two histories, oldest first: `handed`, the jobs handed out, and
`written`, the indices of the cells of `llikmat` that were stored.  The counter
`n_processed` only feeds the progress message and is left out. -/
structure FillState (R : Type) where
  taskQ_i : Nat
  llikmat : Nat → Val R
  workers : Nat → Worker R
  handed : List Nat
  written : List Nat

/-- The loop `while ((taskQ_i < n*n) && (skip[taskQ_i] > 0)) taskQ_i++` with
`bound = n*n`, run for at most `fuel` iterations; `bound - taskQ_i` iterations
are always enough. -/
def skip_scan (skip : Nat → Int) (bound : Nat) : Nat → Nat → Nat
  | 0, q => q
  | fuel + 1, q => if q < bound ∧ skip q > 0 then skip_scan skip bound fuel (q + 1) else q

/-- One acquisition of the mutex by the worker `w` (lines 494-505), as one
atomic step: advance over the skipped cells, then exit when the queue is empty,
otherwise capture the job and increment the index. -/
def acquire (arg : thread_arg R) (w : Nat) (s : FillState R) : FillState R :=
  let q := skip_scan arg.skip (arg.n * arg.n) (arg.n * arg.n - s.taskQ_i) s.taskQ_i
  if q ≥ arg.n * arg.n then
    { s with taskQ_i := q
             workers := setAt s.workers w { s.workers w with pc := Pc.exited } }
  else
    { s with taskQ_i := q + 1
             workers := setAt s.workers w { s.workers w with pc := Pc.working q }
             handed := s.handed ++ [q] }

/-- The computation of the cell of the job (lines 507-517) by the worker `w`. -/
def compute_job (poiss_reg : ml_block R → Val R) (sqrt : Val R → Val R) (arg : thread_arg R)
    (w job : Nat) (s : FillState R) : FillState R :=
  let i := job % arg.n
  let j := job / arg.n
  let r := forLoop 0 arg.m
    (fun k (p : (Nat → Val R) × (Nat → ml_block R)) =>
      let blocks := slice (arg.log_gamma k) (arg.obs k) arg.dist sqrt arg.n i j arg.speed p.2
      (setAt p.1 (i + j * arg.n)
        (Val.add (p.1 (i + j * arg.n)) (fit_slice poiss_reg blocks)), blocks))
    (setAt s.llikmat (i + j * arg.n) (Val.fin 0), (s.workers w).blocks)
  { s with llikmat := r.1
           workers := setAt s.workers w { pc := Pc.idle, blocks := r.2 }
           written := s.written ++ [i + j * arg.n] }

/-- One step of the worker `w`. -/
def worker_step (poiss_reg : ml_block R → Val R) (sqrt : Val R → Val R) (arg : thread_arg R)
    (w : Nat) (s : FillState R) : FillState R :=
  match (s.workers w).pc with
  | Pc.idle => acquire arg w s
  | Pc.working job => compute_job poiss_reg sqrt arg w job s
  | Pc.exited => s

/-- An interleaving of the workers `1 .. n_threads`: the list of the workers
that take the successive steps.  An entry that names no worker is skipped. -/
def run_workers (poiss_reg : ml_block R → Val R) (sqrt : Val R → Val R) (arg : thread_arg R)
    (n_threads : Nat) (sched : List Nat) (s : FillState R) : FillState R :=
  sched.foldl
    (fun s w => if 1 ≤ w ∧ w ≤ n_threads then worker_step poiss_reg sqrt arg w s else s) s

/-- The state when the threads are created: `taskQ_i = 0` (line 725), the
matrix as `tadbit` left it, every worker before its first acquisition with
blocks zeroed by `memset` (lines 476-489), no job handed out. -/
def fill_init (llikmat : Nat → Val R) : FillState R :=
  { taskQ_i := 0
    llikmat := llikmat
    workers := fun _ => { pc := Pc.idle, blocks := fun _ => zero_block }
    handed := []
    written := [] }

/-- What holds of the fill phase after every interleaving, for the workers
`1 .. n_threads`, the skip marks of `arg` and the initial matrix `l0`. -/
def FillInv (arg : thread_arg R) (n_threads : Nat) (l0 : Nat → Val R) (s : FillState R) :
    Prop :=
  s.handed.Pairwise (· < ·) ∧
  (∀ q ∈ s.handed, q < s.taskQ_i ∧ q < arg.n * arg.n ∧ ¬ (arg.skip q > 0)) ∧
  (∀ q, q < s.taskQ_i → q < arg.n * arg.n → ¬ (arg.skip q > 0) → q ∈ s.handed) ∧
  (∀ w, (s.workers w).pc = Pc.exited → arg.n * arg.n ≤ s.taskQ_i) ∧
  (∀ w, ¬ (1 ≤ w ∧ w ≤ n_threads) → (s.workers w).pc = Pc.idle) ∧
  (∀ q ∈ s.written, q ∈ s.handed) ∧
  (∀ q ∈ s.handed, q ∈ s.written ∨ ∃ w, (s.workers w).pc = Pc.working q) ∧
  (∀ w job, (s.workers w).pc = Pc.working job → job ∈ s.handed ∧ job ∉ s.written) ∧
  (∀ w w' job, (s.workers w).pc = Pc.working job → (s.workers w').pc = Pc.working job →
    w = w') ∧
  s.written.Nodup ∧
  (∀ q, q ∉ s.written → s.llikmat q = l0 q)

/-- Every worker has left its loop: `pthread_join` returns for all of them. -/
def AllExited (n_threads : Nat) (s : FillState R) : Prop :=
  ∀ w, 1 ≤ w → w ≤ n_threads → (s.workers w).pc = Pc.exited

instance (n_threads : Nat) (s : FillState R) : Decidable (AllExited n_threads s) :=
  inferInstanceAs (Decidable (∀ w, 1 ≤ w → w ≤ n_threads → _))

/-- A bound on the steps that the worker `w` can still take before it leaves its
loop: two for each index that `taskQ_i` has not passed, one more while it holds
a job. -/
def fill_measure (arg : thread_arg R) (w : Nat) (s : FillState R) : Nat :=
  2 * (arg.n * arg.n - s.taskQ_i) +
    (match (s.workers w).pc with
     | Pc.working _ => 1
     | _ => 0)

/-- The interleaving in which the workers `1 .. n_threads` run one after the
other, each for `steps` steps. -/
def seq_sched (steps : Nat) : Nat → List Nat
  | 0 => []
  | t + 1 => seq_sched steps t ++ List.replicate steps (t + 1)

/-- What holds of the task queue after an interleaving: the jobs handed out are
strictly increasing, each has a zero skip mark and is the flat index of its
cell, none is handed out twice; and once every worker has exited, every index
below `n*n` with a zero skip mark has been handed out exactly once, and the
cells written are exactly these indices. -/
def QueueSpec (arg : thread_arg R) (n_threads : Nat) (s : FillState R) : Prop :=
  s.handed.Pairwise (· < ·) ∧
  (∀ q ∈ s.handed, q < arg.n * arg.n ∧ arg.skip q = 0) ∧
  s.handed.Nodup ∧
  (∀ q ∈ s.handed, q % arg.n + q / arg.n * arg.n = q) ∧
  (AllExited n_threads s →
    (∀ q, q < arg.n * arg.n → arg.skip q = 0 → s.handed.count q = 1) ∧
    (∀ q, q ∈ s.written ↔ q < arg.n * arg.n ∧ arg.skip q = 0))

end Fill

/-! ## The entry function `tadbit` (lines 540-818) -/

section Tadbit

variable {R : Type} [LinearOrderedField R]

/-- The numeric functions that the model of `tadbit` takes as given: the
library functions `sqrt`, `log` (at the `int` value `abs(i-j)`) and `lgamma`,
the block fitter `poiss_reg`, and the statistics of the pre-screen (lines
649-678: the differentiated directionality index `DI` and the `cutoff`, from
the compacted size, the replicate count and the compacted observations). -/
structure Numerics (R : Type) where
  sqrt : Val R → Val R
  log : Nat → Val R
  lgamma : Val R → Val R
  poiss_reg : ml_block R → Val R
  prescreen_stats : Nat → Nat → (Nat → Nat → Val R) → (Nat → Val R) × Val R

/-- The struct `tadbit_output`. -/
structure tadbit_output (R : Type) where
  maxbreaks : Nat
  nbreaks_opt : Nat
  llikmat : Nat → Val R
  mllik : Nat → Val R
  bkpts : Nat → Int

/-- The matrix `init_dist` (lines 567-574): the entry `l`, counted row after
row, is `log(abs(i-j))`. -/
def init_dist (log : Nat → Val R) (N : Nat) : Nat → Val R :=
  (forLoop 0 N
    (fun i (p : Nat × (Nat → Val R)) =>
      forLoop 0 N
        (fun j (p : Nat × (Nat → Val R)) =>
          (p.1 + 1, setAt p.2 p.1 (log (Int.natAbs ((i : Int) - (j : Int))))))
        p)
    (0, fun _ => Val.nan)).2

/-- The removal mask (lines 577-585): `remove[i] = 1` as soon as one replicate
has `obs[k][i+i*N] < 1.0`. -/
def remove_flags (obs : Nat → Nat → Val R) (N m : Nat) : Nat → Int :=
  forLoop 0 N
    (fun i rem =>
      forLoop 0 m
        (fun k rem => if Val.lt (obs k (i + i * N)) (Val.fin 1) then setAt rem i 1 else rem)
        (setAt rem i 0))
    (fun _ => 0)

/-- The compacted dimension (lines 588-590): `n -= remove[i]` for every `i`. -/
def compact_n (N : Nat) (remove : Nat → Int) : Int :=
  forLoop 0 N (fun i n => n - remove i) (N : Int)

/-- The compaction of one replicate (lines 597-610), on `(l, log_gamma[k],
new_obs[k], dist)`. -/
def compact_rep (lgammaF : Val R → Val R) (obs_k idist : Nat → Val R) (N : Nat)
    (remove : Nat → Int) (dist0 : Nat → Val R) :
    Nat × (Nat → Val R) × (Nat → Val R) × (Nat → Val R) :=
  forLoop 0 N
    (fun j p =>
      forLoop 0 N
        (fun i (p : Nat × (Nat → Val R) × (Nat → Val R) × (Nat → Val R)) =>
          if remove i ≠ 0 ∨ remove j ≠ 0 then p
          else
            (p.1 + 1,
              setAt p.2.1 p.1 (lgammaF (obs_k (i + j * N))),
              setAt p.2.2.1 p.1 (obs_k (i + j * N)),
              setAt p.2.2.2 p.1 (idist (i + j * N))))
        p)
    (0, (fun _ => Val.nan), (fun _ => Val.nan), dist0)

/-- The arrays `log_gamma`, `new_obs` and `dist` after the loop over the
replicates (lines 596-611). -/
def compact_all (lgammaF : Val R → Val R) (obs : Nat → Nat → Val R) (idist : Nat → Val R)
    (N m : Nat) (remove : Nat → Int) :
    (Nat → Nat → Val R) × (Nat → Nat → Val R) × (Nat → Val R) :=
  forLoop 0 m
    (fun k (p : (Nat → Nat → Val R) × (Nat → Nat → Val R) × (Nat → Val R)) =>
      let r := compact_rep lgammaF (obs k) idist N remove p.2.2
      (setAt p.1 k r.2.1, setAt p.2.1 k r.2.2.1, r.2.2.2))
    ((fun _ _ => Val.nan), (fun _ _ => Val.nan), (fun _ => Val.nan))

/-- The value of an `int` whose four bytes are set to 1 by `memset`. -/
def memset_one : Int := 16843009

/-- The initial skip marks (lines 631-640): `memset(skip, 1, ...)`, then 0 on
the cells `(i, j)` with `i + 3 ≤ j < n`. -/
def skip_init (n : Nat) : Nat → Int :=
  forLoop 0 (n - 3)
    (fun i s => forLoop (i + 3) n (fun j s => setAt s (i + j * n) 0) s)
    (forLoop 0 (n * n) (fun l s => setAt s l memset_one) (fun _ => 0))

/-- The `int` flag `TAD_too_large_for_speed_setting` (lines 681-684). -/
def too_large (speed : Int) (n i j : Nat) : Bool :=
  (decide (speed = 3) && decide ((j : Int) - (i : Int) > ((n / 2 : Nat) : Int))) ||
  (decide (speed = 4) && decide ((j : Int) - (i : Int) > ((n / 4 : Nat) : Int))) ||
  (decide (speed = 5) && decide ((j : Int) - (i : Int) > ((n / 8 : Nat) : Int)))

/-- The marking loop of the pre-screen (lines 679-696), with `length = 10`.  The
operator `||` does not evaluate `DI[i-1]` when `i < 11`, so `i - 1` is that of
`int`. -/
def prescreen_mark (speed : Int) (n : Nat) (DI : Nat → Val R) (cutoff : Val R)
    (skip : Nat → Int) : Nat → Int :=
  forLoop 0 (n - 3)
    (fun i s => forLoop (i + 3) n
      (fun j s =>
        if too_large speed n i j then setAt s (i + j * n) 1
        else
          let ii := decide (i < 10 + 1) || decide ((i : Int) > (n : Int) - 10 - 2) ||
            Val.gt (DI (i - 1)) cutoff
          let jj := decide (j < 10 + 1) || decide ((j : Int) > (n : Int) - 10 - 2) ||
            Val.gt (DI j) cutoff
          setAt s (i + j * n) (if ii && jj then 0 else 1))
      s)
    skip

/-- The skip marks that the workers read: the initial marks, changed by the
pre-screen when `speed > 0` (line 642). -/
def skip_marks (env : Numerics R) (speed : Int) (n m : Nat) (obs : Nat → Nat → Val R) :
    Nat → Int :=
  if speed > 0 then
    prescreen_mark speed n (env.prescreen_stats n m obs).1 (env.prescreen_stats n m obs).2
      (skip_init n)
  else skip_init n

/-- The expansion of the breakpoint table (lines 758-768), on `(l, resized_bkpts)`. -/
def resize_bkpts (N n maxbreaks : Nat) (remove : Nat → Int) (bkpts : Nat → Int) :
    Nat × (Nat → Int) :=
  forLoop 0 N
    (fun i (p : Nat × (Nat → Int)) =>
      if remove i = 0 then
        (p.1 + 1,
          forLoop 0 maxbreaks (fun j r => setAt r (i + j * N) (bkpts (p.1 + j * n))) p.2)
      else p)
    (0, forLoop 0 (N * maxbreaks) (fun q r => setAt r q 0) (fun _ => 0))

/-- The expansion of the matrix (lines 772-785).  The first loop stores NaN
`N*N` times at the index `l` that the previous loop left; `fresh` is the
content of the new buffer. -/
def resize_llikmat (N n : Nat) (remove : Nat → Int) (llikmat : Nat → Val R) (l0 : Nat)
    (fresh : Nat → Val R) : Nat → Val R :=
  (forLoop 0 N
    (fun i (p : Nat × (Nat → Val R)) =>
      if remove i ≠ 0 then p
      else
        (p.1 + 1,
          (forLoop 0 N
            (fun j (q : Nat × (Nat → Val R)) =>
              if remove j ≠ 0 then q
              else (q.1 + 1, setAt q.2 (i + j * N) (llikmat (p.1 + q.1 * n))))
            (0, p.2)).2))
    (0, forLoop 0 (N * N) (fun _ r => setAt r l0 Val.nan) fresh)).2

/-- The compacted dimension `n` of `tadbit` after the removal (line 590). -/
def tadbit_n (obs : Nat → Nat → Val R) (N m : Nat) : Nat :=
  (compact_n N (remove_flags obs N m)).toNat

/-- The number of workers: `n_threads`, or the number `nprocs` of online
processors when `n_threads < 1` (lines 618-624). -/
def tadbit_threads (n_threads : Int) (nprocs : Nat) : Nat :=
  if n_threads < 1 then nprocs else n_threads.toNat

/-- The argument `arg` that `tadbit` hands to its workers (lines 592-717). -/
def tadbit_arg (env : Numerics R) (obs : Nat → Nat → Val R) (N m : Nat) (speed : Int) :
    thread_arg R :=
  let remove := remove_flags obs N m
  let n := tadbit_n obs N m
  let c := compact_all env.lgamma obs (init_dist env.log N) N m remove
  { n := n
    m := m
    obs := c.2.1
    dist := c.2.2
    log_gamma := c.1
    skip := skip_marks env speed n m c.2.1
    speed := speed }

/-- The matrix `llikmat` when the threads are created (lines 626-629). -/
def tadbit_llikmat0 (n : Nat) : Nat → Val R :=
  forLoop 0 (n * n) (fun l a => setAt a l Val.nan) (fun _ => Val.nan)

/-- The state of the fill phase of `tadbit` after the interleaving `sched`. -/
def tadbit_fill (env : Numerics R) (obs : Nat → Nat → Val R) (N m : Nat) (n_threads : Int)
    (nprocs : Nat) (speed : Int) (sched : List Nat) : FillState R :=
  run_workers env.poiss_reg env.sqrt (tadbit_arg env obs N m speed)
    (tadbit_threads n_threads nprocs) sched (fill_init (tadbit_llikmat0 (tadbit_n obs N m)))

/-- The function `tadbit`, for the interleaving `sched` of its workers:
`some` output when the interleaving lets every worker leave its loop (the joins
return), `none` otherwise.  `nprocs` is the number of online processors, used
when `n_threads < 1`; `fresh` is the content of the buffer of the resized
matrix when it is allocated.  The failures of `pthread_mutex_init` and
`pthread_create` are not modelled. -/
def tadbit (env : Numerics R) (obs : Nat → Nat → Val R) (N m : Nat) (n_threads : Int)
    (nprocs : Nat) (speed : Int) (sched : List Nat) (fresh : Nat → Val R) :
    Option (tadbit_output R) :=
  let remove := remove_flags obs N m
  let n := tadbit_n obs N m
  let s := tadbit_fill env obs N m n_threads nprocs speed sched
  if AllExited (tadbit_threads n_threads nprocs) s then
    let maxbreaks := n / 4
    let w := mlwalk s.llikmat n m maxbreaks (fun _ => Val.nan) (fun _ => 0)
    let rb := resize_bkpts N n maxbreaks remove w.2
    let rl := resize_llikmat N n remove s.llikmat rb.1 fresh
    some
      { maxbreaks := maxbreaks
        nbreaks_opt := nbreaks_opt n m w.1
        llikmat := rl
        mllik := w.1
        bkpts := rb.2 }
  else none

/-- The observations of the seed scenario: a single replicate with 10 on the
diagonal of the `8 × 8` matrix and 1 elsewhere. -/
def seedObs : Nat → Nat → Val R := fun _ q =>
  if q % 8 = q / 8 then Val.fin 10 else Val.fin 1

/-- What `tadbit` does in the seed scenario (`speed = 0`), for the interleaving
`sched`: no index is removed (`n = 8`), every cell `(i, j)` with `j - i ≥ 3` is
unskipped and computed, and `tadbit` returns `maxbreaks = 2` and
`nbreaks_opt = 1`. -/
def SeedSpec (env : Numerics R) (n_threads : Int) (nprocs : Nat) (sched : List Nat)
    (fresh : Nat → Val R) : Prop :=
  tadbit_n (seedObs : Nat → Nat → Val R) 8 1 = 8 ∧
  (∀ i j, i + 3 ≤ j → j < 8 →
    (tadbit_arg env seedObs 8 1 0).skip (i + j * 8) = 0 ∧
    (i + j * 8) ∈ (tadbit_fill env seedObs 8 1 n_threads nprocs 0 sched).written) ∧
  ∃ out, tadbit env seedObs 8 1 n_threads nprocs 0 sched fresh = some out ∧
    out.maxbreaks = 2 ∧ out.nbreaks_opt = 1

/-- Numeric functions for the examples, over the rationals: every one returns 0. -/
def exampleEnv : Numerics ℚ :=
  { sqrt := fun _ => Val.fin 0
    log := fun _ => Val.fin 0
    lgamma := fun _ => Val.fin 0
    poiss_reg := fun _ => Val.fin 0
    prescreen_stats := fun _ _ _ => (fun _ => Val.fin 0, Val.fin 0) }

end Tadbit

/-! ## The block fitter `poiss_reg` -/

section PoissReg

variable {R : Type} [LinearOrderedField R]

/-- The C expression `a / b` on doubles.  Exact arithmetic has one zero, taken
as `+0`: a finite non-zero number over zero is the infinity of its sign. -/
def Val.div : Val R → Val R → Val R
  | Val.fin a, Val.fin b =>
      if b = 0 then (if 0 < a then Val.pinf else if a < 0 then Val.ninf else Val.nan)
      else Val.fin (a / b)
  | Val.nan, _ => Val.nan
  | _, Val.nan => Val.nan
  | Val.fin _, Val.pinf => Val.fin 0
  | Val.fin _, Val.ninf => Val.fin 0
  | Val.pinf, Val.fin b => if b < 0 then Val.ninf else Val.pinf
  | Val.ninf, Val.fin b => if b < 0 then Val.pinf else Val.ninf
  | Val.pinf, Val.pinf => Val.nan
  | Val.pinf, Val.ninf => Val.nan
  | Val.ninf, Val.pinf => Val.nan
  | Val.ninf, Val.ninf => Val.nan

/-- The library function `exp` on doubles, from the exponential `exp` of the
numbers: `exp(+∞) = +∞`, `exp(-∞) = 0`. -/
def Val.exp (exp : R → R) : Val R → Val R
  | Val.fin x => Val.fin (exp x)
  | Val.pinf => Val.pinf
  | Val.ninf => Val.fin 0
  | Val.nan => Val.nan

/-- The C expression `f*f + g*g`. -/
def sqnorm (f g : Val R) : Val R := Val.add (Val.mul f f) (Val.mul g g)

/-- The function `recompute_fg` (lines 48-104): the pair `(f, g)`. -/
def recompute_fg (exp : R → R) (blk : ml_block R) (a b da db : Val R) : Val R × Val R :=
  forLoop 0 blk.size
    (fun i (p : Val R × Val R) =>
      let tmp := Val.sub
        (Val.mul (blk.weights i)
          (Val.exp exp (Val.add (Val.add a da) (Val.mul (Val.add b db) (blk.dist i)))))
        (blk.counts i)
      (Val.add p.1 tmp, Val.add p.2 (Val.mul tmp (blk.dist i))))
    (Val.fin 0, Val.fin 0)

/-- The derivative loop of `poiss_reg` (lines 161-168): `(dfda, dgda, dgdb)`. -/
def derivs (exp : R → R) (blk : ml_block R) (a b : Val R) : Val R × Val R × Val R :=
  forLoop 0 blk.size
    (fun i (p : Val R × Val R × Val R) =>
      let tmp := Val.mul (blk.weights i) (Val.exp exp (Val.add a (Val.mul b (blk.dist i))))
      (Val.add p.1 tmp, Val.add p.2.1 (Val.mul tmp (blk.dist i)),
        Val.add p.2.2 (Val.mul (Val.mul tmp (blk.dist i)) (blk.dist i))))
    (Val.fin 0, Val.fin 0, Val.fin 0)

/-- The update `(da, db)` of lines 161-173, at the parameters `(a, b)` with the
gradient `(f, g)`. -/
def newton_update (exp : R → R) (blk : ml_block R) (a b f g : Val R) : Val R × Val R :=
  let dfda := (derivs exp blk a b).1
  let dgda := (derivs exp blk a b).2.1
  let dgdb := (derivs exp blk a b).2.2
  let dfdb := dgda
  let denom := Val.sub (Val.mul dfdb dgda) (Val.mul dfda dgdb)
  (Val.div (Val.sub (Val.mul f dgdb) (Val.mul g dfdb)) denom,
    Val.div (Val.sub (Val.mul g dfda) (Val.mul f dgda)) denom)

/-- The variables of the backtracking loop: the step and the gradient there. -/
structure BtState (R : Type) where
  da : Val R
  db : Val R
  f : Val R
  g : Val R

/-- The backtracking loop (lines 180-184): while the squared gradient is above
`oldgrad`, halve the step.  The loop has no bound of its own in the source; here
it may run its body `fuel` times and gives `none` when that is not enough. -/
def backtrack (exp : R → R) (blk : ml_block R) (a b oldgrad : Val R) :
    Nat → BtState R → Option (BtState R)
  | 0, s => if Val.gt (sqnorm s.f s.g) oldgrad then none else some s
  | fuel + 1, s =>
      if Val.gt (sqnorm s.f s.g) oldgrad then
        let da := Val.half s.da
        let db := Val.half s.db
        let fg := recompute_fg exp blk a b da db
        backtrack exp blk a b oldgrad fuel { da := da, db := db, f := fg.1, g := fg.2 }
      else some s

/-- The variables of the Newton-Raphson loop of `poiss_reg`.  The field `bodies`
is not in the source: it counts the executions of the loop body. -/
structure NRState (R : Type) where
  a : Val R
  b : Val R
  da : Val R
  db : Val R
  f : Val R
  g : Val R
  iter : Nat
  bodies : Nat

/-- The body of the Newton-Raphson loop (lines 160-188), entered with `iter`
already incremented by the loop condition. -/
def nr_body (exp : R → R) (fuel : Nat) (blk : ml_block R) (oldgrad : Val R)
    (s : NRState R) : Option (NRState R) :=
  let u := newton_update exp blk s.a s.b s.f s.g
  let fg := recompute_fg exp blk s.a s.b u.1 u.2
  match backtrack exp blk s.a s.b oldgrad fuel { da := u.1, db := u.2, f := fg.1, g := fg.2 } with
  | none => none
  | some t =>
      some { a := Val.add s.a t.da, b := Val.add s.b t.db, da := t.da, db := t.db,
             f := t.f, g := t.g, iter := s.iter, bodies := s.bodies + 1 }

/-- The loop `while ((oldgrad = f*f + g*g) > TOLERANCE && iter++ < MAXITER)`
(line 159).  `&&` increments `iter` only when the first test holds.  The first
argument bounds the number of bodies; `MAXITER` of them is always enough. -/
def nr_loop (exp : R → R) (TOLERANCE : R) (MAXITER : Nat) (fuel : Nat) (blk : ml_block R) :
    Nat → NRState R → Option (NRState R)
  | 0, s =>
      if Val.gt (sqnorm s.f s.g) (Val.fin TOLERANCE) then
        if s.iter < MAXITER then none else some { s with iter := s.iter + 1 }
      else some s
  | rem + 1, s =>
      if Val.gt (sqnorm s.f s.g) (Val.fin TOLERANCE) then
        if s.iter < MAXITER then
          match nr_body exp fuel blk (sqnorm s.f s.g) { s with iter := s.iter + 1 } with
          | none => none
          | some t => nr_loop exp TOLERANCE MAXITER fuel blk rem t
        else some { s with iter := s.iter + 1 }
      else some s

/-- The state of `poiss_reg` when the Newton-Raphson loop is left (lines
150-190), for a block of size at least 3. -/
def poiss_reg_run (exp : R → R) (TOLERANCE : R) (MAXITER : Nat) (fuel : Nat)
    (blk : ml_block R) : Option (NRState R) :=
  let fg := recompute_fg exp blk (Val.fin 0) (Val.fin 0) (Val.fin 0) (Val.fin 0)
  nr_loop exp TOLERANCE MAXITER fuel blk MAXITER
    { a := Val.fin 0, b := Val.fin 0, da := Val.fin 0, db := Val.fin 0,
      f := fg.1, g := fg.2, iter := 0, bodies := 0 }

/-- The sum of lines 197-203, which `poiss_reg` returns. -/
def final_llik (exp : R → R) (blk : ml_block R) (a b : Val R) : Val R :=
  forLoop 0 blk.size
    (fun i llik =>
      Val.add llik
        (Val.sub
          (Val.add (Val.exp exp (Val.add a (Val.mul b (blk.dist i))))
            (Val.mul (blk.counts i) (Val.add a (Val.mul b (blk.dist i)))))
          (blk.lgamma i)))
    (Val.fin 0)

/-- The function `poiss_reg` (lines 107-205).  The constants `TOLERANCE` and
`MAXITER` of `tadbit.h` and the library function `exp` are parameters; `none`
says that a backtracking loop did not stop within `fuel` halvings. -/
def poiss_reg (exp : R → R) (TOLERANCE : R) (MAXITER : Nat) (fuel : Nat)
    (blk : ml_block R) : Option (Val R) :=
  if blk.size < 1 then some (Val.fin 0)
  else if blk.size < 3 then some Val.nan
  else
    match poiss_reg_run exp TOLERANCE MAXITER fuel blk with
    | none => none
    | some s => if s.iter ≥ MAXITER then some Val.nan else some (final_llik exp blk s.a s.b)

/-! ### The model of the fit, in the words of the specification -/

/-- The sum of `t i` over the entries `i < n` of a block. -/
def blockSum (n : Nat) (t : Nat → R) : R := ((List.range n).map t).sum

/-- The log-likelihood of the model at `(a, b)`: the sum over the block of
`-w_i*exp(a + b*d_i) + k_i*(log w_i + a + b*d_i) - lgamma_i`. -/
def model_llik (exp log : R → R) (blk : ml_block R) (a b : R) : R :=
  blockSum blk.size (fun i =>
    -((blk.weights i).toR * exp (a + b * (blk.dist i).toR))
      + (blk.counts i).toR * (log ((blk.weights i).toR) + a + b * (blk.dist i).toR)
      - (blk.lgamma i).toR)

/-- The entry `H_aa = sum w_i e^(a + b d_i)` of the Newton system. -/
def H_aa (exp : R → R) (blk : ml_block R) (a b : R) : R :=
  blockSum blk.size (fun i => (blk.weights i).toR * exp (a + b * (blk.dist i).toR))

/-- The entry `H_ab = sum w_i e^(a + b d_i) d_i` of the Newton system. -/
def H_ab (exp : R → R) (blk : ml_block R) (a b : R) : R :=
  blockSum blk.size (fun i =>
    (blk.weights i).toR * exp (a + b * (blk.dist i).toR) * (blk.dist i).toR)

/-- The entry `H_bb = sum w_i e^(a + b d_i) d_i^2` of the Newton system. -/
def H_bb (exp : R → R) (blk : ml_block R) (a b : R) : R :=
  blockSum blk.size (fun i =>
    (blk.weights i).toR * exp (a + b * (blk.dist i).toR) * (blk.dist i).toR ^ 2)

/-- The block has finite numbers in its entries `0 .. size-1`. -/
def FiniteBlock (blk : ml_block R) : Prop :=
  ∀ i, i < blk.size →
    (blk.weights i).isFin = true ∧ (blk.dist i).isFin = true ∧ (blk.counts i).isFin = true

/-- A block of three observations with `k_i = w_i = 1`, distances `0, 1, 2` and
`lgamma_i = 0`. -/
def unitBlock : ml_block R :=
  { size := 3
    counts := fun _ => Val.fin 1
    dist := fun i => Val.fin (i : R)
    weights := fun _ => Val.fin 1
    lgamma := fun _ => Val.fin 0 }

/-- A block of three observations whose weights are NaN. -/
def nanBlock : ml_block R :=
  { size := 3
    counts := fun _ => Val.fin 1
    dist := fun i => Val.fin (i : R)
    weights := fun _ => Val.nan
    lgamma := fun _ => Val.fin 0 }

end PoissReg

section PoissRegSpec

variable {R : Type} [LinearOrderedField R]

/-- What holds of the state `t` at the exit of the Newton-Raphson loop: the body
ran at most `MAXITER` times, `(f, g)` is the gradient at `(a, b)`, and either the
first test of the loop condition failed (the squared gradient is not above
`TOLERANCE`, `iter` counts the bodies) or the second did (`iter` has passed
`MAXITER`). -/
def NRExit (exp : R → R) (TOLERANCE : R) (MAXITER : Nat) (blk : ml_block R)
    (t : NRState R) : Prop :=
  t.bodies ≤ MAXITER ∧
  (t.f, t.g) = recompute_fg exp blk t.a t.b (Val.fin 0) (Val.fin 0) ∧
  ((t.iter = t.bodies ∧ Val.gt (sqnorm t.f t.g) (Val.fin TOLERANCE) = false) ∨
    (t.iter = MAXITER + 1 ∧ t.bodies = MAXITER))

/-- The sum that line 201 adds up, on the numbers: `exp(a + b*d_i) +
k_i*(a + b*d_i) - lgamma_i` over the block. -/
def returned_llik (exp : R → R) (blk : ml_block R) (a b : R) : R :=
  blockSum blk.size (fun i =>
    exp (a + b * (blk.dist i).toR) + (blk.counts i).toR * (a + b * (blk.dist i).toR)
      - (blk.lgamma i).toR)

/-- A block of three observations at the same distance, with `k_i = 1` and
`w_i = 2`. -/
def flatBlock : ml_block R :=
  { size := 3
    counts := fun _ => Val.fin 1
    dist := fun _ => Val.fin 1
    weights := fun _ => Val.fin 2
    lgamma := fun _ => Val.fin 0 }

end PoissRegSpec

/-! ## The statistics of the pre-screen, with every array access checked -/

section PrescreenChecked

variable {R : Type} [LinearOrderedField R] [FloorRing R]

/-- The arrays that the pre-screen reads and writes. -/
inductive PArray where
  | obs
  | DI
  | absdDI
  | copy
  | skip
deriving DecidableEq

/-- What stops the checked pre-screen: an access to `array` at `index` outside
`0 .. length-1`, or the conversion to `int` of a double that is not finite. -/
inductive Fault where
  | outOfBounds (array : PArray) (index : Int) (length : Int)
  | badCast
deriving DecidableEq

/-- The read `a[idx]` of an array of `len` entries. -/
def readAt {α : Type} (arr : PArray) (len : Int) (a : Nat → α) (idx : Int) : Except Fault α :=
  if 0 ≤ idx ∧ idx < len then Except.ok (a idx.toNat)
  else Except.error (Fault.outOfBounds arr idx len)

/-- The store `a[idx] = v` into an array of `len` entries. -/
def writeAt {α : Type} (arr : PArray) (len : Int) (a : Nat → α) (idx : Int) (v : α) :
    Except Fault (Nat → α) :=
  if 0 ≤ idx ∧ idx < len then Except.ok (setAt a idx.toNat v)
  else Except.error (Fault.outOfBounds arr idx len)

/-- A `for` loop whose body may stop on a fault. -/
def forLoopE {σ : Type} (lo hi : Nat) (body : Nat → σ → Except Fault σ) (s : σ) :
    Except Fault σ :=
  forLoop lo hi (fun i r => r.bind (body i)) (Except.ok s)

/-- The C expression `-a` on doubles. -/
def Val.neg : Val R → Val R
  | Val.fin x => Val.fin (-x)
  | Val.pinf => Val.ninf
  | Val.ninf => Val.pinf
  | Val.nan => Val.nan

/-- The conversion `(int) x` of a finite double: the fractional part is dropped. -/
def truncInt (x : R) : Int := if 0 ≤ x then Int.floor x else Int.ceil x

/-- The array `copy` of `get_quantile` after `qsort` with `cmp`: the first `n`
entries of `array` in descending order.  (With a NaN among them `cmp` is not an
order and the C library fixes no result; this is the one of insertion sort.) -/
def sorted_copy (array : Nat → Val R) (n : Int) : List (Val R) :=
  List.insertionSort (fun a b => Val.lt a b = false) ((List.range n.toNat).map array)

/-- The function `get_quantile` (lines 32-46). -/
def get_quantile (array : Nat → Val R) (n : Int) (quantile : Val R) : Except Fault (Val R) :=
  let q1 := if Val.lt quantile (Val.fin 0) then Val.fin 0 else quantile
  let q2 := if Val.gt q1 (Val.fin 1) then Val.fin 1 else q1
  let copy := sorted_copy array n
  match Val.mul (Val.fin (((n - 1 : Int) : R))) q2 with
  | Val.fin x => readAt PArray.copy n (fun i => copy.getD i Val.nan) (truncInt x)
  | _ => Except.error Fault.badCast

/-- The four statements of lines 657-660, for the entry `i` of `DI` and the
offset `j` in the replicate `obs_k` (an array of `n*n` doubles). -/
def di_step (sqrt : Val R → Val R) (obs_k : Nat → Val R) (n : Nat) (i j : Nat)
    (DI : Nat → Val R) : Except Fault (Nat → Val R) := do
  let nn : Int := (n : Int) * (n : Int)
  let o1 ← readAt PArray.obs nn obs_k ((i : Int) + (i : Int) * n)
  let o2 ← readAt PArray.obs nn obs_k ((i : Int) - j + ((i : Int) - j) * n)
  let potency := sqrt (Val.mul o1 o2)
  let o3 ← readAt PArray.obs nn obs_k ((i : Int) - j + (i : Int) * n)
  let d0 ← readAt PArray.DI n DI i
  let DI1 ← writeAt PArray.DI n DI i (Val.add d0 (Val.div o3 potency))
  let o4 ← readAt PArray.obs nn obs_k ((i : Int) + (i : Int) * n)
  let o5 ← readAt PArray.obs nn obs_k ((i : Int) + j + ((i : Int) + j) * n)
  let potency := sqrt (Val.mul o4 o5)
  let o6 ← readAt PArray.obs nn obs_k ((i : Int) + ((i : Int) + j) * n)
  let d1 ← readAt PArray.DI n DI1 i
  writeAt PArray.DI n DI1 i (Val.sub d1 (Val.div o6 potency))

/-- The directionality index (lines 651-663), with `length = 10`: `DI` is
allocated with `n` entries and zeroed. -/
def di_index (sqrt : Val R → Val R) (obs : Nat → Nat → Val R) (n m : Nat) :
    Except Fault (Nat → Val R) :=
  forLoopE 10 (n - 10)
    (fun i DI => do
      let DI0 ← writeAt PArray.DI n DI i (Val.fin 0)
      forLoopE 0 m
        (fun k DI => forLoopE 1 (10 + 1) (fun j DI => di_step sqrt (obs k) n i j DI) DI)
        DI0)
    (fun _ => Val.fin 0)

/-- The differentiation of `DI` with circular boundary (lines 665-669). -/
def di_diff (n : Nat) (DI : Nat → Val R) : Except Fault (Nat → Val R) := do
  let first_value ← readAt PArray.DI n DI 10
  let DI1 ← forLoopE 10 (n - 10 - 1)
    (fun i DI => do
      let x ← readAt PArray.DI n DI ((i : Int) + 1)
      let y ← readAt PArray.DI n DI i
      writeAt PArray.DI n DI i (Val.sub x y))
    DI
  let last ← readAt PArray.DI n DI1 ((n : Int) - 10 - 1)
  writeAt PArray.DI n DI1 ((n : Int) - 10 - 1) (Val.sub first_value last)

/-- The array `absdDI` (lines 671-674), allocated with `n - 2*length` entries. -/
def abs_diff (n : Nat) (DI : Nat → Val R) : Except Fault (Nat → Val R) :=
  forLoopE 10 (n - 10)
    (fun i absdDI => do
      let x ← readAt PArray.DI n DI i
      let y ← readAt PArray.DI n DI i
      writeAt PArray.absdDI ((n : Int) - 2 * 10) absdDI ((i : Int) - 10)
        (if Val.gt x (Val.fin 0) then y else Val.neg y))
    (fun _ => Val.nan)

/-- The statistics of the pre-screen (lines 649-678): the differentiated `DI`
and the `cutoff`, or the first fault.  `n` is the compacted size, `obs` the
compacted replicates. -/
def prescreen_stats_checked (sqrt : Val R → Val R) (obs : Nat → Nat → Val R) (n m : Nat) :
    Except Fault ((Nat → Val R) × Val R) := do
  let DI0 ← di_index sqrt obs n m
  let DI ← di_diff n DI0
  let absdDI ← abs_diff n DI
  let q ← get_quantile absdDI ((n : Int) - 2 * 10) (Val.fin (1 / 2))
  let mad := Val.mul (Val.fin (14826 / 10000)) q
  let cut200 ← get_quantile DI n (Val.div (Val.fin 200) (Val.fin (n : R)))
  let cutoff :=
    if Val.gt cut200 (Val.mul (Val.fin (195 / 100)) mad) then Val.mul (Val.fin (195 / 100)) mad
    else cut200
  pure (DI, cutoff)

end PrescreenChecked

/-! ## The expansion of the outputs, in the words of the specification -/

section Resize

variable {R : Type} [LinearOrderedField R]

/-- The rank of `x`: the number of kept indices (`remove[i] = 0`) below `x`. -/
def rank (remove : Nat → Int) (x : Nat) : Nat :=
  ((List.range x).filter (fun i => remove i = 0)).length

/-- The number of removed indices below `N`. -/
def removedCount (remove : Nat → Int) (N : Nat) : Nat :=
  ((List.range N).filter (fun i => remove i ≠ 0)).length

/-- Observations with `N = 2` and one replicate: `obs[0,0] = 0`, the other
entries are 1, so the index 0 is removed. -/
def removedObs : Nat → Nat → Val R := fun _ q => if q = 0 then Val.fin 0 else Val.fin 1

end Resize

/-! ## The segments of a column of break points -/

section SegmentsSpec

/-- The segments `(first, last)` of `[s, last]` that the break points `es`
encode: a segment ends at each flagged index and at `last`, the next one starts
right after. -/
def segmentsFrom : Nat → List Nat → Nat → List (Nat × Nat)
  | s, [], last => [(s, last)]
  | s, e :: es, last => (s, e) :: segmentsFrom (e + 1) es last

end SegmentsSpec

/-! ## The stores of `slice` against the capacities of the blocks -/

section SliceChecked

variable {R : Type} [LinearOrderedRing R]

/-- The capacities `nmax[l]` of the arrays of the three blocks, as `fill_llikmat`
allocates them (line 474). -/
def nmax (n : Nat) (l : Nat) : Nat :=
  if l = 1 then (n + 1) * (n + 1) / 2 else (n + 1) * (n + 1) / 4

/-- The stores of lines 300-309 into the block `l`, checked: `none` when the
position `pos = blocks[l]->size` is not below the capacity `cap l` of the
arrays of the block. -/
def slice_store_checked (cap : Nat → Nat) (log_gamma obs dist : Nat → Val R)
    (sqrt : Val R → Val R) (n : Nat) (row col l : Nat) (blocks : Nat → ml_block R) :
    Option (Nat → ml_block R) :=
  if (blocks l).size < cap l then some (slice_store log_gamma obs dist sqrt n row col l blocks)
  else none

/-- Body of the double loop of `slice` (lines 284-309), with checked stores. -/
def slice_cell_checked (cap : Nat → Nat) (log_gamma obs dist : Nat → Val R)
    (sqrt : Val R → Val R) (n start end_ : Nat) (speed : Int) (col row : Nat)
    (blocks : Nat → ml_block R) : Option (Nat → ml_block R) :=
  if (obs (row + col * n)).isNaN then some blocks
  else if speed > 1 ∧ Int.natAbs ((col : Int) - (row : Int)) > 200 then some blocks
  else if row < start then slice_store_checked cap log_gamma obs dist sqrt n row col 0 blocks
  else if row < col then slice_store_checked cap log_gamma obs dist sqrt n row col 1 blocks
  else if row > end_ then slice_store_checked cap log_gamma obs dist sqrt n row col 2 blocks
  else some blocks

/-- The function `slice` with checked stores: the three blocks after the call,
or `none` when a store falls outside the arrays of its block. -/
def slice_checked (cap : Nat → Nat) (log_gamma obs dist : Nat → Val R)
    (sqrt : Val R → Val R) (n start end_ : Nat) (speed : Int) (blocks : Nat → ml_block R) :
    Option (Nat → ml_block R) :=
  let blocks0 := forLoop 0 3 (fun l b => setAt b l { b l with size := 0 }) blocks
  forLoop start (end_ + 1)
    (fun col b => forLoop 0 n
      (fun row (b : Option (Nat → ml_block R)) =>
        b.bind (slice_cell_checked cap log_gamma obs dist sqrt n start end_ speed col row)) b)
    (some blocks0)

end SliceChecked

/-! ## The denominator of the Newton step -/

section NewtonDenom

variable {R : Type} [LinearOrderedField R]

/-- The variable `denom` of `poiss_reg` (lines 161-171) at the parameters
`(a, b)`: `dfdb*dgda - dfda*dgdb` after the derivative loop. -/
def newton_denom (exp : R → R) (blk : ml_block R) (a b : Val R) : Val R :=
  let dfda := (derivs exp blk a b).1
  let dgda := (derivs exp blk a b).2.1
  let dgdb := (derivs exp blk a b).2.2
  let dfdb := dgda
  Val.sub (Val.mul dfdb dgda) (Val.mul dfda dgdb)

/-- The weights of the block are positive numbers. -/
def PositiveWeights (blk : ml_block R) : Prop :=
  ∀ i, i < blk.size → 0 < (blk.weights i).toR

end NewtonDenom

/-! ## `mlwalk` with every array access checked -/

section MlwalkChecked

variable {R : Type} [LinearOrderedRing R]

/-- The read `a[idx]` of an array of `len` entries: `none` out of bounds. -/
def getAt {α : Type} (len : Int) (a : Nat → α) (idx : Int) : Option α :=
  if 0 ≤ idx ∧ idx < len then some (a idx.toNat) else none

/-- The store `a[idx] = v` into an array of `len` entries: `none` out of bounds. -/
def putAt {α : Type} (len : Int) (a : Nat → α) (idx : Int) (v : α) : Option (Nat → α) :=
  if 0 ≤ idx ∧ idx < len then some (setAt a idx.toNat v) else none

/-- A `for` loop whose body may stop on an access out of bounds. -/
def forLoopO {σ : Type} (lo hi : Nat) (body : Nat → σ → Option σ) (s : σ) : Option σ :=
  forLoop lo hi (fun i r => r.bind (body i)) (some s)

/-- Body of the loop over the start point `i` (lines 395-403), checked: the
arrays `old_llik` and `new_llik` have `n` entries, `llik_mat` has `n*n`. -/
def mlwalk_i_checked (llik_mat : Nat → Val R) (n j : Nat) (old_llik : Nat → Val R)
    (i : Nat) (s : (Nat → Val R) × Int) : Option ((Nat → Val R) × Int) := do
  let a ← getAt (n : Int) old_llik ((i : Int) - 1)
  let b ← getAt ((n : Int) * (n : Int)) llik_mat ((i : Int) + (j : Int) * (n : Int))
  let tmp := Val.add a b
  let c ← getAt (n : Int) s.1 (j : Int)
  if Val.gt tmp c then do
    let nl ← putAt (n : Int) s.1 (j : Int) tmp
    pure (nl, (i : Int) - 1)
  else pure s

/-- Body of the loop over the end point `j` (lines 390-412), checked: the two
breakpoint lists have `n*n` entries. -/
def mlwalk_j_checked (llik_mat : Nat → Val R) (n nbreaks : Nat) (old_llik : Nat → Val R)
    (old_bkpt_list : Nat → Int) (j : Nat) (s : (Nat → Val R) × (Nat → Int)) :
    Option ((Nat → Val R) × (Nat → Int)) := do
  let nl0 ← putAt (n : Int) s.1 (j : Int) Val.ninf
  let r ← forLoopO (3 * nbreaks) (j - 3) (mlwalk_i_checked llik_mat n j old_llik)
    (nl0, (-1 : Int))
  let new_bkpt := r.2
  let v ← getAt (n : Int) r.1 (j : Int)
  if Val.gt v Val.ninf then do
    let copied ← forLoopO 0 n
      (fun i l => do
        let x ← getAt ((n : Int) * (n : Int)) old_bkpt_list (new_bkpt + (i : Int) * (n : Int))
        putAt ((n : Int) * (n : Int)) l ((j : Int) + (i : Int) * (n : Int)) x)
      s.2
    let l2 ← putAt ((n : Int) * (n : Int)) copied ((j : Int) + new_bkpt * (n : Int)) 1
    pure (r.1, l2)
  else pure (r.1, s.2)

/-- Body of the dynamic-programming loop over `nbreaks` (lines 383-423),
checked: `mllik` has `maxbreaks` entries and `breakpoints` has `n*maxbreaks`. -/
def mlwalk_level_checked (llik_mat : Nat → Val R) (n maxbreaks : Nat) (nbreaks : Nat)
    (s : MlState R) : Option (MlState R) := do
  let old_bkpt_list ← forLoopO 0 (n * n)
    (fun i o => do
      let x ← getAt ((n : Int) * (n : Int)) s.new_bkpt_list (i : Int)
      putAt ((n : Int) * (n : Int)) o (i : Int) x)
    s.old_bkpt_list
  let r ← forLoopO (3 * nbreaks + 2) n
    (mlwalk_j_checked llik_mat n nbreaks s.old_llik old_bkpt_list)
    (s.new_llik, s.new_bkpt_list)
  let v ← getAt (n : Int) r.1 ((n : Int) - 1)
  let mllik ← putAt (maxbreaks : Int) s.mllik (nbreaks : Int) v
  let rec2 ← forLoopO 0 n
    (fun i (p : (Nat → Val R) × (Nat → Int)) => do
      let x ← getAt (n : Int) r.1 (i : Int)
      let ol ← putAt (n : Int) p.1 (i : Int) x
      let y ← getAt ((n : Int) * (n : Int)) r.2 ((n : Int) - 1 + (i : Int) * (n : Int))
      let bk ← putAt ((n : Int) * (maxbreaks : Int)) p.2
        ((i : Int) + (nbreaks : Int) * (n : Int)) y
      pure (ol, bk))
    (s.old_llik, s.breakpoints)
  pure
    { new_llik := r.1
      old_llik := rec2.1
      new_bkpt_list := r.2
      old_bkpt_list := old_bkpt_list
      mllik := mllik
      breakpoints := rec2.2 }

/-- The initialisations of `mlwalk` (lines 363-379), with the indexed stores
checked (the `memset` of `breakpoints` spans the `n*maxbreaks` entries of the
caller's buffer). -/
def mlwalk_init_checked (llik_mat : Nat → Val R) (n maxbreaks : Nat)
    (mllik : Nat → Val R) (breakpoints : Nat → Int) : Option (MlState R) := do
  let breakpoints := forLoop 0 (n * maxbreaks) (fun i b => setAt b i 0) breakpoints
  let lists ← forLoopO 0 (n * n)
    (fun i (p : (Nat → Int) × (Nat → Int)) => do
      let a ← putAt ((n : Int) * (n : Int)) p.1 (i : Int) 0
      let b ← putAt ((n : Int) * (n : Int)) p.2 (i : Int) 0
      pure (a, b))
    ((fun _ => 0), (fun _ => 0))
  let mllik ← forLoopO 0 maxbreaks
    (fun i a => putAt (maxbreaks : Int) a (i : Int) Val.nan) mllik
  let lliks ← forLoopO 0 n
    (fun i (p : (Nat → Val R) × (Nat → Val R)) => do
      let x ← getAt ((n : Int) * (n : Int)) llik_mat ((i : Int) * (n : Int))
      let a ← putAt (n : Int) p.1 (i : Int) x
      let b ← putAt (n : Int) p.2 (i : Int) Val.ninf
      pure (a, b))
    ((fun _ => Val.nan), (fun _ => Val.nan))
  pure
    { new_llik := lliks.2
      old_llik := lliks.1
      new_bkpt_list := lists.1
      old_bkpt_list := lists.2
      mllik := mllik
      breakpoints := breakpoints }

/-- The function `mlwalk` with every array access checked: the outputs
`(mllik, breakpoints)`, or `none` when an index falls outside its array. -/
def mlwalk_checked (llik_mat : Nat → Val R) (n _m maxbreaks : Nat)
    (mllik : Nat → Val R) (breakpoints : Nat → Int) :
    Option ((Nat → Val R) × (Nat → Int)) := do
  let s0 ← mlwalk_init_checked llik_mat n maxbreaks mllik breakpoints
  let s ← forLoopO 1 maxbreaks (mlwalk_level_checked llik_mat n maxbreaks) s0
  pure (s.mllik, s.breakpoints)

end MlwalkChecked

/-! ## The marking loop of the pre-screen, with every array access checked -/

section MarkChecked

variable {R : Type} [LinearOrderedField R] [FloorRing R]

/-- The C expression `(v < length+1) || (v > n-length-2) || DI[idx] > cutoff`
(lines 691-692), with `length = 10`: the operator `||` reads `DI[idx]` only when
the two first tests fail.  The list `reads` is not in the source: it records
the pairs `(v, idx)` for which `DI[idx]` is read. -/
def edge_or_peak (n : Nat) (DI : Nat → Val R) (cutoff : Val R) (v : Nat) (idx : Int)
    (reads : List (Nat × Int)) : Except Fault (Bool × List (Nat × Int)) :=
  if v < 10 + 1 then Except.ok (true, reads)
  else if (v : Int) > (n : Int) - 10 - 2 then Except.ok (true, reads)
  else do
    let x ← readAt PArray.DI (n : Int) DI idx
    Except.ok (Val.gt x cutoff, (v, idx) :: reads)

/-- Body of the marking loop (lines 680-695) for the cell `(i, j)`, checked:
`skip` has `n*n` entries and `DI` has `n`. -/
def prescreen_cell_checked (speed : Int) (n : Nat) (DI : Nat → Val R) (cutoff : Val R)
    (i j : Nat) (s : (Nat → Int) × List (Nat × Int)) :
    Except Fault ((Nat → Int) × List (Nat × Int)) :=
  if too_large speed n i j then do
    let sk ← writeAt PArray.skip ((n : Int) * (n : Int)) s.1 ((i : Int) + (j : Int) * (n : Int)) 1
    Except.ok (sk, s.2)
  else do
    let ii ← edge_or_peak n DI cutoff i ((i : Int) - 1) s.2
    let jj ← edge_or_peak n DI cutoff j (j : Int) ii.2
    let sk ← writeAt PArray.skip ((n : Int) * (n : Int)) s.1 ((i : Int) + (j : Int) * (n : Int))
      (if ii.1 && jj.1 then 0 else 1)
    Except.ok (sk, jj.2)

/-- The marking loop of the pre-screen (lines 679-696), checked: the marks and
the record of the reads of `DI`, or the first fault. -/
def prescreen_mark_checked (speed : Int) (n : Nat) (DI : Nat → Val R) (cutoff : Val R)
    (skip : Nat → Int) : Except Fault ((Nat → Int) × List (Nat × Int)) :=
  forLoopE 0 (n - 3)
    (fun i s => forLoopE (i + 3) n
      (fun j s => prescreen_cell_checked speed n DI cutoff i j s) s)
    (skip, [])

/-- The pre-screen (lines 642-696) with every array access checked: the
statistics, then the marks. -/
def prescreen_checked (sqrt : Val R → Val R) (obs : Nat → Nat → Val R) (n m : Nat)
    (speed : Int) (skip : Nat → Int) : Except Fault ((Nat → Int) × List (Nat × Int)) := do
  let st ← prescreen_stats_checked sqrt obs n m
  prescreen_mark_checked speed n st.1 st.2 skip

end MarkChecked

/-- The indices below `n*n` whose skip mark is zero, in increasing order. -/
def unskipped {R : Type} (arg : thread_arg R) : List Nat :=
  (List.range (arg.n * arg.n)).filter (fun q => decide (arg.skip q = 0))

/-- What holds of the task queue in a state where the fill phase is over: every
worker has exited, every index below `n*n` with a zero skip mark has been handed
out exactly once, the jobs handed out are these indices in increasing order, and
the cells written are these indices, each written once, in some order. -/
def QueueDone {R : Type} (arg : thread_arg R) (n_threads : Nat) (s : FillState R) : Prop :=
  AllExited n_threads s ∧
  (∀ q, q < arg.n * arg.n → arg.skip q = 0 → s.handed.count q = 1) ∧
  s.handed = unskipped arg ∧
  (∀ q, q ∈ s.written ↔ q < arg.n * arg.n ∧ arg.skip q = 0) ∧
  s.written.Perm (unskipped arg)

/-- An example argument of the workers with three jobs: `n = 5`, one replicate
of ones, the initial skip marks, `speed = 0`. -/
def exampleArg5 : thread_arg ℚ :=
  { n := 5
    m := 1
    obs := fun _ _ => Val.fin 1
    dist := fun _ => Val.fin 0
    log_gamma := fun _ _ => Val.fin 0
    skip := skip_init 5
    speed := 0 }

/-! # Theorems -/

/-! ## Arrays and loops -/

section Basics

variable {α σ : Type}

theorem setAt_same (a : Nat → α) (i : Nat) (v : α) : setAt a i v i = v := by
  simp [setAt]

theorem setAt_other (a : Nat → α) (i k : Nat) (v : α) (h : k ≠ i) : setAt a i v k = a k := by
  simp [setAt, h]

theorem setAt_setAt (a : Nat → α) (i : Nat) (v w : α) :
    setAt (setAt a i v) i w = setAt a i w := by
  funext k
  by_cases h : k = i <;> simp [setAt, h]

theorem setAt_self (a : Nat → α) (i : Nat) : setAt a i (a i) = a := by
  funext k
  by_cases h : k = i <;> simp [setAt, h]

theorem iter_succ (body : Nat → σ → σ) (cnt : Nat) :
    ∀ (lo : Nat) (s : σ), iter body lo (cnt + 1) s = body (lo + cnt) (iter body lo cnt s) := by
  induction cnt with
  | zero => intro lo s; simp [iter]
  | succ c ih =>
    intro lo s
    rw [iter, ih (lo + 1) (body lo s)]
    have h : lo + 1 + c = lo + (c + 1) := by omega
    rw [h]
    rfl

theorem forLoop_empty (lo hi : Nat) (body : Nat → σ → σ) (s : σ) (h : hi ≤ lo) :
    forLoop lo hi body s = s := by
  have h0 : hi - lo = 0 := by omega
  simp [forLoop, h0, iter]

theorem forLoop_succ (lo hi : Nat) (body : Nat → σ → σ) (s : σ) (h : lo ≤ hi) :
    forLoop lo (hi + 1) body s = body hi (forLoop lo hi body s) := by
  have h1 : hi + 1 - lo = (hi - lo) + 1 := by omega
  have h2 : lo + (hi - lo) = hi := by omega
  unfold forLoop
  rw [h1, iter_succ, h2]

/-- Loop invariant rule: `P lo` holds before the loop and every iteration takes
`P i` to `P (i + 1)`, so `P hi` holds after it. -/
theorem forLoop_inv (P : Nat → σ → Prop) (lo hi : Nat) (body : Nat → σ → σ) (s : σ)
    (h : lo ≤ hi) (h0 : P lo s)
    (hs : ∀ i t, lo ≤ i → i < hi → P i t → P (i + 1) (body i t)) :
    P hi (forLoop lo hi body s) := by
  induction hi with
  | zero =>
    have : lo = 0 := by omega
    subst this
    simpa [forLoop, iter] using h0
  | succ m ih =>
    by_cases hm : lo ≤ m
    · rw [forLoop_succ lo m body s hm]
      exact hs m _ hm (by omega) (ih hm (fun i t h1 h2 => hs i t h1 (by omega)))
    · have : lo = m + 1 := by omega
      subst this
      rw [forLoop_empty _ _ _ _ (le_refl _)]
      exact h0

/-- A loop on a pair whose two components do not interact is a pair of loops. -/
theorem forLoop_pair {β : Type} (lo hi : Nat) (F : Nat → α → α) (G : Nat → β → β)
    (a : α) (b : β) :
    forLoop lo hi (fun i (p : α × β) => (F i p.1, G i p.2)) (a, b)
      = (forLoop lo hi F a, forLoop lo hi G b) := by
  by_cases h : lo ≤ hi
  · refine forLoop_inv
      (fun i (p : α × β) => p = (forLoop lo i F a, forLoop lo i G b)) lo hi _ _ h ?_ ?_
    · simp [forLoop_empty]
    · intro i t h1 _ ht
      rw [ht, forLoop_succ lo i F a h1, forLoop_succ lo i G b h1]
  · simp [forLoop_empty lo hi _ _ (by omega : hi ≤ lo)]

/-- The loop `for (i = 0; i < N; i++) a[i] = f(i)`. -/
theorem forLoop_fill (N : Nat) (f : Nat → α) (a : Nat → α) (k : Nat) :
    forLoop 0 N (fun i o => setAt o i (f i)) a k = if k < N then f k else a k := by
  refine forLoop_inv (fun i (o : Nat → α) => o k = if k < i then f k else a k) 0 N _ _
    (Nat.zero_le _) ?_ ?_
  · simp
  · intro i t _ _ ht
    by_cases hk : k = i
    · subst hk; simp [setAt]
    · rw [setAt_other _ _ _ _ hk, ht]
      by_cases h1 : k < i
      · simp [h1, Nat.lt_succ_of_lt h1]
      · have : ¬ k < i + 1 := by omega
        simp [h1, this]

/-- A flat index `r + c * n` with `r < n` determines its row and its column. -/
theorem idx_inj {n r c r' c' : Nat} (hr : r < n) (hr' : r' < n)
    (h : r + c * n = r' + c' * n) : r = r' ∧ c = c' := by
  have hn : 0 < n := by omega
  have h1 : (r + c * n) % n = r := by
    rw [Nat.add_mul_mod_self_right, Nat.mod_eq_of_lt hr]
  have h2 : (r' + c' * n) % n = r' := by
    rw [Nat.add_mul_mod_self_right, Nat.mod_eq_of_lt hr']
  have h3 : (r + c * n) / n = c := by
    rw [Nat.add_mul_div_right _ _ hn, Nat.div_eq_of_lt hr, Nat.zero_add]
  have h4 : (r' + c' * n) / n = c' := by
    rw [Nat.add_mul_div_right _ _ hn, Nat.div_eq_of_lt hr', Nat.zero_add]
  constructor
  · rw [← h1, ← h2, h]
  · rw [← h3, ← h4, h]

/-- A flat index of an `n × n` matrix is below `n * n`. -/
theorem idx_lt {n r c : Nat} (hr : r < n) (hc : c < n) : r + c * n < n * n := by
  have : (c + 1) * n ≤ n * n := Nat.mul_le_mul_right n (by omega)
  have h2 : (c + 1) * n = c * n + n := by ring
  omega

/-- The loop `for (i = 0; i < n; i++) a[j + i*n] = h(i)` writes the row `j`. -/
theorem forLoop_row (n j : Nat) (hj : j < n) (h : Nat → α) (a : Nat → α) (r c : Nat)
    (hr : r < n) (hc : c < n) :
    forLoop 0 n (fun i l => setAt l (j + i * n) (h i)) a (r + c * n)
      = if r = j then h c else a (r + c * n) := by
  have key : ∀ hi, hi ≤ n →
      forLoop 0 hi (fun i l => setAt l (j + i * n) (h i)) a (r + c * n)
        = if r = j ∧ c < hi then h c else a (r + c * n) := by
    intro hi hhi
    refine forLoop_inv (fun i (l : Nat → α) =>
      l (r + c * n) = if r = j ∧ c < i then h c else a (r + c * n)) 0 hi _ _
      (Nat.zero_le _) ?_ ?_
    · simp
    · intro i t _ _ ht
      by_cases hk : r + c * n = j + i * n
      · obtain ⟨h1, h2⟩ := idx_inj hr hj hk
        subst h1; subst h2
        simp [setAt]
      · rw [setAt_other _ _ _ _ hk, ht]
        by_cases h1 : r = j
        · subst h1
          have hci : c ≠ i := fun e => hk (by rw [e])
          by_cases h2 : c < i
          · simp [h2, Nat.lt_succ_of_lt h2]
          · have : ¬ c < i + 1 := by omega
            simp [h2, this]
        · simp [h1]
  rw [key n (le_refl _)]
  simp [hc]

/-- The loop `for (i = 0; i < n; i++) a[i + k*n] = h(i)` writes the column `k`. -/
theorem forLoop_col (n k : Nat) (h : Nat → α) (a : Nat → α) (r c : Nat) (hr : r < n) :
    forLoop 0 n (fun i l => setAt l (i + k * n) (h i)) a (r + c * n)
      = if c = k then h r else a (r + c * n) := by
  refine forLoop_inv (fun i (l : Nat → α) =>
    l (r + c * n) = if c = k ∧ r < i then h r else a (r + c * n)) 0 n _ _
    (Nat.zero_le _) ?_ ?_ |>.trans ?_
  · simp
  · intro i t _ hi ht
    by_cases hk : r + c * n = i + k * n
    · obtain ⟨h1, h2⟩ := idx_inj hr hi hk
      subst h1; subst h2
      simp [setAt]
    · rw [setAt_other _ _ _ _ hk, ht]
      by_cases h1 : c = k
      · subst h1
        have hri : r ≠ i := fun e => hk (by rw [e])
        by_cases h2 : r < i
        · simp [h2, Nat.lt_succ_of_lt h2]
        · have : ¬ r < i + 1 := by omega
          simp [h2, this]
      · simp [h1]
  · simp [hr]

end Basics

/-! ## Comparisons and sums of doubles -/

section ValLemmas

variable {R : Type} [LinearOrderedRing R]

theorem Val.gt_irrefl (a : Val R) : Val.gt a a = false := by
  cases a <;> simp [Val.gt]

theorem Val.gt_trans {a b c : Val R} (h1 : Val.gt a b = true) (h2 : Val.gt b c = true) :
    Val.gt a c = true := by
  cases a <;> cases b <;> cases c <;> simp [Val.gt] at *
  exact lt_trans h2 h1

theorem Val.not_gt_of_gt {a b c : Val R} (h1 : Val.gt c b = true) (h2 : Val.gt a b = false) :
    Val.gt a c = false := by
  cases hac : Val.gt a c
  · rfl
  · rw [Val.gt_trans hac h1] at h2
    exact absurd h2 (by simp)

theorem Val.gt_ninf_iff (a : Val R) :
    Val.gt a Val.ninf = true ↔ a = Val.pinf ∨ ∃ x, a = Val.fin x := by
  cases a <;> simp [Val.gt]

theorem Val.gt_ninf_of_add {a x : Val R} (h : Val.gt (Val.add a x) Val.ninf = true) :
    Val.gt a Val.ninf = true ∧ Val.gt x Val.ninf = true := by
  cases a <;> cases x <;> simp [Val.gt, Val.add] at *

/-- The `int` index `j + b*n` of non-negative `j`, `b`, `n`. -/
theorem toNat_idx (j b n : Nat) : Int.toNat ((j : Int) + (b : Int) * (n : Int)) = j + b * n := by
  rw [← Int.natCast_mul, ← Int.natCast_add]
  exact Int.toNat_natCast _

/-- What the search for the best start point returns: either no candidate is
greater than `-∞` and the pair is still `(-∞, -1)`, or the pair is
`(f i, i - 1)` for a candidate `i` that no candidate exceeds. -/
theorem scan_spec (f : Nat → Val R) (lo hi : Nat) :
    (forLoop lo hi (scanStep f) (Val.ninf, (-1 : Int)) = (Val.ninf, (-1 : Int)) ∧
        ∀ i, lo ≤ i → i < hi → Val.gt (f i) Val.ninf = false) ∨
    (∃ i, lo ≤ i ∧ i < hi ∧
        forLoop lo hi (scanStep f) (Val.ninf, (-1 : Int)) = (f i, (i : Int) - 1) ∧
        Val.gt (f i) Val.ninf = true ∧
        ∀ i', lo ≤ i' → i' < hi → Val.gt (f i') (f i) = false) := by
  by_cases h : lo ≤ hi
  · refine forLoop_inv (fun k (r : Val R × Int) =>
      (r = (Val.ninf, (-1 : Int)) ∧ ∀ i, lo ≤ i → i < k → Val.gt (f i) Val.ninf = false) ∨
      (∃ i, lo ≤ i ∧ i < k ∧ r = (f i, (i : Int) - 1) ∧ Val.gt (f i) Val.ninf = true ∧
        ∀ i', lo ≤ i' → i' < k → Val.gt (f i') (f i) = false)) lo hi _ _ h ?_ ?_
    · left
      exact ⟨rfl, fun i h1 h2 => by omega⟩
    · intro k t hk _ ht
      rcases ht with ⟨rfl, hall⟩ | ⟨i, hi1, hi2, rfl, hgt, hall⟩
      · cases hfk : Val.gt (f k) Val.ninf
        · left
          refine ⟨by simp [scanStep, hfk], fun i h1 h2 => ?_⟩
          by_cases e : i = k
          · subst e; exact hfk
          · exact hall i h1 (by omega)
        · right
          refine ⟨k, hk, by omega, by simp [scanStep, hfk], hfk, fun i' h1 h2 => ?_⟩
          by_cases e : i' = k
          · subst e; exact Val.gt_irrefl _
          · exact Val.not_gt_of_gt hfk (hall i' h1 (by omega))
      · cases hfk : Val.gt (f k) (f i)
        · right
          refine ⟨i, hi1, by omega, by simp [scanStep, hfk], hgt, fun i' h1 h2 => ?_⟩
          by_cases e : i' = k
          · subst e; exact hfk
          · exact hall i' h1 (by omega)
        · right
          refine ⟨k, hk, by omega, by simp [scanStep, hfk], Val.gt_trans hfk hgt,
            fun i' h1 h2 => ?_⟩
          by_cases e : i' = k
          · subst e; exact Val.gt_irrefl _
          · exact Val.not_gt_of_gt hfk (hall i' h1 (by omega))
  · left
    exact ⟨forLoop_empty _ _ _ _ (by omega), fun i h1 h2 => by omega⟩

end ValLemmas

/-! ## The loops of `mlwalk` compute the recurrence -/

section MlwalkInit

variable {R : Type}

/-- The initial state of `mlwalk`, array by array. -/
theorem mlwalk_init_spec (L : Nat → Val R) (n maxbreaks : Nat) (mllik : Nat → Val R)
    (breakpoints : Nat → Int) :
    (∀ k, k < n → (mlwalk_init L n maxbreaks mllik breakpoints).old_llik k = L (k * n)) ∧
    (∀ k, (mlwalk_init L n maxbreaks mllik breakpoints).new_bkpt_list k = 0) ∧
    (∀ k, k < maxbreaks → (mlwalk_init L n maxbreaks mllik breakpoints).mllik k = Val.nan) ∧
    (∀ k, k < n * maxbreaks →
      (mlwalk_init L n maxbreaks mllik breakpoints).breakpoints k = 0) := by
  have hpair : ∀ {β γ : Type} (N : Nat) (X : Nat → β) (Y : Nat → γ) (a : Nat → β)
      (b : Nat → γ),
      forLoop 0 N (fun i (p : (Nat → β) × (Nat → γ)) =>
          (setAt p.1 i (X i), setAt p.2 i (Y i))) (a, b)
        = (forLoop 0 N (fun i a => setAt a i (X i)) a,
           forLoop 0 N (fun i b => setAt b i (Y i)) b) :=
    fun N X Y a b => forLoop_pair 0 N (fun i a => setAt a i (X i))
      (fun i b => setAt b i (Y i)) a b
  refine ⟨?_, ?_, ?_, ?_⟩
  · intro k hk
    simp only [mlwalk_init, hpair, forLoop_fill, hk, if_true]
  · intro k
    simp only [mlwalk_init]
    rw [hpair (n * n) (fun _ => (0 : Int)) (fun _ => (0 : Int))]
    simp only [forLoop_fill]
    split <;> rfl
  · intro k hk
    simp only [mlwalk_init, forLoop_fill, hk, if_true]
  · intro k hk
    simp only [mlwalk_init, forLoop_fill, hk, if_true]

end MlwalkInit

section MlwalkLoops

variable {R : Type} [LinearOrderedRing R]

/-- The loop over `i` only touches `new_llik[j]`, and what it leaves there is
the running maximum of the candidates. -/
theorem mlwalk_i_loop (L : Nat → Val R) (n j : Nat) (ol : Nat → Val R) (lo hi : Nat)
    (nl : Nat → Val R) (b : Int) :
    forLoop lo hi (mlwalk_i L n j ol) (nl, b) =
      (setAt nl j
        (forLoop lo hi (scanStep (fun i => Val.add (ol (i - 1)) (L (i + j * n)))) (nl j, b)).1,
       (forLoop lo hi (scanStep (fun i => Val.add (ol (i - 1)) (L (i + j * n)))) (nl j, b)).2) := by
  by_cases h : lo ≤ hi
  · refine forLoop_inv (fun k (s : (Nat → Val R) × Int) => s =
      (setAt nl j
        (forLoop lo k (scanStep (fun i => Val.add (ol (i - 1)) (L (i + j * n)))) (nl j, b)).1,
       (forLoop lo k (scanStep (fun i => Val.add (ol (i - 1)) (L (i + j * n)))) (nl j, b)).2))
      lo hi _ _ h ?_ ?_
    · simp [forLoop_empty, setAt_self]
    · intro k t hk _ ht
      rw [ht, forLoop_succ lo k _ _ hk]
      simp only [mlwalk_i, scanStep, setAt_same, setAt_setAt]
      split <;> rfl
  · simp [forLoop_empty lo hi _ _ (by omega : hi ≤ lo), setAt_self]

/-- The body of the loop over `j`, in terms of `best`. -/
theorem mlwalk_j_eq (L : Nat → Val R) (n nb : Nat) (ol : Nat → Val R) (obl : Nat → Int)
    (j : Nat) (nl : Nat → Val R) (bl : Nat → Int) :
    mlwalk_j L n nb ol obl j (nl, bl) =
      (setAt nl j (best L n nb ol j).1,
       if Val.gt (best L n nb ol j).1 Val.ninf = true then
         setAt (forLoop 0 n
            (fun i l => setAt l (j + i * n)
              (obl (Int.toNat ((best L n nb ol j).2 + (i : Int) * (n : Int))))) bl)
           (Int.toNat ((j : Int) + (best L n nb ol j).2 * (n : Int))) 1
       else bl) := by
  simp only [mlwalk_j, mlwalk_i_loop, setAt_same, setAt_setAt, best]
  split <;> rfl

/-- When the best value of an end point is greater than `-∞`, `new_bkpt` is
`i - 1` for a start point `i` of the loop. -/
theorem best_spec (L : Nat → Val R) (n nb : Nat) (ol : Nat → Val R) (j : Nat) :
    (best L n nb ol j = (Val.ninf, (-1 : Int)) ∧
        ∀ i, 3 * nb ≤ i → i < j - 3 →
          Val.gt (Val.add (ol (i - 1)) (L (i + j * n))) Val.ninf = false) ∨
    (∃ i, 3 * nb ≤ i ∧ i < j - 3 ∧
        best L n nb ol j = (Val.add (ol (i - 1)) (L (i + j * n)), (i : Int) - 1) ∧
        Val.gt (Val.add (ol (i - 1)) (L (i + j * n))) Val.ninf = true ∧
        ∀ i', 3 * nb ≤ i' → i' < j - 3 →
          Val.gt (Val.add (ol (i' - 1)) (L (i' + j * n)))
            (Val.add (ol (i - 1)) (L (i + j * n))) = false) :=
  scan_spec (fun i => Val.add (ol (i - 1)) (L (i + j * n))) (3 * nb) (j - 3)

/-- Two loops with bodies that agree on the range compute the same state. -/
theorem forLoop_congr {σ : Type} (lo hi : Nat) (body body' : Nat → σ → σ) (s : σ)
    (h : ∀ i t, lo ≤ i → i < hi → body i t = body' i t) :
    forLoop lo hi body s = forLoop lo hi body' s := by
  by_cases hle : lo ≤ hi
  · refine forLoop_inv (fun k (t : σ) => t = forLoop lo k body' s) lo hi _ _ hle ?_ ?_
    · simp [forLoop_empty]
    · intro k t hk hk2 ht
      rw [forLoop_succ lo k body' s hk, ← ht, h k t hk hk2]
  · rw [forLoop_empty lo hi _ _ (by omega), forLoop_empty lo hi _ _ (by omega)]

/-- The best pair of an end point only reads the previous level at `i - 1` for
the start points `i` of the loop. -/
theorem best_congr (L : Nat → Val R) (n nb : Nat) (ol ol' : Nat → Val R) (j : Nat)
    (h : ∀ i, 3 * nb ≤ i → i < j - 3 → ol (i - 1) = ol' (i - 1)) :
    best L n nb ol j = best L n nb ol' j := by
  unfold best
  apply forLoop_congr
  intro i t h1 h2
  simp only [scanStep, h i h1 h2]

/-- The loop over the end points `j` of one level: the entry `j` of `new_llik`
and the row `j` of `new_bkpt_list` are those of `best`, the rest is untouched. -/
theorem mlwalk_jloop (L : Nat → Val R) (n nb : Nat) (hnb : 1 ≤ nb) (ol : Nat → Val R)
    (obl : Nat → Int) (nl : Nat → Val R) (bl : Nat → Int) (lo hi : Nat) (hhi : hi ≤ n) :
    (∀ k, (forLoop lo hi (mlwalk_j L n nb ol obl) (nl, bl)).1 k =
        if lo ≤ k ∧ k < hi then (best L n nb ol k).1 else nl k) ∧
    (∀ r c, r < n → c < n →
      (forLoop lo hi (mlwalk_j L n nb ol obl) (nl, bl)).2 (r + c * n) =
        if lo ≤ r ∧ r < hi ∧ Val.gt (best L n nb ol r).1 Val.ninf = true then
          (if (c : Int) = (best L n nb ol r).2 then 1
           else obl (Int.toNat ((best L n nb ol r).2 + (c : Int) * (n : Int))))
        else bl (r + c * n)) := by
  by_cases h : lo ≤ hi
  · refine forLoop_inv (fun m (s : (Nat → Val R) × (Nat → Int)) => m ≤ n →
      ((∀ k, s.1 k = if lo ≤ k ∧ k < m then (best L n nb ol k).1 else nl k) ∧
       (∀ r c, r < n → c < n → s.2 (r + c * n) =
        if lo ≤ r ∧ r < m ∧ Val.gt (best L n nb ol r).1 Val.ninf = true then
          (if (c : Int) = (best L n nb ol r).2 then 1
           else obl (Int.toNat ((best L n nb ol r).2 + (c : Int) * (n : Int))))
        else bl (r + c * n)))) lo hi _ _ h ?_ ?_ hhi
    · intro _
      constructor
      · intro k
        have : ¬ (lo ≤ k ∧ k < lo) := by omega
        simp [this]
      · intro r c _ _
        have : ¬ (lo ≤ r ∧ r < lo ∧ Val.gt (best L n nb ol r).1 Val.ninf = true) := by omega
        simp [this]
    · intro j t hj1 hj2 ht hjn
      obtain ⟨ht1, ht2⟩ := ht (by omega)
      have hjn' : j < n := by omega
      obtain ⟨t1, t2⟩ := t
      simp only at ht1 ht2
      rw [mlwalk_j_eq]
      constructor
      · intro k
        by_cases hk : k = j
        · subst hk
          have : lo ≤ k ∧ k < k + 1 := ⟨hj1, by omega⟩
          simp [setAt_same, this]
        · simp only [setAt_other _ _ _ _ hk]
          rw [ht1 k]
          by_cases h1 : lo ≤ k ∧ k < j
          · have : lo ≤ k ∧ k < j + 1 := ⟨h1.1, by omega⟩
            simp [h1, this]
          · have : ¬ (lo ≤ k ∧ k < j + 1) := by omega
            simp [h1, this]
      · intro r c hr hc
        simp only
        by_cases hrj : r = j
        · subst hrj
          cases hg : Val.gt (best L n nb ol r).1 Val.ninf
          · simp only [Bool.false_eq_true, if_false, and_false]
            rw [ht2 r c hr hc]
            simp [hg]
          · have hcond : lo ≤ r ∧ r < r + 1 ∧ True := ⟨hj1, by omega, trivial⟩
            simp only [if_true, and_true]
            rcases best_spec L n nb ol r with ⟨hb, _⟩ | ⟨i, hi1, _, hb, _, _⟩
            · rw [hb] at hg
              simp [Val.gt] at hg
            · have hb2 : (best L n nb ol r).2 = ((i - 1 : Nat) : Int) := by
                rw [hb]
                simp only
                omega
              rw [hb2, toNat_idx]
              have hlt : lo ≤ r ∧ r < r + 1 := ⟨hj1, by omega⟩
              simp only [hlt, and_self, if_true]
              by_cases hci : c = i - 1
              · subst hci
                simp [setAt_same]
              · have hne : r + c * n ≠ r + (i - 1) * n := by
                  intro e
                  exact hci (idx_inj hr hr e).2
                rw [setAt_other _ _ _ _ hne, forLoop_row n r hr _ _ r c hr hc]
                have hci' : ¬ ((c : Int) = ((i - 1 : Nat) : Int)) := by
                  intro e
                  exact hci (by exact_mod_cast e)
                simp [hci']
        · have hkeep : ∀ (a : Nat → Int) (x : Nat) (v : Int),
              (∀ q, x = r + q * n → False) → setAt a x v (r + c * n) = a (r + c * n) := by
            intro a x v hx
            exact setAt_other _ _ _ _ (fun e => hx c e.symm)
          have hold : (if Val.gt (best L n nb ol j).1 Val.ninf = true then
              setAt (forLoop 0 n
                (fun i l => setAt l (j + i * n)
                  (obl (Int.toNat ((best L n nb ol j).2 + (i : Int) * (n : Int))))) t2)
                (Int.toNat ((j : Int) + (best L n nb ol j).2 * (n : Int))) 1
              else t2) (r + c * n) = t2 (r + c * n) := by
            split
            · rename_i hg
              rcases best_spec L n nb ol j with ⟨hb, _⟩ | ⟨i, hi1, _, hb, _, _⟩
              · rw [hb] at hg
                simp [Val.gt] at hg
              · have hb2 : (best L n nb ol j).2 = ((i - 1 : Nat) : Int) := by
                  rw [hb]
                  simp only
                  omega
                rw [hb2, toNat_idx]
                have hne : r + c * n ≠ j + (i - 1) * n := by
                  intro e
                  exact hrj (idx_inj hr hjn' e).1
                rw [setAt_other _ _ _ _ hne, forLoop_row n j hjn' _ _ r c hr hc]
                simp [hrj]
            · rfl
          rw [hold, ht2 r c hr hc]
          by_cases h1 : lo ≤ r ∧ r < j ∧ Val.gt (best L n nb ol r).1 Val.ninf = true
          · have : lo ≤ r ∧ r < j + 1 ∧ Val.gt (best L n nb ol r).1 Val.ninf = true :=
              ⟨h1.1, by omega, h1.2.2⟩
            simp only [h1, this, and_self, if_true]
          · have : ¬ (lo ≤ r ∧ r < j + 1 ∧ Val.gt (best L n nb ol r).1 Val.ninf = true) := by
              intro hh
              exact h1 ⟨hh.1, by omega, hh.2.2⟩
            simp only [h1, this, if_false]
  · rw [forLoop_empty lo hi _ _ (by omega)]
    constructor
    · intro k
      have : ¬ (lo ≤ k ∧ k < hi) := by omega
      simp [this]
    · intro r c _ _
      have : ¬ (lo ≤ r ∧ r < hi ∧ Val.gt (best L n nb ol r).1 Val.ninf = true) := by omega
      simp [this]

/-- One level of the dynamic programming, array by array. -/
theorem mlwalk_level_spec (L : Nat → Val R) (n nb : Nat) (hnb : 1 ≤ nb) (s : MlState R) :
    (∀ k, (mlwalk_level L n nb s).new_llik k =
        if 3 * nb + 2 ≤ k ∧ k < n then (best L n nb s.old_llik k).1 else s.new_llik k) ∧
    (∀ k, (mlwalk_level L n nb s).old_llik k =
        if k < n then (mlwalk_level L n nb s).new_llik k else s.old_llik k) ∧
    (∀ r c, r < n → c < n → (mlwalk_level L n nb s).new_bkpt_list (r + c * n) =
        if 3 * nb + 2 ≤ r ∧ Val.gt (best L n nb s.old_llik r).1 Val.ninf = true then
          (if (c : Int) = (best L n nb s.old_llik r).2 then 1
           else s.new_bkpt_list ((best L n nb s.old_llik r).2.toNat + c * n))
        else s.new_bkpt_list (r + c * n)) ∧
    (mlwalk_level L n nb s).mllik
      = setAt s.mllik nb ((mlwalk_level L n nb s).new_llik (n - 1)) ∧
    (∀ r c, r < n → (mlwalk_level L n nb s).breakpoints (r + c * n) =
        if c = nb then (mlwalk_level L n nb s).new_bkpt_list (n - 1 + r * n)
        else s.breakpoints (r + c * n)) := by
  obtain ⟨h1, h2⟩ := mlwalk_jloop L n nb hnb s.old_llik
    (forLoop 0 (n * n) (fun i o => setAt o i (s.new_bkpt_list i)) s.old_bkpt_list)
    s.new_llik s.new_bkpt_list (3 * nb + 2) n (le_refl _)
  have hpair : ∀ (X : Nat → Val R) (Y : Nat → Int) (a : Nat → Val R) (b : Nat → Int),
      forLoop 0 n (fun i (p : (Nat → Val R) × (Nat → Int)) =>
          (setAt p.1 i (X i), setAt p.2 (i + nb * n) (Y i))) (a, b)
        = (forLoop 0 n (fun i a => setAt a i (X i)) a,
           forLoop 0 n (fun i b => setAt b (i + nb * n) (Y i)) b) :=
    fun X Y a b => forLoop_pair 0 n (fun i a => setAt a i (X i))
      (fun i b => setAt b (i + nb * n) (Y i)) a b
  refine ⟨h1, ?_, ?_, rfl, ?_⟩
  · intro k
    simp only [mlwalk_level, hpair, forLoop_fill]
  · intro r c hr hc
    simp only [mlwalk_level]
    rw [h2 r c hr hc]
    by_cases hcond : 3 * nb + 2 ≤ r ∧ Val.gt (best L n nb s.old_llik r).1 Val.ninf = true
    · have hcond' : 3 * nb + 2 ≤ r ∧ r < n ∧
          Val.gt (best L n nb s.old_llik r).1 Val.ninf = true := ⟨hcond.1, hr, hcond.2⟩
      simp only [hcond, hcond', and_self, if_true]
      rcases best_spec L n nb s.old_llik r with ⟨hb, _⟩ | ⟨i, hi1, hi2, hb, _, _⟩
      · rw [hb] at hcond
        simp [Val.gt] at hcond
      · have hb2 : (best L n nb s.old_llik r).2 = ((i - 1 : Nat) : Int) := by
          rw [hb]
          simp only
          omega
        rw [hb2, toNat_idx, Int.toNat_natCast, forLoop_fill]
        have : i - 1 + c * n < n * n := idx_lt (by omega) hc
        simp [this]
    · have hcond' : ¬ (3 * nb + 2 ≤ r ∧ r < n ∧
          Val.gt (best L n nb s.old_llik r).1 Val.ninf = true) := by
        intro hh
        exact hcond ⟨hh.1, hh.2.2⟩
      simp only [hcond, hcond', if_false]
  · intro r c hr
    simp only [mlwalk_level, hpair]
    rw [forLoop_col n nb _ _ r c hr]

/-- The state after level `nb + 1` is one more level. -/
theorem mlwalk_upto_succ (L : Nat → Val R) (n maxbreaks : Nat) (mllik : Nat → Val R)
    (breakpoints : Nat → Int) (nb : Nat) :
    mlwalk_upto L n maxbreaks mllik breakpoints (nb + 1)
      = mlwalk_level L n (nb + 1) (mlwalk_upto L n maxbreaks mllik breakpoints nb) := by
  unfold mlwalk_upto
  rw [forLoop_succ 1 (nb + 1) _ _ (by omega)]

/-- The arrays of `mlwalk` hold the recurrence after every level. -/
theorem mlwalk_inv (L : Nat → Val R) (n maxbreaks : Nat) (mllik : Nat → Val R)
    (breakpoints : Nat → Int) (nb : Nat) :
    MlInv L n maxbreaks nb (mlwalk_upto L n maxbreaks mllik breakpoints nb) := by
  induction nb with
  | zero =>
    obtain ⟨i1, i2, i3, _⟩ := mlwalk_init_spec L n maxbreaks mllik breakpoints
    have e : mlwalk_upto L n maxbreaks mllik breakpoints 0
        = mlwalk_init L n maxbreaks mllik breakpoints := by
      unfold mlwalk_upto
      exact forLoop_empty _ _ _ _ (le_refl _)
    rw [e]
    refine ⟨?_, ?_, ?_, ?_⟩
    · intro j _ hj
      rw [i1 j hj]
      rfl
    · intro j c _ _ _ _
      rw [i2]
      simp [dpSeg]
    · intro k hk1 hk2
      omega
    · intro k _ hk
      exact i3 k hk
  | succ nb ih =>
    rw [mlwalk_upto_succ]
    generalize mlwalk_upto L n maxbreaks mllik breakpoints nb = s at ih ⊢
    obtain ⟨I1, I2, I3, I4⟩ := ih
    obtain ⟨l1, l2, l3, l4, l5⟩ := mlwalk_level_spec L n (nb + 1) (by omega) s
    have hbest : ∀ j, j < n → best L n (nb + 1) s.old_llik j
        = best L n (nb + 1) (dpLlik L n nb) j := by
      intro j hj
      apply best_congr
      intro i h1 h2
      exact I1 (i - 1) (by omega) (by omega)
    have hnew : ∀ j, 3 * (nb + 1) + 2 ≤ j → j < n →
        (mlwalk_level L n (nb + 1) s).new_llik j = dpLlik L n (nb + 1) j := by
      intro j h1 h2
      rw [l1 j, hbest j h2]
      simp [h1, h2, dpLlik]
    have hrow : ∀ j c, 3 * (nb + 1) + 2 ≤ j → j < n → c < n →
        Val.gt (dpLlik L n (nb + 1) j) Val.ninf = true →
        (mlwalk_level L n (nb + 1) s).new_bkpt_list (j + c * n)
          = if c ∈ dpSeg L n (nb + 1) j then 1 else 0 := by
      intro j c h1 h2 hc hg
      have hg' : Val.gt (best L n (nb + 1) s.old_llik j).1 Val.ninf = true := by
        rw [hbest j h2]
        exact hg
      rw [l3 j c h2 hc]
      simp only [h1, hg', and_self, if_true]
      rcases best_spec L n (nb + 1) s.old_llik j with ⟨hb, _⟩ | ⟨i, hi1, hi2, hb, hgi, _⟩
      · rw [hb] at hg'
        simp [Val.gt] at hg'
      · have hb2 : (best L n (nb + 1) s.old_llik j).2 = ((i - 1 : Nat) : Int) := by
          rw [hb]
          simp only
          omega
        have hseg : dpSeg L n (nb + 1) j = dpSeg L n nb (i - 1) ++ [i - 1] := by
          have : dpBkpt L n (nb + 1) j = ((i - 1 : Nat) : Int) := by
            rw [← hb2, hbest j h2]
            rfl
          simp only [dpSeg, this, Int.toNat_natCast]
        have hprev : Val.gt (dpLlik L n nb (i - 1)) Val.ninf = true := by
          rw [← I1 (i - 1) (by omega) (by omega)]
          exact (Val.gt_ninf_of_add hgi).1
        rw [hb2, Int.toNat_natCast, I2 (i - 1) c (by omega) (by omega) hc hprev, hseg]
        by_cases hci : c = i - 1
        · subst hci
          simp
        · have hci' : ¬ ((c : Int) = ((i - 1 : Nat) : Int)) := by
            intro e
            exact hci (by exact_mod_cast e)
          simp [hci, hci']
    refine ⟨?_, hrow, ?_, ?_⟩
    · intro j h1 h2
      rw [l2 j]
      simp only [h2, if_true]
      exact hnew j h1 h2
    · intro k hk1 hk2 hk3
      by_cases hk : k = nb + 1
      · subst hk
        constructor
        · rw [l4, setAt_same]
          exact hnew (n - 1) (by omega) (by omega)
        · intro hg r hr
          rw [l5 r (nb + 1) hr]
          simp only [if_true]
          exact hrow (n - 1) r (by omega) (by omega) hr hg
      · obtain ⟨a1, a2⟩ := I3 k hk1 (by omega) hk3
        constructor
        · rw [l4, setAt_other _ _ _ _ hk]
          exact a1
        · intro hg r hr
          rw [l5 r k hr]
          simp only [hk, if_false]
          exact a2 hg r hr
    · intro k hk1 hk2
      have hk : k ≠ nb + 1 := by omega
      rw [l4, setAt_other _ _ _ _ hk]
      exact I4 k (by omega) hk2

/-- What `mlwalk` returns for a number of breaks `k ≥ 1`, in terms of the
recurrence: `mllik[k]` is the value of the end point `n - 1` at level `k`, and
the column `k` of `breakpoints` flags the traced-back break points. -/
theorem mlwalk_out (L : Nat → Val R) (n m maxbreaks : Nat) (mllik : Nat → Val R)
    (breakpoints : Nat → Int) (k : Nat) (hk1 : 1 ≤ k) (hk : k < maxbreaks)
    (hn : 3 * k + 3 ≤ n) :
    (mlwalk L n m maxbreaks mllik breakpoints).1 k = dpLlik L n k (n - 1) ∧
    (Val.gt (dpLlik L n k (n - 1)) Val.ninf = true →
      ∀ r, r < n → (mlwalk L n m maxbreaks mllik breakpoints).2 (r + k * n)
        = if r ∈ dpSeg L n k (n - 1) then 1 else 0) := by
  have e : mlwalk_run L n m maxbreaks mllik breakpoints
      = mlwalk_upto L n maxbreaks mllik breakpoints (maxbreaks - 1) := by
    unfold mlwalk_run mlwalk_upto
    have : maxbreaks - 1 + 1 = maxbreaks := by omega
    rw [this]
  obtain ⟨_, _, I3, _⟩ := mlwalk_inv L n maxbreaks mllik breakpoints (maxbreaks - 1)
  simp only [mlwalk, e]
  exact I3 k hk1 (by omega) hn

/-- The entry `mllik[0]` is still the NaN of the initialisation when `mlwalk`
returns. -/
theorem mlwalk_out_zero (L : Nat → Val R) (n m maxbreaks : Nat) (mllik : Nat → Val R)
    (breakpoints : Nat → Int) (hk : 0 < maxbreaks) :
    (mlwalk L n m maxbreaks mllik breakpoints).1 0 = Val.nan := by
  have e : mlwalk_run L n m maxbreaks mllik breakpoints
      = mlwalk_upto L n maxbreaks mllik breakpoints (maxbreaks - 1) := by
    unfold mlwalk_run mlwalk_upto
    have : maxbreaks - 1 + 1 = maxbreaks := by omega
    rw [this]
  obtain ⟨_, _, _, I4⟩ := mlwalk_inv L n maxbreaks mllik breakpoints (maxbreaks - 1)
  simp only [mlwalk, e]
  exact I4 0 (Or.inl rfl) hk

end MlwalkLoops

/-! ## The recurrence computes a best admitted segmentation -/

section Segmentations

variable {R : Type}

/-- Admission of a segmentation whose last break point is `b`. -/
theorem admits_snoc (L : Nat → Val R) (n : Nat) (b last : Nat) :
    ∀ (es : List Nat) (t s : Nat),
      admits L n t s (es ++ [b]) last ↔
        admits L n t s es b ∧ segOK L n (t + es.length + 1) (b + 1) last := by
  intro es
  induction es with
  | nil =>
    intro t s
    simp [admits]
  | cons e es ih =>
    intro t s
    have h := ih (t + 1) (e + 1)
    have e1 : t + 1 + es.length + 1 = t + (e :: es).length + 1 := by
      simp only [List.length_cons]
      omega
    rw [e1] at h
    show (segOK L n t s e ∧ admits L n (t + 1) (e + 1) (es ++ [b]) last) ↔
      (segOK L n t s e ∧ admits L n (t + 1) (e + 1) es b) ∧ _
    rw [h, and_assoc]

/-- A finite-or-NaN entry that is not NaN is finite. -/
theorem fin_of_gt_ninf (L : Nat → Val R) (n : Nat) (hL : FinOrNaN L n) (i j : Nat)
    (hi : i < n) (hj : j < n) (h : L (i + j * n) ≠ Val.nan) :
    ∃ x, L (i + j * n) = Val.fin x := by
  rcases hL i j hi hj with h1 | h1
  · exact absurd h1 h
  · exact h1

end Segmentations

section Recurrence

variable {R : Type} [LinearOrderedRing R]

/-- Unfolding of the recurrence at a level `nb + 1` whose best value is greater
than `-∞`: the chosen start point `i` and what the tables hold. -/
theorem dp_succ_gt (L : Nat → Val R) (n nb j : Nat)
    (hg : Val.gt (dpLlik L n (nb + 1) j) Val.ninf = true) :
    ∃ i, 3 * (nb + 1) ≤ i ∧ i < j - 3 ∧
      dpLlik L n (nb + 1) j = Val.add (dpLlik L n nb (i - 1)) (L (i + j * n)) ∧
      dpSeg L n (nb + 1) j = dpSeg L n nb (i - 1) ++ [i - 1] ∧
      (∀ i', 3 * (nb + 1) ≤ i' → i' < j - 3 →
        Val.gt (Val.add (dpLlik L n nb (i' - 1)) (L (i' + j * n)))
          (dpLlik L n (nb + 1) j) = false) := by
  rcases best_spec L n (nb + 1) (dpLlik L n nb) j with ⟨hb, _⟩ | ⟨i, hi1, hi2, hb, _, hall⟩
  · have : dpLlik L n (nb + 1) j = Val.ninf := by simp [dpLlik, hb]
    rw [this] at hg
    simp [Val.gt] at hg
  · have hv : dpLlik L n (nb + 1) j = Val.add (dpLlik L n nb (i - 1)) (L (i + j * n)) := by
      simp [dpLlik, hb]
    have hbk : dpBkpt L n (nb + 1) j = ((i - 1 : Nat) : Int) := by
      simp only [dpBkpt, hb]
      omega
    refine ⟨i, hi1, hi2, hv, ?_, ?_⟩
    · simp only [dpSeg, hbk, Int.toNat_natCast]
    · rw [hv]
      exact hall

/-- Unfolding of the recurrence at a level `nb + 1` whose best value is not
greater than `-∞`: the value is `-∞` and no candidate is greater than `-∞`. -/
theorem dp_succ_not_gt (L : Nat → Val R) (n nb j : Nat)
    (hg : Val.gt (dpLlik L n (nb + 1) j) Val.ninf = false) :
    dpLlik L n (nb + 1) j = Val.ninf ∧
      ∀ i, 3 * (nb + 1) ≤ i → i < j - 3 →
        Val.gt (Val.add (dpLlik L n nb (i - 1)) (L (i + j * n))) Val.ninf = false := by
  rcases best_spec L n (nb + 1) (dpLlik L n nb) j with ⟨hb, hall⟩ | ⟨i, _, _, hb, hgi, _⟩
  · exact ⟨by simp [dpLlik, hb], hall⟩
  · have : dpLlik L n (nb + 1) j = Val.add (dpLlik L n nb (i - 1)) (L (i + j * n)) := by
      simp [dpLlik, hb]
    rw [this, hgi] at hg
    exact absurd hg (by simp)

/-- The traced-back break points of a value greater than `-∞`: there are `nb`
of them, strictly increasing, each at least 5 below the end point. -/
theorem dpSeg_struct (L : Nat → Val R) (n : Nat) :
    ∀ nb j, (1 ≤ nb → 3 * nb + 2 ≤ j) → Val.gt (dpLlik L n nb j) Val.ninf = true →
      (dpSeg L n nb j).length = nb ∧ (dpSeg L n nb j).Pairwise (· < ·) ∧
        ∀ e ∈ dpSeg L n nb j, e + 5 ≤ j := by
  intro nb
  induction nb with
  | zero =>
    intro j _ _
    simp [dpSeg]
  | succ nb ih =>
    intro j hj hg
    obtain ⟨i, hi1, hi2, hv, hseg, _⟩ := dp_succ_gt L n nb j hg
    have hprev : Val.gt (dpLlik L n nb (i - 1)) Val.ninf = true := by
      rw [hv] at hg
      exact (Val.gt_ninf_of_add hg).1
    obtain ⟨a1, a2, a3⟩ := ih (i - 1) (fun _ => by omega) hprev
    rw [hseg]
    refine ⟨by simp [a1], ?_, ?_⟩
    · rw [List.pairwise_append]
      refine ⟨a2, List.pairwise_singleton _ _, ?_⟩
      intro a ha b hb
      have := a3 a ha
      simp only [List.mem_singleton] at hb
      omega
    · intro e he
      rw [List.mem_append, List.mem_singleton] at he
      rcases he with he | he
      · have := a3 e he
        omega
      · omega

/-- Total of a segmentation whose last break point is `b`. -/
theorem total_snoc (L : Nat → Val R) (n : Nat) (b last : Nat) :
    ∀ (es : List Nat) (s : Nat),
      total L n s (es ++ [b]) last = total L n s es b + (L (b + 1 + last * n)).toR := by
  intro es
  induction es with
  | nil =>
    intro s
    simp [total]
  | cons e es ih =>
    intro s
    show (L (s + e * n)).toR + total L n (e + 1) (es ++ [b]) last =
      (L (s + e * n)).toR + total L n (e + 1) es b + _
    rw [ih (e + 1)]
    exact (add_assoc _ _ _).symm

/-- On a matrix of finite or NaN entries the recurrence is right: a value
greater than `-∞` is the total of the traced-back segmentation, which is
admitted and has the greatest total among the admitted segmentations; otherwise
no segmentation is admitted. -/
theorem dp_opt (L : Nat → Val R) (n : Nat) (hL : FinOrNaN L n) :
    ∀ nb j, j < n → (1 ≤ nb → 3 * nb + 2 ≤ j) →
      (Val.gt (dpLlik L n nb j) Val.ninf = true →
        Admitted L n nb (dpSeg L n nb j) j ∧
        dpLlik L n nb j = Val.fin (total L n 0 (dpSeg L n nb j) j) ∧
        ∀ es, Admitted L n nb es j → total L n 0 es j ≤ total L n 0 (dpSeg L n nb j) j) ∧
      (Val.gt (dpLlik L n nb j) Val.ninf = false →
        (∀ es, ¬ Admitted L n nb es j) ∧ (1 ≤ nb → dpLlik L n nb j = Val.ninf)) := by
  intro nb
  induction nb with
  | zero =>
    intro j hj _
    have h0 : dpLlik L n 0 j = L (0 + j * n) := by simp [dpLlik]
    rw [h0]
    constructor
    · intro hg
      rcases hL 0 j (by omega) hj with h1 | ⟨x, h1⟩
      · rw [h1] at hg
        simp [Val.gt] at hg
      · refine ⟨⟨rfl, ?_⟩, ?_, ?_⟩
        · show segOK L n 0 0 j
          refine ⟨fun h => by omega, ?_⟩
          rw [h1]
          simp
        · show L (0 + j * n) = Val.fin (L (0 + j * n)).toR
          rw [h1]
          rfl
        · intro es hes
          have : es = [] := List.length_eq_zero.mp hes.1
          subst this
          exact le_refl _
    · intro hg
      refine ⟨?_, fun h => by omega⟩
      intro es hes
      have : es = [] := List.length_eq_zero.mp hes.1
      subst this
      have h2 : L (0 + j * n) ≠ Val.nan := hes.2.2
      obtain ⟨x, hx⟩ := fin_of_gt_ninf L n hL 0 j (by omega) hj h2
      rw [hx] at hg
      simp [Val.gt] at hg
  | succ nb ih =>
    intro j hj hlo
    have hj2 : 3 * (nb + 1) + 2 ≤ j := hlo (by omega)
    -- every admitted segmentation gives a finite candidate of the loop over `i`
    have hcand : ∀ es, Admitted L n (nb + 1) es j →
        ∃ i T x, 3 * (nb + 1) ≤ i ∧ i < j - 3 ∧
          Val.add (dpLlik L n nb (i - 1)) (L (i + j * n)) = Val.fin (T + x) ∧
          total L n 0 es j ≤ T + x := by
      intro es hes
      rcases List.eq_nil_or_concat es with h1 | ⟨es0, b, h1⟩
      · have := hes.1
        rw [h1] at this
        simp at this
      · rw [List.concat_eq_append] at h1
        subst h1
        have hlen : es0.length = nb := by
          have := hes.1
          simp at this
          exact this
        have hadm := (admits_snoc L n b j es0 0 0).mp hes.2
        obtain ⟨ha, hs⟩ := hadm
        rw [hlen] at hs
        have hs1 := hs.1 (by omega)
        obtain ⟨x, hx⟩ := fin_of_gt_ninf L n hL (b + 1) j (by omega) hj hs.2
        obtain ⟨p1, p2⟩ := ih b (by omega) (fun _ => by omega)
        have hgb : Val.gt (dpLlik L n nb b) Val.ninf = true := by
          cases hc : Val.gt (dpLlik L n nb b) Val.ninf
          · exact absurd ⟨hlen, ha⟩ ((p2 hc).1 es0)
          · rfl
        obtain ⟨_, q2, q3⟩ := p1 hgb
        refine ⟨b + 1, total L n 0 (dpSeg L n nb b) b, x, by omega, by omega, ?_, ?_⟩
        · simp only [Nat.add_sub_cancel, q2, hx, Val.add]
        · rw [total_snoc, hx]
          simp only [Val.toR]
          exact add_le_add_right (q3 es0 ⟨hlen, ha⟩) x
    constructor
    · intro hg
      obtain ⟨i, hi1, hi2, hv, hseg, hall⟩ := dp_succ_gt L n nb j hg
      have hgi := hg
      rw [hv] at hgi
      obtain ⟨g1, g2⟩ := Val.gt_ninf_of_add hgi
      obtain ⟨p1, _⟩ := ih (i - 1) (by omega) (fun _ => by omega)
      obtain ⟨q1, q2, _⟩ := p1 g1
      have hx0 : L (i + j * n) ≠ Val.nan := by
        intro e
        rw [e] at g2
        simp [Val.gt] at g2
      obtain ⟨x, hx⟩ := fin_of_gt_ninf L n hL i j (by omega) hj hx0
      have hi' : i - 1 + 1 = i := by omega
      have htot : total L n 0 (dpSeg L n (nb + 1) j) j
          = total L n 0 (dpSeg L n nb (i - 1)) (i - 1) + x := by
        rw [hseg, total_snoc, hi', hx]
        rfl
      have hval : dpLlik L n (nb + 1) j = Val.fin (total L n 0 (dpSeg L n (nb + 1) j) j) := by
        rw [htot, hv, q2, hx]
        rfl
      refine ⟨⟨?_, ?_⟩, hval, ?_⟩
      · rw [hseg]
        simp [q1.1]
      · rw [hseg]
        refine (admits_snoc L n (i - 1) j _ 0 0).mpr ⟨q1.2, ?_⟩
        rw [q1.1, hi']
        exact ⟨fun _ => ⟨by omega, by omega⟩, hx0⟩
      · intro es hes
        obtain ⟨i', T, x', h1, h2, h3, h4⟩ := hcand es hes
        have := hall i' h1 h2
        rw [h3, hval] at this
        simp only [Val.gt, decide_eq_false_iff_not, not_lt] at this
        exact le_trans h4 this
    · intro hg
      obtain ⟨hv, hall⟩ := dp_succ_not_gt L n nb j hg
      refine ⟨?_, fun _ => hv⟩
      intro es hes
      obtain ⟨i', T, x', h1, h2, h3, _⟩ := hcand es hes
      have := hall i' h1 h2
      rw [h3] at this
      simp [Val.gt] at this

end Recurrence

/-! ## The claims on `mlwalk` -/

section MlwalkClaims

variable {R : Type} [LinearOrderedRing R]

/-- The indices below `n` that belong to a duplicate-free list of indices below
`n` are as many as the list is long. -/
theorem length_filter_mem (es : List Nat) (n : Nat) (hnd : es.Nodup) (hlt : ∀ e ∈ es, e < n) :
    ((List.range n).filter (fun j => decide (j ∈ es))).length = es.length := by
  apply List.Perm.length_eq
  rw [List.perm_ext_iff_of_nodup ((List.nodup_range n).filter _) hnd]
  intro a
  simp only [List.mem_filter, List.mem_range, decide_eq_true_eq]
  exact ⟨fun h => h.2, fun h => ⟨hlt a h, h⟩⟩

/-- Every entry of `exampleL8` is finite. -/
theorem exampleL8_finOrNaN : FinOrNaN exampleL8 8 :=
  fun _ _ _ _ => Or.inr ⟨_, rfl⟩

/-- C1: for `n ≥ 4`, a matrix of finite or NaN entries and `1 ≤ k < n/4`, the
entry `mllik[k]` that `mlwalk` returns is the maximum of the total
log-likelihood over the `k`-break segmentations of `[0, n-1]` that the
recurrence admits, and `-∞` when none is admitted. -/
theorem C1_mllik_is_max (L : Nat → Val R) (n m k : Nat) (mllik0 : Nat → Val R)
    (bk0 : Nat → Int) (hn : 4 ≤ n) (hL : FinOrNaN L n) (hk1 : 1 ≤ k) (hk : k < n / 4) :
    IsMaxTotal L n k ((mlwalk L n m (n / 4) mllik0 bk0).1 k) := by
  have h4 : 4 * k + 4 ≤ n := by omega
  obtain ⟨e1, _⟩ := mlwalk_out L n m (n / 4) mllik0 bk0 k hk1 hk (by omega)
  obtain ⟨p1, p2⟩ := dp_opt L n hL k (n - 1) (by omega) (fun _ => by omega)
  rw [e1]
  cases hg : Val.gt (dpLlik L n k (n - 1)) Val.ninf
  · right
    exact ⟨(p2 hg).1, (p2 hg).2 hk1⟩
  · left
    obtain ⟨q1, q2, q3⟩ := p1 hg
    exact ⟨dpSeg L n k (n - 1), ⟨q1, q3⟩, q2⟩

/-- C1 at `n = 8`, `k = 1` on the matrix `exampleL8`. -/
theorem C1_mllik_is_max_witness :
    4 ≤ 8 ∧ FinOrNaN exampleL8 8 ∧ 1 ≤ 1 ∧ 1 < 8 / 4 ∧
      IsMaxTotal exampleL8 8 1
        ((mlwalk exampleL8 8 1 (8 / 4) (fun _ => Val.nan) (fun _ => 0)).1 1) :=
  ⟨by decide, exampleL8_finOrNaN, by decide, by decide,
    C1_mllik_is_max exampleL8 8 1 1 (fun _ => Val.nan) (fun _ => 0) (by decide)
      exampleL8_finOrNaN (by decide) (by decide)⟩

/-- C2: for `n ≥ 4`, a matrix of finite or NaN entries and `1 ≤ k < n/4` with
`mllik[k] > -∞`, the rows flagged in the column `k` of `breakpoints` are exactly
the right end points `e_0 < ... < e_(k-1)` of the first `k` segments of a best
admitted `k`-break segmentation, whose total is `mllik[k]`; the end `n - 1` of
the last segment is not flagged. -/
theorem C2_breakpoints_best (L : Nat → Val R) (n m k : Nat) (mllik0 : Nat → Val R)
    (bk0 : Nat → Int) (hn : 4 ≤ n) (hL : FinOrNaN L n) (hk1 : 1 ≤ k) (hk : k < n / 4)
    (hg : Val.gt ((mlwalk L n m (n / 4) mllik0 bk0).1 k) Val.ninf = true) :
    ∃ es, BestSegmentation L n k es ∧
      (mlwalk L n m (n / 4) mllik0 bk0).1 k = Val.fin (total L n 0 es (n - 1)) ∧
      es.Pairwise (· < ·) ∧
      FlagsExactly (mlwalk L n m (n / 4) mllik0 bk0).2 n k es ∧
      (mlwalk L n m (n / 4) mllik0 bk0).2 (n - 1 + k * n) ≠ 1 := by
  have h4 : 4 * k + 4 ≤ n := by omega
  obtain ⟨e1, e2⟩ := mlwalk_out L n m (n / 4) mllik0 bk0 k hk1 hk (by omega)
  rw [e1] at hg
  obtain ⟨p1, _⟩ := dp_opt L n hL k (n - 1) (by omega) (fun _ => by omega)
  obtain ⟨q1, q2, q3⟩ := p1 hg
  obtain ⟨_, s2, s3⟩ := dpSeg_struct L n k (n - 1) (fun _ => by omega) hg
  refine ⟨dpSeg L n k (n - 1), ⟨q1, q3⟩, by rw [e1, q2], s2, ?_, ?_⟩
  · intro j hj
    rw [e2 hg j hj]
    by_cases hm : j ∈ dpSeg L n k (n - 1) <;> simp [hm]
  · rw [e2 hg (n - 1) (by omega)]
    have : n - 1 ∉ dpSeg L n k (n - 1) := by
      intro hm
      have := s3 _ hm
      omega
    simp [this]

/-- C2 at `n = 8`, `k = 1` on the matrix `exampleL8`, where `mllik[1]` is finite. -/
theorem C2_breakpoints_best_witness :
    4 ≤ 8 ∧ FinOrNaN exampleL8 8 ∧ 1 ≤ 1 ∧ 1 < 8 / 4 ∧
      Val.gt ((mlwalk exampleL8 8 1 (8 / 4) (fun _ => Val.nan) (fun _ => 0)).1 1) Val.ninf
        = true ∧
      ∃ es, BestSegmentation exampleL8 8 1 es ∧
        (mlwalk exampleL8 8 1 (8 / 4) (fun _ => Val.nan) (fun _ => 0)).1 1
          = Val.fin (total exampleL8 8 0 es (8 - 1)) ∧
        es.Pairwise (· < ·) ∧
        FlagsExactly (mlwalk exampleL8 8 1 (8 / 4) (fun _ => Val.nan) (fun _ => 0)).2 8 1 es ∧
        (mlwalk exampleL8 8 1 (8 / 4) (fun _ => Val.nan) (fun _ => 0)).2 (8 - 1 + 1 * 8) ≠ 1 :=
  ⟨by decide, exampleL8_finOrNaN, by decide, by decide, by decide,
    C2_breakpoints_best exampleL8 8 1 1 (fun _ => Val.nan) (fun _ => 0) (by decide)
      exampleL8_finOrNaN (by decide) (by decide) (by decide)⟩

/-- C3: for every `n`, every matrix (infinite entries included) and every
`k < maxbreaks ≤ n/4` whose `mllik[k]` is finite when `mlwalk` returns, the
column `k` of `breakpoints` holds exactly `k` entries equal to 1 and its other
entries are 0. -/
theorem C3_column_has_k_ones (L : Nat → Val R) (n m maxbreaks k : Nat)
    (mllik0 : Nat → Val R) (bk0 : Nat → Int) (hmb : maxbreaks ≤ n / 4) (hk : k < maxbreaks)
    (hfin : ((mlwalk L n m maxbreaks mllik0 bk0).1 k).isFin = true) :
    onesInColumn (mlwalk L n m maxbreaks mllik0 bk0).2 n k = k ∧
    ∀ j, j < n → (mlwalk L n m maxbreaks mllik0 bk0).2 (j + k * n) = 1 ∨
      (mlwalk L n m maxbreaks mllik0 bk0).2 (j + k * n) = 0 := by
  have h4 : 4 * k + 4 ≤ n := by omega
  by_cases hk0 : k = 0
  · subst hk0
    rw [mlwalk_out_zero L n m maxbreaks mllik0 bk0 hk] at hfin
    simp [Val.isFin] at hfin
  · obtain ⟨e1, e2⟩ := mlwalk_out L n m maxbreaks mllik0 bk0 k (by omega) hk (by omega)
    rw [e1] at hfin
    have hg : Val.gt (dpLlik L n k (n - 1)) Val.ninf = true := by
      cases hv : dpLlik L n k (n - 1) <;> rw [hv] at hfin <;> simp [Val.isFin, Val.gt] at *
    obtain ⟨s1, s2, s3⟩ := dpSeg_struct L n k (n - 1) (fun _ => by omega) hg
    constructor
    · have hfl : ∀ j, j ∈ List.range n →
          decide ((mlwalk L n m maxbreaks mllik0 bk0).2 (j + k * n) = 1)
            = decide (j ∈ dpSeg L n k (n - 1)) := by
        intro j hj
        rw [e2 hg j (List.mem_range.mp hj)]
        by_cases hm : j ∈ dpSeg L n k (n - 1) <;> simp [hm]
      unfold onesInColumn
      rw [List.filter_congr hfl, length_filter_mem _ n (s2.imp (fun h => ne_of_lt h))
        (fun e he => by have := s3 e he; omega), s1]
    · intro j hj
      rw [e2 hg j hj]
      by_cases hm : j ∈ dpSeg L n k (n - 1) <;> simp [hm]

/-- C3 at `n = 8`, `maxbreaks = 2`, `k = 1` on the matrix `exampleL8`. -/
theorem C3_column_has_k_ones_witness :
    2 ≤ 8 / 4 ∧ 1 < 2 ∧
      ((mlwalk exampleL8 8 1 2 (fun _ => Val.nan) (fun _ => 0)).1 1).isFin = true ∧
      (onesInColumn (mlwalk exampleL8 8 1 2 (fun _ => Val.nan) (fun _ => 0)).2 8 1 = 1 ∧
        ∀ j, j < 8 → (mlwalk exampleL8 8 1 2 (fun _ => Val.nan) (fun _ => 0)).2 (j + 1 * 8) = 1 ∨
          (mlwalk exampleL8 8 1 2 (fun _ => Val.nan) (fun _ => 0)).2 (j + 1 * 8) = 0) :=
  ⟨by decide, by decide, by decide,
    C3_column_has_k_ones exampleL8 8 1 2 1 (fun _ => Val.nan) (fun _ => 0) (by decide)
      (by decide) (by decide)⟩

/-- C4, counterexample: for `n = 4` and the matrix whose entries are all 5,
`mllik[0]` is not `L[0, 3] = 5` when `mlwalk` returns. -/
theorem C4_counterexample :
    (mlwalk exampleL4 4 1 (4 / 4) (fun _ => Val.ninf) (fun _ => 0)).1 0
      ≠ exampleL4 (0 + (4 - 1) * 4) := by
  decide

/-- C4, amended: for `n ≥ 4` and every matrix, the entry `mllik[0]` is NaN when
`mlwalk` returns: the initialisation stores NaN and the levels only store the
entries `k ≥ 1`. -/
theorem C4_mllik_zero_is_nan (L : Nat → Val R) (n m : Nat) (mllik0 : Nat → Val R)
    (bk0 : Nat → Int) (hn : 4 ≤ n) :
    (mlwalk L n m (n / 4) mllik0 bk0).1 0 = Val.nan :=
  mlwalk_out_zero L n m (n / 4) mllik0 bk0 (by omega)

/-- C4, amended, at `n = 4` on the matrix whose entries are all 5. -/
theorem C4_mllik_zero_is_nan_witness :
    4 ≤ 4 ∧ (mlwalk exampleL4 4 1 (4 / 4) (fun _ => Val.ninf) (fun _ => 0)).1 0 = Val.nan :=
  ⟨by decide, C4_mllik_zero_is_nan exampleL4 4 1 (fun _ => Val.ninf) (fun _ => 0) (by decide)⟩

end MlwalkClaims

/-! ## The model selector -/

section SelectorClaims

variable {R : Type} [LinearOrderedRing R]

theorem Val.gt_false_iff_le {a b : Val R} (ha : a ≠ Val.nan) (hb : b ≠ Val.nan) :
    Val.gt a b = false ↔ Val.le a b := by
  cases a <;> cases b <;> simp [Val.gt, Val.le] at *

theorem Val.sub_fin_ne_nan {a : Val R} (c : R) (ha : a ≠ Val.nan) :
    Val.sub a (Val.fin c) ≠ Val.nan := by
  cases a <;> simp [Val.sub] at *

theorem Val.gt_ninf_left (a : Val R) : Val.gt Val.ninf a = false := by
  cases a <;> simp [Val.gt]

/-- The loop of the selector, entered at `i` with `AIC = score (i - 1)`: it
stops at the first `r ≥ i` with `score (r - 1) > score r`, or at the bound. -/
theorem aic_loop_spec (m : Nat) (mllik : Nat → Val R) (cnt : Nat) :
    ∀ i, 1 ≤ i →
      i ≤ aic_loop m mllik cnt i (score m mllik (i - 1)) ∧
      aic_loop m mllik cnt i (score m mllik (i - 1)) ≤ i + cnt ∧
      (∀ t, i ≤ t → t < aic_loop m mllik cnt i (score m mllik (i - 1)) →
        Val.gt (score m mllik (t - 1)) (score m mllik t) = false) ∧
      (aic_loop m mllik cnt i (score m mllik (i - 1)) < i + cnt →
        Val.gt (score m mllik (aic_loop m mllik cnt i (score m mllik (i - 1)) - 1))
          (score m mllik (aic_loop m mllik cnt i (score m mllik (i - 1)))) = true) := by
  induction cnt with
  | zero =>
    intro i _
    simp only [aic_loop, Nat.add_zero, le_refl, true_and]
    exact ⟨fun t h1 h2 => by omega, fun h => by omega⟩
  | succ cnt ih =>
    intro i hi
    cases hg : Val.gt (score m mllik (i - 1)) (score m mllik i)
    · have e : aic_loop m mllik (cnt + 1) i (score m mllik (i - 1))
          = aic_loop m mllik cnt (i + 1) (score m mllik (i + 1 - 1)) := by
        simp [aic_loop, hg]
      rw [e]
      obtain ⟨a1, a2, a3, a4⟩ := ih (i + 1) (by omega)
      refine ⟨by omega, by omega, ?_, ?_⟩
      · intro t h1 h2
        by_cases ht : t = i
        · subst ht; exact hg
        · exact a3 t (by omega) h2
      · intro h
        exact a4 (by omega)
    · have e : aic_loop m mllik (cnt + 1) i (score m mllik (i - 1)) = i := by
        simp [aic_loop, hg]
      rw [e]
      exact ⟨le_refl _, by omega, fun t h1 h2 => by omega, fun _ => hg⟩

/-- The first iteration never breaks: `AIC` is `-∞`. -/
theorem aic_loop_first (m : Nat) (mllik : Nat → Val R) (cnt : Nat) :
    aic_loop m mllik (cnt + 1) 1 Val.ninf
      = aic_loop m mllik cnt 2 (score m mllik (2 - 1)) := by
  simp [aic_loop, Val.gt_ninf_left]

/-- C5: for every `n`, every `m` (in particular `m ≥ 1`) and every `mllik`
whose entries `1 .. n/4 - 1` (the ones the selector reads) are not NaN, the
selector returns 0 when `n/4 ≤ 1`; otherwise it returns the largest `k` in
`[1, n/4 - 1]` with `score(1) ≤ ... ≤ score(k)`, where
`score(k) = mllik[k] - (k + m*(8 + 6k))`; and the result is below `n/4` as soon
as `n/4 ≥ 1`. -/
theorem C5_selector (n m : Nat) (mllik : Nat → Val R)
    (hnan : ∀ k, 1 ≤ k → k < n / 4 → mllik k ≠ Val.nan) :
    (n / 4 ≤ 1 → nbreaks_opt n m mllik = 0) ∧
    (2 ≤ n / 4 →
      1 ≤ nbreaks_opt n m mllik ∧ nbreaks_opt n m mllik ≤ n / 4 - 1 ∧
      NonDecrUpTo (score m mllik) (nbreaks_opt n m mllik) ∧
      ∀ k, 1 ≤ k → k ≤ n / 4 - 1 → NonDecrUpTo (score m mllik) k →
        k ≤ nbreaks_opt n m mllik) ∧
    (1 ≤ n / 4 → nbreaks_opt n m mllik < n / 4) := by
  have hsc : ∀ k, 1 ≤ k → k < n / 4 → score m mllik k ≠ Val.nan :=
    fun k h1 h2 => Val.sub_fin_ne_nan _ (hnan k h1 h2)
  have hbig : 2 ≤ n / 4 →
      1 ≤ nbreaks_opt n m mllik ∧ nbreaks_opt n m mllik ≤ n / 4 - 1 ∧
      NonDecrUpTo (score m mllik) (nbreaks_opt n m mllik) ∧
      ∀ k, 1 ≤ k → k ≤ n / 4 - 1 → NonDecrUpTo (score m mllik) k →
        k ≤ nbreaks_opt n m mllik := by
    intro h2
    have e : nbreaks_opt n m mllik
        = aic_loop m mllik (n / 4 - 2) 2 (score m mllik (2 - 1)) - 1 := by
      unfold nbreaks_opt
      have : n / 4 - 1 = (n / 4 - 2) + 1 := by omega
      rw [this, aic_loop_first]
    obtain ⟨a1, a2, a3, a4⟩ := aic_loop_spec m mllik (n / 4 - 2) 2 (by omega)
    rw [e]
    generalize aic_loop m mllik (n / 4 - 2) 2 (score m mllik (2 - 1)) = r at a1 a2 a3 a4
    refine ⟨by omega, by omega, ?_, ?_⟩
    · intro t h1 h2
      have := a3 (t + 1) (by omega) (by omega)
      rw [Nat.add_sub_cancel] at this
      exact (Val.gt_false_iff_le (hsc _ h1 (by omega)) (hsc _ (by omega) (by omega))).mp this
    · intro k hk1 hk2 hnd
      by_contra hlt
      have hr : r < 2 + (n / 4 - 2) := by omega
      have hgt := a4 hr
      have hle := hnd (r - 1) (by omega) (by omega)
      have e2 : r - 1 + 1 = r := by omega
      rw [e2] at hle
      rw [(Val.gt_false_iff_le (hsc _ (by omega) (by omega))
        (hsc _ (by omega) (by omega))).mpr hle] at hgt
      exact absurd hgt (by simp)
  refine ⟨?_, hbig, ?_⟩
  · intro h
    unfold nbreaks_opt
    have : n / 4 - 1 = 0 := by omega
    rw [this]
    rfl
  · intro h
    by_cases h2 : 2 ≤ n / 4
    · have := (hbig h2).2.1
      omega
    · unfold nbreaks_opt
      have : n / 4 - 1 = 0 := by omega
      rw [this]
      show 1 - 1 < n / 4
      omega

/-- C5 at `n = 12`, `m = 1` on the vector `exampleMllik`. -/
theorem C5_selector_witness :
    (∀ k, 1 ≤ k → k < 12 / 4 → exampleMllik k ≠ Val.nan) ∧
    ((12 / 4 ≤ 1 → nbreaks_opt 12 1 exampleMllik = 0) ∧
    (2 ≤ 12 / 4 →
      1 ≤ nbreaks_opt 12 1 exampleMllik ∧ nbreaks_opt 12 1 exampleMllik ≤ 12 / 4 - 1 ∧
      NonDecrUpTo (score 1 exampleMllik) (nbreaks_opt 12 1 exampleMllik) ∧
      ∀ k, 1 ≤ k → k ≤ 12 / 4 - 1 → NonDecrUpTo (score 1 exampleMllik) k →
        k ≤ nbreaks_opt 12 1 exampleMllik) ∧
    (1 ≤ 12 / 4 → nbreaks_opt 12 1 exampleMllik < 12 / 4)) :=
  ⟨fun _ _ _ h => Val.noConfusion h,
    C5_selector 12 1 exampleMllik (fun _ _ _ h => Val.noConfusion h)⟩

end SelectorClaims

/-! ## The slice assembler -/

section SliceBasics

variable {R : Type}

theorem Val.isNaN_iff (a : Val R) : a.isNaN = true ↔ a = Val.nan := by
  cases a <;> simp [Val.isNaN]

/-- The tests of `slice` agree with the classification of the specification,
for a column of the slice. -/
theorem slice_target_iff (obs : Nat → Val R) (n start end_ : Nat) (speed : Int)
    (col row l : Nat) (hse : start ≤ end_) (hc : col ≤ end_) :
    slice_target obs n start end_ speed col row = some l ↔
      retained obs n speed (row, col) ∧ inBlock start end_ l (row, col) := by
  unfold slice_target retained inBlock
  by_cases h1 : (obs (row + col * n)).isNaN = true
  · have h1' := (Val.isNaN_iff _).mp h1
    rw [if_pos h1]
    constructor
    · intro h; exact absurd h (by simp)
    · rintro ⟨⟨h, _⟩, _⟩
      exact absurd h1' h
  · have h1' : obs (row + col * n) ≠ Val.nan := fun e => h1 ((Val.isNaN_iff _).mpr e)
    rw [if_neg h1]
    by_cases h2 : speed > 1 ∧ Int.natAbs ((col : Int) - (row : Int)) > 200
    · rw [if_pos h2]
      constructor
      · intro h; exact absurd h (by simp)
      · rintro ⟨⟨_, h3⟩, _⟩
        rcases h3 with h3 | h3 <;> omega
    · rw [if_neg h2]
      have h2' : speed ≤ 1 ∨ Int.natAbs ((col : Int) - (row : Int)) ≤ 200 := by omega
      have hret : (obs (row + col * n) ≠ Val.nan ∧
          (speed ≤ 1 ∨ Int.natAbs ((col : Int) - (row : Int)) ≤ 200)) := ⟨h1', h2'⟩
      rw [and_iff_right hret]
      by_cases h3 : row < start
      · rw [if_pos h3, Option.some.injEq]
        constructor <;> intro h <;> omega
      · rw [if_neg h3]
        by_cases h4 : row < col
        · rw [if_pos h4, Option.some.injEq]
          constructor <;> intro h <;> omega
        · rw [if_neg h4]
          by_cases h5 : row > end_
          · rw [if_pos h5, Option.some.injEq]
            constructor <;> intro h <;> omega
          · rw [if_neg h5]
            constructor
            · intro h; exact absurd h (by simp)
            · intro h
              omega

/-- The reset of the sizes at the entry of `slice`. -/
theorem slice_reset (blocks : Nat → ml_block R) (l : Nat) :
    forLoop 0 3 (fun l b => setAt b l { b l with size := 0 }) blocks l
      = if l < 3 then { blocks l with size := 0 } else blocks l := by
  simp only [forLoop, iter, setAt]
  by_cases h2 : l = 2
  · subst h2; simp
  · by_cases h1 : l = 1
    · subst h1; simp
    · by_cases h0 : l = 0
      · subst h0; simp
      · have : ¬ l < 3 := by omega
        simp [h0, h1, h2, this]

end SliceBasics

section SliceLemmas

variable {R : Type} [LinearOrderedRing R]

/-- The body of the double loop stores the cell in the block picked by the tests. -/
theorem slice_cell_eq (lg obs dist : Nat → Val R) (sqrt : Val R → Val R)
    (n start end_ : Nat) (speed : Int) (col row : Nat) (blocks : Nat → ml_block R) :
    slice_cell lg obs dist sqrt n start end_ speed col row blocks =
      match slice_target obs n start end_ speed col row with
      | none => blocks
      | some l => slice_store lg obs dist sqrt n row col l blocks := by
  unfold slice_cell slice_target
  split_ifs <;> rfl

/-- A loop from 0 is a fold over `List.range`. -/
theorem forLoop_eq_foldl_range {σ : Type} (n : Nat) (g : Nat → σ → σ) (s : σ) :
    forLoop 0 n g s = (List.range n).foldl (fun s i => g i s) s := by
  induction n with
  | zero => simp [forLoop_empty]
  | succ k ih =>
    rw [forLoop_succ 0 k g s (Nat.zero_le _), List.range_succ, List.foldl_append, ← ih]
    rfl

/-- The double loop of `slice` visits the cells in scan order. -/
theorem forLoop_scan {σ : Type} (n start : Nat) (F : Nat → Nat → σ → σ) (cnt : Nat) (s : σ) :
    forLoop start (start + cnt) (fun col b => forLoop 0 n (fun row b => F col row b) b) s
      = (scanCells n start cnt).foldl (fun b rc => F rc.2 rc.1 b) s := by
  induction cnt with
  | zero => simp [forLoop_empty, scanCells]
  | succ k ih =>
    have e : start + (k + 1) = start + k + 1 := by omega
    rw [e, forLoop_succ start (start + k) _ s (by omega), ih, scanCells, List.foldl_append,
      forLoop_eq_foldl_range, List.foldl_map]

/-- The filter of the specification for the block `l`. -/
theorem filter_cons_block (obs : Nat → Val R) (n start end_ : Nat) (speed : Int)
    (hse : start ≤ end_) (l : Nat) (c : Nat × Nat) (cs : List (Nat × Nat)) (hc : c.2 ≤ end_) :
    (c :: cs).filter (fun rc => decide (retained obs n speed rc ∧ inBlock start end_ l rc))
      = if slice_target obs n start end_ speed c.2 c.1 = some l then
          c :: cs.filter (fun rc => decide (retained obs n speed rc ∧ inBlock start end_ l rc))
        else cs.filter (fun rc => decide (retained obs n speed rc ∧ inBlock start end_ l rc)) := by
  have hiff := slice_target_iff obs n start end_ speed c.2 c.1 l hse hc
  by_cases h : slice_target obs n start end_ speed c.2 c.1 = some l
  · rw [if_pos h, List.filter_cons_of_pos]
    simpa using hiff.mp h
  · rw [if_neg h, List.filter_cons_of_neg]
    simpa using fun hh => h (hiff.mpr hh)

/-- Folding the body of `slice` over a list of cells of the slice appends to
each block the cells that the specification gives it, in order, and leaves the
`lgamma` array and the earlier entries alone. -/
theorem slice_fold (lg obs dist : Nat → Val R) (sqrt : Val R → Val R)
    (n start end_ : Nat) (speed : Int) (hse : start ≤ end_) (cs : List (Nat × Nat)) :
    ∀ (b0 : Nat → ml_block R), (∀ rc ∈ cs, rc.2 ≤ end_) → ∀ l,
      ((cs.foldl (fun b rc => slice_cell lg obs dist sqrt n start end_ speed rc.2 rc.1 b) b0)
          l).size
        = (b0 l).size + (cs.filter
            (fun rc => decide (retained obs n speed rc ∧ inBlock start end_ l rc))).length ∧
      ((cs.foldl (fun b rc => slice_cell lg obs dist sqrt n start end_ speed rc.2 rc.1 b) b0)
          l).lgamma = (b0 l).lgamma ∧
      (∀ p, p < (b0 l).size →
        ((cs.foldl (fun b rc => slice_cell lg obs dist sqrt n start end_ speed rc.2 rc.1 b) b0)
            l).counts p = (b0 l).counts p ∧
        ((cs.foldl (fun b rc => slice_cell lg obs dist sqrt n start end_ speed rc.2 rc.1 b) b0)
            l).dist p = (b0 l).dist p) ∧
      (∀ pos row col,
        (cs.filter (fun rc => decide (retained obs n speed rc ∧ inBlock start end_ l rc))).get?
            pos = some (row, col) →
        ((cs.foldl (fun b rc => slice_cell lg obs dist sqrt n start end_ speed rc.2 rc.1 b) b0)
            l).counts ((b0 l).size + pos) = obs (row + col * n) ∧
        ((cs.foldl (fun b rc => slice_cell lg obs dist sqrt n start end_ speed rc.2 rc.1 b) b0)
            l).dist ((b0 l).size + pos) = dist (row + col * n)) := by
  induction cs with
  | nil =>
    intro b0 _ l
    simp
  | cons c cs ih =>
    intro b0 hcs l
    have hc : c.2 ≤ end_ := hcs c (List.mem_cons_self _ _)
    have hcs' : ∀ rc ∈ cs, rc.2 ≤ end_ := fun rc h => hcs rc (List.mem_cons_of_mem _ h)
    rw [List.foldl_cons, filter_cons_block obs n start end_ speed hse l c cs hc, slice_cell_eq]
    cases ht : slice_target obs n start end_ speed c.2 c.1 with
    | none =>
      simp only [reduceCtorEq, if_false]
      exact ih b0 hcs' l
    | some l0 =>
      obtain ⟨i1, i2, i3, i4⟩ :=
        ih (slice_store lg obs dist sqrt n c.1 c.2 l0 b0) hcs' l
      by_cases hl : l = l0
      · subst hl
        have hs : (slice_store lg obs dist sqrt n c.1 c.2 l b0 l).size = (b0 l).size + 1 := by
          simp [slice_store, setAt]
        have hg : (slice_store lg obs dist sqrt n c.1 c.2 l b0 l).lgamma = (b0 l).lgamma := by
          simp [slice_store, setAt]
        have hcnt : ∀ p, (slice_store lg obs dist sqrt n c.1 c.2 l b0 l).counts p
            = if p = (b0 l).size then obs (c.1 + c.2 * n) else (b0 l).counts p := by
          intro p
          by_cases hp : p = (b0 l).size <;> simp [slice_store, setAt, hp]
        have hdst : ∀ p, (slice_store lg obs dist sqrt n c.1 c.2 l b0 l).dist p
            = if p = (b0 l).size then dist (c.1 + c.2 * n) else (b0 l).dist p := by
          intro p
          by_cases hp : p = (b0 l).size <;> simp [slice_store, setAt, hp]
        simp only [if_true]
        refine ⟨?_, ?_, ?_, ?_⟩
        · rw [i1, hs, List.length_cons]
          omega
        · rw [i2, hg]
        · intro p hp
          obtain ⟨a1, a2⟩ := i3 p (by rw [hs]; omega)
          rw [a1, a2, hcnt, hdst]
          have : p ≠ (b0 l).size := by omega
          simp [this]
        · intro pos row col hget
          cases pos with
          | zero =>
            simp only [List.get?_cons_zero, Option.some.injEq] at hget
            obtain ⟨a1, a2⟩ := i3 (b0 l).size (by rw [hs]; omega)
            rw [Nat.add_zero, a1, a2, hcnt, hdst, hget]
            simp
          | succ k =>
            simp only [List.get?_cons_succ] at hget
            obtain ⟨a1, a2⟩ := i4 k row col hget
            rw [hs] at a1 a2
            have e : (b0 l).size + (k + 1) = (b0 l).size + 1 + k := by omega
            rw [e]
            exact ⟨a1, a2⟩
      · have hne : slice_store lg obs dist sqrt n c.1 c.2 l0 b0 l = b0 l := by
          simp [slice_store, setAt, hl]
        have hne' : ¬ (some l0 = some l) := by
          intro e
          exact hl (Option.some.inj e).symm
        simp only [hne', if_false]
        rw [hne] at i1 i2 i3 i4
        exact ⟨i1, i2, i3, i4⟩

/-- The cells of the scan: the columns `start .. start + cnt - 1`, all rows. -/
theorem mem_scanCells (n start cnt : Nat) (rc : Nat × Nat) :
    rc ∈ scanCells n start cnt ↔ start ≤ rc.2 ∧ rc.2 < start + cnt ∧ rc.1 < n := by
  induction cnt with
  | zero =>
    simp only [scanCells, List.not_mem_nil, false_iff]
    omega
  | succ k ih =>
    simp only [scanCells, List.mem_append, ih, List.mem_map, List.mem_range]
    constructor
    · rintro (h | ⟨r, hr, e⟩)
      · omega
      · subst e
        simp only
        omega
    · intro h
      by_cases hk : rc.2 = start + k
      · right
        exact ⟨rc.1, h.2.2, by rw [← hk]⟩
      · left
        omega

/-- The cells of the scan come in scan order. -/
theorem pairwise_scanCells (n start cnt : Nat) :
    (scanCells n start cnt).Pairwise scanBefore := by
  induction cnt with
  | zero => simp [scanCells]
  | succ k ih =>
    rw [scanCells, List.pairwise_append]
    refine ⟨ih, ?_, ?_⟩
    · rw [List.pairwise_map]
      exact List.Pairwise.imp (fun h => Or.inr ⟨rfl, h⟩) (List.pairwise_lt_range n)
    · intro a ha b hb
      rw [mem_scanCells] at ha
      simp only [List.mem_map, List.mem_range] at hb
      obtain ⟨r, _, e⟩ := hb
      subst e
      left
      exact ha.2.1

/-- The number of indices of `[a, b)` among `0 .. n - 1`, for `b ≤ n`. -/
theorem length_filter_Ico (n a b : Nat) (hb : b ≤ n) :
    ((List.range n).filter (fun r => decide (a ≤ r ∧ r < b))).length = b - a := by
  have hp : List.Perm ((List.range n).filter (fun r => decide (a ≤ r ∧ r < b)))
      (List.range' a (b - a)) := by
    rw [List.perm_ext_iff_of_nodup ((List.nodup_range n).filter _) (List.nodup_range' a (b - a))]
    intro r
    simp only [List.mem_filter, List.mem_range, decide_eq_true_eq, List.mem_range'_1]
    omega
  rw [hp.length_eq, List.length_range']

/-- The number of cells of one column that satisfy a condition on the row. -/
theorem length_filter_col (n c : Nat) (p : Nat × Nat → Bool) (a b : Nat) (hb : b ≤ n)
    (hp : ∀ r, r < n → (p (r, c) = true ↔ a ≤ r ∧ r < b)) :
    (((List.range n).map (fun row => (row, c))).filter p).length = b - a := by
  rw [List.filter_map, List.length_map, ← length_filter_Ico n a b hb]
  congr 1
  apply List.filter_congr
  intro r hr
  have := hp r (List.mem_range.mp hr)
  simp only [Function.comp]
  by_cases h : a ≤ r ∧ r < b
  · simp [h, this.mpr h]
  · have h2 : ¬ (p (r, c) = true) := fun e => h (this.mp e)
    simp [h, h2]

/-- The sizes of the three blocks when every cell is retained. -/
theorem length_blockCells (obs : Nat → Val R) (n start end_ : Nat) (speed : Int)
    (hen : end_ < n) (hobs : ∀ q, obs q ≠ Val.nan) (hsp : speed ≤ 1)
    (cnt : Nat) (hcnt : start + cnt ≤ end_ + 1) :
    ((scanCells n start cnt).filter
      (fun rc => decide (retained obs n speed rc ∧ inBlock start end_ 0 rc))).length
        = start * cnt ∧
    2 * ((scanCells n start cnt).filter
      (fun rc => decide (retained obs n speed rc ∧ inBlock start end_ 1 rc))).length
        = cnt * (cnt - 1) ∧
    ((scanCells n start cnt).filter
      (fun rc => decide (retained obs n speed rc ∧ inBlock start end_ 2 rc))).length
        = (n - 1 - end_) * cnt := by
  have hret : ∀ rc, retained obs n speed rc := fun rc => ⟨hobs _, Or.inl hsp⟩
  induction cnt with
  | zero => simp [scanCells]
  | succ k ih =>
    obtain ⟨i0, i1, i2⟩ := ih (by omega)
    simp only [scanCells, List.filter_append, List.length_append]
    have c0 := length_filter_col n (start + k)
      (fun rc => decide (retained obs n speed rc ∧ inBlock start end_ 0 rc)) 0 start (by omega)
      (fun r _ => by
        simp only [decide_eq_true_eq, hret, true_and, inBlock]
        constructor <;> intro h <;> omega)
    have c1 := length_filter_col n (start + k)
      (fun rc => decide (retained obs n speed rc ∧ inBlock start end_ 1 rc)) start (start + k)
      (by omega)
      (fun r _ => by
        simp only [decide_eq_true_eq, hret, true_and, inBlock]
        constructor <;> intro h <;> omega)
    have c2 := length_filter_col n (start + k)
      (fun rc => decide (retained obs n speed rc ∧ inBlock start end_ 2 rc)) (end_ + 1) n
      (le_refl _)
      (fun r hr => by
        simp only [decide_eq_true_eq, hret, true_and, inBlock]
        constructor <;> intro h <;> omega)
    rw [Nat.sub_zero] at c0
    rw [c0, c1, c2, i0, i2]
    refine ⟨by ring, ?_, ?_⟩
    · have e : start + k - start = k := by omega
      rw [e, Nat.mul_add, i1]
      cases k with
      | zero => rfl
      | succ j =>
        simp only [Nat.add_sub_cancel]
        ring
    · have e : n - (end_ + 1) = n - 1 - end_ := by omega
      rw [e]
      ring

/-- C9: for `0 ≤ start < end < n`, every observation matrix and every speed,
after `slice` the top, middle and bottom blocks list, in column-major scan
order, exactly the retained cells of the columns `start .. end` with
`row < start`, `start ≤ row < col` and `row > end` respectively, with
`counts[pos]` the observation and `dist[pos]` the distance of the cell; no cell
with `row = col` or `col < row ≤ end` is in a block; and without NaN and with
`speed ≤ 1` the sizes are `start * w`, `w * (w - 1) / 2` and `(n - 1 - end) * w`. -/
theorem C9_slice_blocks (lg obs dist : Nat → Val R) (sqrt : Val R → Val R)
    (n start end_ : Nat) (speed : Int) (blocks : Nat → ml_block R)
    (hse : start < end_) (hen : end_ < n) :
    SliceSpec obs dist n start end_ speed
      (slice lg obs dist sqrt n start end_ speed blocks) := by
  have hle : start ≤ end_ := by omega
  have hcnt : end_ + 1 = start + (end_ + 1 - start) := by omega
  have hfold : slice lg obs dist sqrt n start end_ speed blocks
      = (scanCells n start (end_ + 1 - start)).foldl
          (fun b rc => slice_cell lg obs dist sqrt n start end_ speed rc.2 rc.1 b)
          (forLoop 0 3 (fun l b => setAt b l { b l with size := 0 }) blocks) := by
    have h := forLoop_scan n start
      (fun col row b => slice_cell lg obs dist sqrt n start end_ speed col row b)
      (end_ + 1 - start) (forLoop 0 3 (fun l b => setAt b l { b l with size := 0 }) blocks)
    rw [← hcnt] at h
    exact h
  have hcols : ∀ rc ∈ scanCells n start (end_ + 1 - start), rc.2 ≤ end_ := by
    intro rc h
    rw [mem_scanCells] at h
    omega
  have hsize0 : ∀ l, l < 3 →
      (forLoop 0 3 (fun l b => setAt b l { b l with size := 0 }) blocks l).size = 0 := by
    intro l hl
    rw [slice_reset, if_pos hl]
  have hmem : ∀ l rc, rc ∈ blockCells obs n start end_ speed l ↔
      (start ≤ rc.2 ∧ rc.2 ≤ end_ ∧ rc.1 < n ∧ retained obs n speed rc ∧
        inBlock start end_ l rc) := by
    intro l rc
    unfold blockCells
    rw [List.mem_filter, mem_scanCells, decide_eq_true_eq]
    constructor
    · rintro ⟨⟨h1, h2, h3⟩, h4, h5⟩
      exact ⟨h1, by omega, h3, h4, h5⟩
    · rintro ⟨h1, h2, h3, h4, h5⟩
      exact ⟨⟨h1, by omega, h3⟩, h4, h5⟩
  refine ⟨?_, hmem, ?_, ?_, ?_⟩
  · intro l hl
    obtain ⟨f1, _, _, f4⟩ := slice_fold lg obs dist sqrt n start end_ speed hle
      (scanCells n start (end_ + 1 - start))
      (forLoop 0 3 (fun l b => setAt b l { b l with size := 0 }) blocks) hcols l
    rw [hfold]
    constructor
    · rw [f1, hsize0 l hl, Nat.zero_add]
      rfl
    · intro pos row col hget
      have := f4 pos row col hget
      rw [hsize0 l hl, Nat.zero_add] at this
      exact this
  · intro l
    exact (pairwise_scanCells n start _).filter _
  · intro l rc hrc
    obtain ⟨h1, h2, _, _, h5⟩ := (hmem l rc).mp hrc
    unfold inBlock at h5
    constructor
    · intro e
      omega
    · intro h
      omega
  · intro hobs hsp
    obtain ⟨c0, c1, c2⟩ := length_blockCells obs n start end_ speed hen hobs hsp
      (end_ + 1 - start) (by omega)
    have hw : end_ + 1 - start = end_ - start + 1 := by omega
    have hsz : ∀ l, l < 3 →
        (slice lg obs dist sqrt n start end_ speed blocks l).size
          = ((scanCells n start (end_ + 1 - start)).filter
              (fun rc => decide (retained obs n speed rc ∧ inBlock start end_ l rc))).length := by
      intro l hl
      obtain ⟨f1, _⟩ := slice_fold lg obs dist sqrt n start end_ speed hle
        (scanCells n start (end_ + 1 - start))
        (forLoop 0 3 (fun l b => setAt b l { b l with size := 0 }) blocks) hcols l
      rw [hfold, f1, hsize0 l hl, Nat.zero_add]
    rw [hsz 0 (by omega), hsz 1 (by omega), hsz 2 (by omega), c0, c2, hw]
    refine ⟨rfl, ?_, rfl⟩
    rw [hw] at c1
    have e : end_ - start + 1 - 1 = end_ - start := by omega
    rw [e] at c1
    rw [← c1, Nat.mul_div_cancel_left _ (by omega : 0 < 2)]

/-- The function `slice` never stores into the `lgamma` array of a block. -/
theorem slice_lgamma_untouched (lg obs dist : Nat → Val R) (sqrt : Val R → Val R)
    (n start end_ : Nat) (speed : Int) (blocks : Nat → ml_block R) (hse : start ≤ end_)
    (l : Nat) :
    (slice lg obs dist sqrt n start end_ speed blocks l).lgamma = (blocks l).lgamma := by
  have hcnt : end_ + 1 = start + (end_ + 1 - start) := by omega
  have hfold : slice lg obs dist sqrt n start end_ speed blocks
      = (scanCells n start (end_ + 1 - start)).foldl
          (fun b rc => slice_cell lg obs dist sqrt n start end_ speed rc.2 rc.1 b)
          (forLoop 0 3 (fun l b => setAt b l { b l with size := 0 }) blocks) := by
    have h := forLoop_scan n start
      (fun col row b => slice_cell lg obs dist sqrt n start end_ speed col row b)
      (end_ + 1 - start) (forLoop 0 3 (fun l b => setAt b l { b l with size := 0 }) blocks)
    rw [← hcnt] at h
    exact h
  have hcols : ∀ rc ∈ scanCells n start (end_ + 1 - start), rc.2 ≤ end_ := by
    intro rc h
    rw [mem_scanCells] at h
    omega
  obtain ⟨_, f2, _, _⟩ := slice_fold lg obs dist sqrt n start end_ speed hse
    (scanCells n start (end_ + 1 - start))
    (forLoop 0 3 (fun l b => setAt b l { b l with size := 0 }) blocks) hcols l
  rw [hfold, f2, slice_reset]
  split <;> rfl

end SliceLemmas

/-! ## The task queue and the fill phase -/

section FillLemmas

variable {R : Type} [LinearOrderedField R]

/-- The loop that advances `taskQ_i` over the skipped cells: it only moves
forward over cells in bounds whose mark is positive, and with enough fuel it
stops at the bound or at a cell whose mark is not positive. -/
theorem skip_scan_spec (skip : Nat → Int) (bound : Nat) (fuel : Nat) :
    ∀ q, q ≤ skip_scan skip bound fuel q ∧
      (∀ t, q ≤ t → t < skip_scan skip bound fuel q → t < bound ∧ skip t > 0) ∧
      (bound - q ≤ fuel →
        bound ≤ skip_scan skip bound fuel q ∨ ¬ (skip (skip_scan skip bound fuel q) > 0)) := by
  induction fuel with
  | zero =>
    intro q
    simp only [skip_scan]
    exact ⟨le_refl _, fun t h1 h2 => by omega, fun h => Or.inl (by omega)⟩
  | succ f ih =>
    intro q
    by_cases hc : q < bound ∧ skip q > 0
    · have e : skip_scan skip bound (f + 1) q = skip_scan skip bound f (q + 1) := by
        simp [skip_scan, hc]
      rw [e]
      obtain ⟨a1, a2, a3⟩ := ih (q + 1)
      refine ⟨by omega, ?_, fun h => a3 (by omega)⟩
      intro t h1 h2
      by_cases ht : t = q
      · subst ht; exact hc
      · exact a2 t (by omega) h2
    · have e : skip_scan skip bound (f + 1) q = q := by
        simp only [skip_scan, if_neg hc]
      rw [e]
      refine ⟨le_refl _, fun t h1 h2 => by omega, fun _ => ?_⟩
      by_cases hq : q < bound
      · right
        intro h
        exact hc ⟨hq, h⟩
      · left
        omega

/-- A job is the flat index of its own cell. -/
theorem job_decode (n job : Nat) : job % n + job / n * n = job := by
  rw [Nat.mul_comm]
  exact Nat.mod_add_div job n

/-- The computation of a job only stores into the cell of the job. -/
theorem compute_job_llikmat (poiss_reg : ml_block R → Val R) (sqrt : Val R → Val R)
    (arg : thread_arg R) (w job : Nat) (s : FillState R) (q : Nat) (hq : q ≠ job) :
    (compute_job poiss_reg sqrt arg w job s).llikmat q = s.llikmat q := by
  have hq' : q ≠ job % arg.n + job / arg.n * arg.n := by
    rw [job_decode]
    exact hq
  unfold compute_job
  simp only
  refine forLoop_inv (fun _ (p : (Nat → Val R) × (Nat → ml_block R)) =>
    p.1 q = s.llikmat q) 0 arg.m _ _ (Nat.zero_le _) ?_ ?_
  · exact setAt_other _ _ _ _ hq'
  · intro k t _ _ ht
    simp only
    rw [setAt_other _ _ _ _ hq']
    exact ht

end FillLemmas

section FillAcquire

variable {R : Type}

/-- An acquisition of the mutex by a worker that is before one keeps the invariant. -/
theorem acquire_inv (arg : thread_arg R) (n_threads : Nat) (l0 : Nat → Val R) (w : Nat)
    (hw : 1 ≤ w ∧ w ≤ n_threads) (s : FillState R) (hidle : (s.workers w).pc = Pc.idle)
    (hinv : FillInv arg n_threads l0 s) : FillInv arg n_threads l0 (acquire arg w s) := by
  obtain ⟨h1, h2, h3, h4, h5, h6, h7, h8, h9, h10, h11⟩ := hinv
  obtain ⟨a1, a2, a3⟩ := skip_scan_spec arg.skip (arg.n * arg.n)
    (arg.n * arg.n - s.taskQ_i) s.taskQ_i
  have a3' := a3 (le_refl _)
  unfold acquire
  simp only
  generalize skip_scan arg.skip (arg.n * arg.n) (arg.n * arg.n - s.taskQ_i) s.taskQ_i = q'
    at a1 a2 a3'
  have hother : ∀ w' (x : Worker R), w' ≠ w → (setAt s.workers w x w').pc = (s.workers w').pc :=
    fun w' x h => by rw [setAt_other _ _ _ _ h]
  by_cases hq : q' ≥ arg.n * arg.n
  · rw [if_pos hq]
    refine ⟨h1, ?_, ?_, ?_, ?_, h6, ?_, ?_, ?_, h10, h11⟩
    · intro q hqm
      obtain ⟨b1, b2, b3⟩ := h2 q hqm
      exact ⟨by simp only; omega, b2, b3⟩
    · intro q b1 b2 b3
      simp only at b1
      by_cases hlt : q < s.taskQ_i
      · exact h3 q hlt b2 b3
      · exact absurd (a2 q (by omega) b1).2 b3
    · intro w' hex
      simp only
      by_cases hww : w' = w
      · exact hq
      · rw [hother w' _ hww] at hex
        have := h4 w' hex
        omega
    · intro w' hout
      have hww : w' ≠ w := fun e => hout (e ▸ hw)
      rw [hother w' _ hww]
      exact h5 w' hout
    · intro q hqm
      rcases h7 q hqm with b | ⟨w', b⟩
      · exact Or.inl b
      · right
        have hww : w' ≠ w := fun e => by rw [e, hidle] at b; exact Pc.noConfusion b
        exact ⟨w', by rw [hother w' _ hww]; exact b⟩
    · intro w' job b
      by_cases hww : w' = w
      · subst hww
        simp [setAt] at b
      · rw [hother w' _ hww] at b
        exact h8 w' job b
    · intro w1 w2 job b1 b2
      by_cases hw1 : w1 = w
      · subst hw1
        simp [setAt] at b1
      · by_cases hw2 : w2 = w
        · subst hw2
          simp [setAt] at b2
        · rw [hother w1 _ hw1] at b1
          rw [hother w2 _ hw2] at b2
          exact h9 w1 w2 job b1 b2
  · rw [if_neg hq]
    have hq2 : q' < arg.n * arg.n := by omega
    have hns : ¬ (arg.skip q' > 0) := by
      rcases a3' with b | b
      · omega
      · exact b
    have hnew : q' ∉ s.handed := fun hm => by
      have := (h2 q' hm).1
      omega
    refine ⟨?_, ?_, ?_, ?_, ?_, ?_, ?_, ?_, ?_, h10, h11⟩
    · simp only
      rw [List.pairwise_append]
      refine ⟨h1, List.pairwise_singleton _ _, ?_⟩
      intro a ha b hb
      simp only [List.mem_singleton] at hb
      have := (h2 a ha).1
      omega
    · intro q hqm
      simp only [List.mem_append, List.mem_singleton] at hqm
      rcases hqm with hqm | hqm
      · obtain ⟨b1, b2, b3⟩ := h2 q hqm
        exact ⟨by simp only; omega, b2, b3⟩
      · subst hqm
        exact ⟨by simp only; omega, hq2, hns⟩
    · intro q b1 b2 b3
      simp only at b1
      simp only [List.mem_append, List.mem_singleton]
      by_cases hlt : q < s.taskQ_i
      · exact Or.inl (h3 q hlt b2 b3)
      · by_cases he : q = q'
        · exact Or.inr he
        · exact absurd (a2 q (by omega) (by omega)).2 b3
    · intro w' hex
      simp only
      by_cases hww : w' = w
      · subst hww
        simp [setAt] at hex
      · rw [hother w' _ hww] at hex
        have := h4 w' hex
        omega
    · intro w' hout
      have hww : w' ≠ w := fun e => hout (e ▸ hw)
      rw [hother w' _ hww]
      exact h5 w' hout
    · intro q hqm
      simp only [List.mem_append]
      exact Or.inl (h6 q hqm)
    · intro q hqm
      simp only [List.mem_append, List.mem_singleton] at hqm
      rcases hqm with hqm | hqm
      · rcases h7 q hqm with b | ⟨w', b⟩
        · exact Or.inl b
        · right
          have hww : w' ≠ w := fun e => by rw [e, hidle] at b; exact Pc.noConfusion b
          exact ⟨w', by rw [hother w' _ hww]; exact b⟩
      · right
        exact ⟨w, by simp [setAt, hqm]⟩
    · intro w' job b
      simp only [List.mem_append, List.mem_singleton]
      by_cases hww : w' = w
      · subst hww
        simp only [setAt, if_true, Pc.working.injEq] at b
        subst b
        exact ⟨Or.inr rfl, fun hm => hnew (h6 _ hm)⟩
      · rw [hother w' _ hww] at b
        obtain ⟨c1, c2⟩ := h8 w' job b
        exact ⟨Or.inl c1, c2⟩
    · intro w1 w2 job b1 b2
      by_cases hw1 : w1 = w
      · by_cases hw2 : w2 = w
        · rw [hw1, hw2]
        · subst hw1
          simp only [setAt, if_true, Pc.working.injEq] at b1
          subst b1
          rw [hother w2 _ hw2] at b2
          exact absurd (h8 w2 _ b2).1 hnew
      · by_cases hw2 : w2 = w
        · subst hw2
          simp only [setAt, if_true, Pc.working.injEq] at b2
          subst b2
          rw [hother w1 _ hw1] at b1
          exact absurd (h8 w1 _ b1).1 hnew
        · rw [hother w1 _ hw1] at b1
          rw [hother w2 _ hw2] at b2
          exact h9 w1 w2 job b1 b2

end FillAcquire

section FillLemmas

variable {R : Type} [LinearOrderedField R]

/-- The computation of the cell of its job by a worker keeps the invariant. -/
theorem compute_job_inv (poiss_reg : ml_block R → Val R) (sqrt : Val R → Val R)
    (arg : thread_arg R) (n_threads : Nat) (l0 : Nat → Val R) (w job : Nat)
    (hw : 1 ≤ w ∧ w ≤ n_threads) (s : FillState R)
    (hwork : (s.workers w).pc = Pc.working job) (hinv : FillInv arg n_threads l0 s) :
    FillInv arg n_threads l0 (compute_job poiss_reg sqrt arg w job s) := by
  obtain ⟨h1, h2, h3, h4, h5, h6, h7, h8, h9, h10, h11⟩ := hinv
  have hll := compute_job_llikmat poiss_reg sqrt arg w job s
  have hT : (compute_job poiss_reg sqrt arg w job s).taskQ_i = s.taskQ_i := rfl
  have hH : (compute_job poiss_reg sqrt arg w job s).handed = s.handed := rfl
  have hW : (compute_job poiss_reg sqrt arg w job s).written = s.written ++ [job] := by
    show s.written ++ [job % arg.n + job / arg.n * arg.n] = s.written ++ [job]
    rw [job_decode]
  have hPw : ((compute_job poiss_reg sqrt arg w job s).workers w).pc = Pc.idle := by
    simp [compute_job, setAt]
  have hPo : ∀ w', w' ≠ w →
      ((compute_job poiss_reg sqrt arg w job s).workers w').pc = (s.workers w').pc := by
    intro w' h
    simp [compute_job, setAt, h]
  generalize compute_job poiss_reg sqrt arg w job s = s' at hll hT hH hW hPw hPo
  obtain ⟨hjob, hjobn⟩ := h8 w job hwork
  refine ⟨by rw [hH]; exact h1, ?_, ?_, ?_, ?_, ?_, ?_, ?_, ?_, ?_, ?_⟩
  · intro q hq
    rw [hH] at hq
    rw [hT]
    exact h2 q hq
  · intro q b1 b2 b3
    rw [hT] at b1
    rw [hH]
    exact h3 q b1 b2 b3
  · intro w' hex
    rw [hT]
    by_cases hww : w' = w
    · rw [hww, hPw] at hex
      exact Pc.noConfusion hex
    · rw [hPo w' hww] at hex
      exact h4 w' hex
  · intro w' hout
    have hww : w' ≠ w := fun e => hout (e ▸ hw)
    rw [hPo w' hww]
    exact h5 w' hout
  · intro q hq
    rw [hW, List.mem_append, List.mem_singleton] at hq
    rw [hH]
    rcases hq with hq | hq
    · exact h6 q hq
    · rw [hq]
      exact hjob
  · intro q hq
    rw [hH] at hq
    rw [hW, List.mem_append, List.mem_singleton]
    rcases h7 q hq with b | ⟨w', b⟩
    · exact Or.inl (Or.inl b)
    · by_cases hww : w' = w
      · rw [hww, hwork] at b
        left
        right
        exact (Pc.working.inj b).symm
      · right
        exact ⟨w', by rw [hPo w' hww]; exact b⟩
  · intro w' job' b
    have hww : w' ≠ w := fun e => by rw [e, hPw] at b; exact Pc.noConfusion b
    rw [hPo w' hww] at b
    obtain ⟨c1, c2⟩ := h8 w' job' b
    rw [hH, hW, List.mem_append, List.mem_singleton]
    refine ⟨c1, ?_⟩
    rintro (h | h)
    · exact c2 h
    · rw [h] at b
      exact hww (h9 w' w job b hwork)
  · intro w1 w2 job' b1 b2
    have hw1 : w1 ≠ w := fun e => by rw [e, hPw] at b1; exact Pc.noConfusion b1
    have hw2 : w2 ≠ w := fun e => by rw [e, hPw] at b2; exact Pc.noConfusion b2
    rw [hPo w1 hw1] at b1
    rw [hPo w2 hw2] at b2
    exact h9 w1 w2 job' b1 b2
  · rw [hW]
    exact List.Nodup.append h10 (List.nodup_singleton _)
      (fun a ha hb => hjobn (by rw [List.mem_singleton] at hb; rw [← hb]; exact ha))
  · intro q hq
    rw [hW, List.mem_append, List.mem_singleton] at hq
    have hq1 : q ∉ s.written := fun h => hq (Or.inl h)
    have hq2 : q ≠ job := fun h => hq (Or.inr h)
    rw [hll q hq2]
    exact h11 q hq1

/-- Every step of a worker keeps the invariant. -/
theorem worker_step_inv (poiss_reg : ml_block R → Val R) (sqrt : Val R → Val R)
    (arg : thread_arg R) (n_threads : Nat) (l0 : Nat → Val R) (w : Nat)
    (hw : 1 ≤ w ∧ w ≤ n_threads) (s : FillState R) (hinv : FillInv arg n_threads l0 s) :
    FillInv arg n_threads l0 (worker_step poiss_reg sqrt arg w s) := by
  unfold worker_step
  cases hpc : (s.workers w).pc with
  | idle => exact acquire_inv arg n_threads l0 w hw s hpc hinv
  | working job => exact compute_job_inv poiss_reg sqrt arg n_threads l0 w job hw s hpc hinv
  | exited => exact hinv

/-- The invariant of the fill phase holds after every interleaving. -/
theorem run_workers_inv (poiss_reg : ml_block R → Val R) (sqrt : Val R → Val R)
    (arg : thread_arg R) (n_threads : Nat) (l0 : Nat → Val R) (sched : List Nat) :
    ∀ s, FillInv arg n_threads l0 s →
      FillInv arg n_threads l0 (run_workers poiss_reg sqrt arg n_threads sched s) := by
  induction sched with
  | nil => intro s h; exact h
  | cons w ws ih =>
    intro s h
    unfold run_workers
    rw [List.foldl_cons]
    apply ih
    by_cases hw : 1 ≤ w ∧ w ≤ n_threads
    · rw [if_pos hw]
      exact worker_step_inv poiss_reg sqrt arg n_threads l0 w hw s h
    · rw [if_neg hw]
      exact h

/-- The invariant holds when the threads are created. -/
theorem fill_init_inv (arg : thread_arg R) (n_threads : Nat) (l0 : Nat → Val R) :
    FillInv arg n_threads l0 (fill_init l0) := by
  refine ⟨List.Pairwise.nil, ?_, ?_, ?_, ?_, ?_, ?_, ?_, ?_, List.nodup_nil, ?_⟩
  · intro q h; exact absurd h (List.not_mem_nil _)
  · intro q h; exact absurd h (Nat.not_lt_zero _)
  · intro w h; exact Pc.noConfusion h
  · intro w _; rfl
  · intro q h; exact absurd h (List.not_mem_nil _)
  · intro q h; exact absurd h (List.not_mem_nil _)
  · intro w job h; exact Pc.noConfusion h
  · intro w w' job h; exact Pc.noConfusion h
  · intro q _; rfl

/-- A step of a worker does not move the program point of another worker. -/
theorem worker_step_other (poiss_reg : ml_block R → Val R) (sqrt : Val R → Val R)
    (arg : thread_arg R) (w w' : Nat) (h : w' ≠ w) (s : FillState R) :
    ((worker_step poiss_reg sqrt arg w s).workers w').pc = (s.workers w').pc := by
  unfold worker_step
  cases (s.workers w).pc with
  | idle =>
    unfold acquire
    simp only
    split <;> simp [setAt, h]
  | working job => simp [compute_job, setAt, h]
  | exited => rfl

/-- A worker that has left its loop stays out of it. -/
theorem exited_stable (poiss_reg : ml_block R → Val R) (sqrt : Val R → Val R)
    (arg : thread_arg R) (n_threads w : Nat) (sched : List Nat) :
    ∀ s : FillState R, (s.workers w).pc = Pc.exited →
      ((run_workers poiss_reg sqrt arg n_threads sched s).workers w).pc = Pc.exited := by
  induction sched with
  | nil => intro s h; exact h
  | cons v vs ih =>
    intro s h
    unfold run_workers
    rw [List.foldl_cons]
    apply ih
    by_cases hv : 1 ≤ v ∧ v ≤ n_threads
    · rw [if_pos hv]
      by_cases hvw : w = v
      · subst hvw
        unfold worker_step
        rw [h]
        exact h
      · rw [worker_step_other poiss_reg sqrt arg v w hvw]
        exact h
    · rw [if_neg hv]
      exact h

/-- A step of a worker that is still in its loop makes it exit or lowers its
measure. -/
theorem worker_step_progress (poiss_reg : ml_block R → Val R) (sqrt : Val R → Val R)
    (arg : thread_arg R) (w : Nat) (s : FillState R) :
    ((worker_step poiss_reg sqrt arg w s).workers w).pc = Pc.exited ∨
      fill_measure arg w (worker_step poiss_reg sqrt arg w s) + 1 ≤ fill_measure arg w s := by
  unfold worker_step
  cases hpc : (s.workers w).pc with
  | idle =>
    obtain ⟨a1, _, _⟩ := skip_scan_spec arg.skip (arg.n * arg.n)
      (arg.n * arg.n - s.taskQ_i) s.taskQ_i
    simp only
    unfold acquire
    simp only
    generalize skip_scan arg.skip (arg.n * arg.n) (arg.n * arg.n - s.taskQ_i) s.taskQ_i = q'
      at a1
    by_cases hq : q' ≥ arg.n * arg.n
    · left
      rw [if_pos hq]
      simp [setAt]
    · right
      rw [if_neg hq]
      simp only [fill_measure, hpc, setAt, if_true]
      generalize arg.n * arg.n = B at hq
      omega
  | working job =>
    right
    simp only [fill_measure, hpc, compute_job, setAt, if_true]
    omega
  | exited =>
    left
    exact hpc

/-- After `k` steps in a row, a worker has exited or its measure went down by `k`. -/
theorem worker_run_progress (poiss_reg : ml_block R → Val R) (sqrt : Val R → Val R)
    (arg : thread_arg R) (n_threads w : Nat) (hw : 1 ≤ w ∧ w ≤ n_threads) (k : Nat) :
    ∀ s : FillState R,
      ((run_workers poiss_reg sqrt arg n_threads (List.replicate k w) s).workers w).pc
          = Pc.exited ∨
        fill_measure arg w (run_workers poiss_reg sqrt arg n_threads (List.replicate k w) s) + k
          ≤ fill_measure arg w s := by
  induction k with
  | zero =>
    intro s
    right
    exact le_refl _
  | succ k ih =>
    intro s
    have e : run_workers poiss_reg sqrt arg n_threads (List.replicate (k + 1) w) s
        = run_workers poiss_reg sqrt arg n_threads (List.replicate k w)
            (worker_step poiss_reg sqrt arg w s) := by
      unfold run_workers
      rw [List.replicate_succ, List.foldl_cons, if_pos hw]
    rw [e]
    rcases worker_step_progress poiss_reg sqrt arg w s with h | h
    · left
      exact exited_stable poiss_reg sqrt arg n_threads w _ _ h
    · rcases ih (worker_step poiss_reg sqrt arg w s) with h2 | h2
      · exact Or.inl h2
      · right
        omega

/-- A worker that runs alone for `2 n² + 2` steps leaves its loop. -/
theorem worker_run_exits (poiss_reg : ml_block R → Val R) (sqrt : Val R → Val R)
    (arg : thread_arg R) (n_threads w : Nat) (hw : 1 ≤ w ∧ w ≤ n_threads) (s : FillState R) :
    ((run_workers poiss_reg sqrt arg n_threads
        (List.replicate (2 * (arg.n * arg.n) + 2) w) s).workers w).pc = Pc.exited := by
  rcases worker_run_progress poiss_reg sqrt arg n_threads w hw (2 * (arg.n * arg.n) + 2) s
    with h | h
  · exact h
  · have hb : fill_measure arg w s ≤ 2 * (arg.n * arg.n) + 1 := by
      unfold fill_measure
      have : (match (s.workers w).pc with
          | Pc.working _ => 1
          | _ => 0) ≤ 1 := by
        split <;> omega
      generalize arg.n * arg.n = B
      omega
    omega

/-- Running an interleaving after another. -/
theorem run_workers_append (poiss_reg : ml_block R → Val R) (sqrt : Val R → Val R)
    (arg : thread_arg R) (n_threads : Nat) (l1 l2 : List Nat) (s : FillState R) :
    run_workers poiss_reg sqrt arg n_threads (l1 ++ l2) s
      = run_workers poiss_reg sqrt arg n_threads l2
          (run_workers poiss_reg sqrt arg n_threads l1 s) := by
  unfold run_workers
  rw [List.foldl_append]

/-- The sequential interleaving lets the workers `1 .. t` leave their loops. -/
theorem seq_sched_exits (poiss_reg : ml_block R → Val R) (sqrt : Val R → Val R)
    (arg : thread_arg R) (n_threads : Nat) (s : FillState R) (t : Nat) (ht : t ≤ n_threads) :
    ∀ w, 1 ≤ w → w ≤ t →
      ((run_workers poiss_reg sqrt arg n_threads
        (seq_sched (2 * (arg.n * arg.n) + 2) t) s).workers w).pc = Pc.exited := by
  induction t with
  | zero => intro w h1 h2; omega
  | succ t ih =>
    intro w h1 h2
    rw [seq_sched, run_workers_append]
    by_cases hwt : w = t + 1
    · subst hwt
      exact worker_run_exits poiss_reg sqrt arg n_threads (t + 1) ⟨h1, ht⟩ _
    · exact exited_stable poiss_reg sqrt arg n_threads w _ _ (ih (by omega) w h1 (by omega))

/-- The fill phase terminates: the sequential interleaving lets every worker
leave its loop, from every state. -/
theorem seq_sched_complete (poiss_reg : ml_block R → Val R) (sqrt : Val R → Val R)
    (arg : thread_arg R) (n_threads : Nat) (s : FillState R) :
    AllExited n_threads (run_workers poiss_reg sqrt arg n_threads
      (seq_sched (2 * (arg.n * arg.n) + 2) n_threads) s) :=
  seq_sched_exits poiss_reg sqrt arg n_threads s n_threads (le_refl _)

end FillLemmas

section FillQueue

variable {R : Type}

/-- The facts on the queue that hold after every interleaving. -/
theorem queueSpec_of_inv (arg : thread_arg R) (n_threads : Nat) (hT : 1 ≤ n_threads)
    (l0 : Nat → Val R) (s : FillState R)
    (hskip : ∀ q, q < arg.n * arg.n → 0 ≤ arg.skip q) (hinv : FillInv arg n_threads l0 s) :
    QueueSpec arg n_threads s := by
  obtain ⟨h1, h2, h3, h4, h5, h6, h7, h8, h9, h10, h11⟩ := hinv
  have hz : ∀ q ∈ s.handed, q < arg.n * arg.n ∧ arg.skip q = 0 := by
    intro q hq
    obtain ⟨_, b2, b3⟩ := h2 q hq
    have := hskip q b2
    exact ⟨b2, by omega⟩
  have hnd : s.handed.Nodup := h1.imp (fun h => ne_of_lt h)
  refine ⟨h1, hz, hnd, fun q _ => job_decode arg.n q, ?_⟩
  intro hex
  have hfull : arg.n * arg.n ≤ s.taskQ_i := h4 1 (hex 1 (le_refl _) hT)
  have hall : ∀ q, q < arg.n * arg.n → arg.skip q = 0 → q ∈ s.handed := by
    intro q b1 b2
    exact h3 q (by omega) b1 (by omega)
  constructor
  · intro q b1 b2
    exact List.count_eq_one_of_mem hnd (hall q b1 b2)
  · intro q
    constructor
    · intro hq
      exact hz q (h6 q hq)
    · rintro ⟨b1, b2⟩
      rcases h7 q (hall q b1 b2) with h | ⟨w, h⟩
      · exact h
      · by_cases hw : 1 ≤ w ∧ w ≤ n_threads
        · rw [hex w hw.1 hw.2] at h
          exact Pc.noConfusion h
        · rw [h5 w hw] at h
          exact Pc.noConfusion h

end FillQueue

/-! ## The skip marks and the fill phase of `tadbit` -/

section SkipLemmas

/-- The double loop `for (i = 0; i < n-3; i++) for (j = i+3; j < n; j++)` that
stores `g i j` into the cell `(i, j)`: the cells with `i + 3 ≤ j` are stored,
the others are untouched. -/
theorem forLoop_mark (n : Nat) (g : Nat → Nat → Int) (s : Nat → Int) (r c : Nat)
    (hr : r < n) (hc : c < n) :
    forLoop 0 (n - 3) (fun i s => forLoop (i + 3) n (fun j s => setAt s (i + j * n) (g i j)) s)
        s (r + c * n)
      = if r + 3 ≤ c then g r c else s (r + c * n) := by
  have key : forLoop 0 (n - 3)
      (fun i s => forLoop (i + 3) n (fun j s => setAt s (i + j * n) (g i j)) s) s (r + c * n)
      = if r < n - 3 ∧ r + 3 ≤ c then g r c else s (r + c * n) := by
    refine forLoop_inv (fun i (t : Nat → Int) =>
      t (r + c * n) = if r < i ∧ r + 3 ≤ c then g r c else s (r + c * n)) 0 (n - 3) _ _
      (Nat.zero_le _) ?_ ?_
    · simp
    · intro i t _ hi ht
      have hin : i < n := by omega
      have inner : forLoop (i + 3) n (fun j s => setAt s (i + j * n) (g i j)) t (r + c * n)
          = if r = i ∧ i + 3 ≤ c ∧ c < n then g i c else t (r + c * n) := by
        refine forLoop_inv (fun j (u : Nat → Int) =>
          u (r + c * n) = if r = i ∧ i + 3 ≤ c ∧ c < j then g i c else t (r + c * n))
          (i + 3) n _ _ (by omega) ?_ ?_
        · have : ¬ (r = i ∧ i + 3 ≤ c ∧ c < i + 3) := by omega
          simp [this]
        · intro j u hj1 hj2 hu
          by_cases hk : r + c * n = i + j * n
          · obtain ⟨e1, e2⟩ := idx_inj hr hin hk
            subst e1; subst e2
            have : r = r ∧ r + 3 ≤ c ∧ c < c + 1 := ⟨rfl, hj1, by omega⟩
            simp [setAt, this]
          · rw [setAt_other _ _ _ _ hk, hu]
            by_cases h1 : r = i ∧ i + 3 ≤ c ∧ c < j
            · have : r = i ∧ i + 3 ≤ c ∧ c < j + 1 := ⟨h1.1, h1.2.1, by omega⟩
              simp only [h1, this, and_self, if_true]
            · have : ¬ (r = i ∧ i + 3 ≤ c ∧ c < j + 1) := by
                rintro ⟨e1, e2, e3⟩
                by_cases hcj : c = j
                · subst e1; subst hcj
                  exact hk rfl
                · exact h1 ⟨e1, e2, by omega⟩
              simp only [h1, this, if_false]
      show forLoop (i + 3) n (fun j s => setAt s (i + j * n) (g i j)) t (r + c * n) = _
      rw [inner, ht]
      by_cases h1 : r = i ∧ i + 3 ≤ c ∧ c < n
      · obtain ⟨e1, e2, _⟩ := h1
        subst e1
        have : r < r + 1 ∧ r + 3 ≤ c := ⟨by omega, e2⟩
        simp [e2, hc, this]
      · rw [if_neg h1]
        by_cases h2 : r < i ∧ r + 3 ≤ c
        · have : r < i + 1 ∧ r + 3 ≤ c := ⟨by omega, h2.2⟩
          simp only [h2, this, and_self, if_true]
        · have : ¬ (r < i + 1 ∧ r + 3 ≤ c) := by
            rintro ⟨e1, e2⟩
            by_cases hri : r = i
            · exact h1 ⟨hri, by omega, hc⟩
            · exact h2 ⟨by omega, e2⟩
          simp only [h2, this, if_false]
  rw [key]
  by_cases h : r + 3 ≤ c
  · have : r < n - 3 ∧ r + 3 ≤ c := ⟨by omega, h⟩
    simp [h, this]
  · have : ¬ (r < n - 3 ∧ r + 3 ≤ c) := fun hh => h hh.2
    simp [h, this]

/-- The initial skip marks: 0 on the cells with `i + 3 ≤ j`, the value left by
`memset` on the others. -/
theorem skip_init_eq (n r c : Nat) (hr : r < n) (hc : c < n) :
    skip_init n (r + c * n) = if r + 3 ≤ c then 0 else memset_one := by
  unfold skip_init
  rw [forLoop_mark n (fun _ _ => 0) _ r c hr hc, forLoop_fill]
  simp [idx_lt hr hc]

end SkipLemmas

section TadbitLemmas

variable {R : Type} [LinearOrderedField R]

/-- The pre-screen only stores into the cells with `i + 3 ≤ j`, and stores 0 or 1. -/
theorem prescreen_mark_eq (speed : Int) (n : Nat) (DI : Nat → Val R) (cutoff : Val R)
    (skip : Nat → Int) (r c : Nat) (hr : r < n) (hc : c < n) :
    (r + 3 ≤ c ∧ (prescreen_mark speed n DI cutoff skip (r + c * n) = 0 ∨
        prescreen_mark speed n DI cutoff skip (r + c * n) = 1)) ∨
    (¬ r + 3 ≤ c ∧ prescreen_mark speed n DI cutoff skip (r + c * n) = skip (r + c * n)) := by
  have e : prescreen_mark speed n DI cutoff skip
      = forLoop 0 (n - 3) (fun i s => forLoop (i + 3) n (fun j s => setAt s (i + j * n)
          (if too_large speed n i j then 1
           else if (decide (i < 10 + 1) || decide ((i : Int) > (n : Int) - 10 - 2) ||
              Val.gt (DI (i - 1)) cutoff) &&
              (decide (j < 10 + 1) || decide ((j : Int) > (n : Int) - 10 - 2) ||
              Val.gt (DI j) cutoff) then 0 else 1)) s) skip := by
    unfold prescreen_mark
    apply forLoop_congr
    intro i t _ _
    apply forLoop_congr
    intro j u _ _
    simp only
    split <;> rfl
  rw [e, forLoop_mark n _ skip r c hr hc]
  by_cases h : r + 3 ≤ c
  · left
    refine ⟨h, ?_⟩
    rw [if_pos h]
    split
    · right; rfl
    · split
      · left; rfl
      · right; rfl
  · right
    exact ⟨h, by rw [if_neg h]⟩

/-- The skip marks that the workers of `tadbit` read: 0 or 1 on the cells with
`i + 3 ≤ j`, the value left by `memset` on the others. -/
theorem skip_marks_cases (env : Numerics R) (speed : Int) (n m : Nat)
    (obs : Nat → Nat → Val R) (r c : Nat) (hr : r < n) (hc : c < n) :
    (r + 3 ≤ c ∧ (skip_marks env speed n m obs (r + c * n) = 0 ∨
        skip_marks env speed n m obs (r + c * n) = 1)) ∨
    (¬ r + 3 ≤ c ∧ skip_marks env speed n m obs (r + c * n) = memset_one) := by
  unfold skip_marks
  by_cases hs : speed > 0
  · rw [if_pos hs]
    rcases prescreen_mark_eq speed n (env.prescreen_stats n m obs).1
      (env.prescreen_stats n m obs).2 (skip_init n) r c hr hc with h | h
    · exact Or.inl h
    · right
      refine ⟨h.1, ?_⟩
      rw [h.2, skip_init_eq n r c hr hc, if_neg h.1]
  · rw [if_neg hs, skip_init_eq n r c hr hc]
    by_cases h : r + 3 ≤ c
    · left
      exact ⟨h, Or.inl (by rw [if_pos h])⟩
    · right
      exact ⟨h, by rw [if_neg h]⟩

/-- With `speed = 0` the pre-screen is inactive: the cells with `i + 3 ≤ j` are
not skipped. -/
theorem skip_marks_speed_zero (env : Numerics R) (n m : Nat) (obs : Nat → Nat → Val R)
    (r c : Nat) (hr : r + 3 ≤ c) (hc : c < n) :
    skip_marks env 0 n m obs (r + c * n) = 0 := by
  unfold skip_marks
  rw [if_neg (by decide), skip_init_eq n r c (by omega) hc, if_pos hr]

end TadbitLemmas

section TadbitInit

variable {R : Type}

/-- The matrix is NaN everywhere when the threads are created. -/
theorem tadbit_llikmat0_eq (n q : Nat) : (tadbit_llikmat0 n : Nat → Val R) q = Val.nan := by
  unfold tadbit_llikmat0
  rw [forLoop_fill]
  split <;> rfl

end TadbitInit

section TadbitLemmas

variable {R : Type} [LinearOrderedField R]

/-- The invariant of the fill phase holds in `tadbit` after every interleaving. -/
theorem tadbit_fill_inv (env : Numerics R) (obs : Nat → Nat → Val R) (N m : Nat)
    (n_threads : Int) (nprocs : Nat) (speed : Int) (sched : List Nat) :
    FillInv (tadbit_arg env obs N m speed) (tadbit_threads n_threads nprocs)
      (tadbit_llikmat0 (tadbit_n obs N m))
      (tadbit_fill env obs N m n_threads nprocs speed sched) :=
  run_workers_inv env.poiss_reg env.sqrt _ _ _ sched _ (fill_init_inv _ _ _)

/-- The skip marks of `tadbit` are not negative. -/
theorem tadbit_skip_nonneg (env : Numerics R) (obs : Nat → Nat → Val R) (N m : Nat)
    (speed : Int) (q : Nat)
    (hq : q < (tadbit_arg env obs N m speed).n * (tadbit_arg env obs N m speed).n) :
    0 ≤ (tadbit_arg env obs N m speed).skip q := by
  have hn : (tadbit_arg env obs N m speed).n = tadbit_n obs N m := rfl
  rw [hn] at hq
  have hpos : 0 < tadbit_n obs N m := by
    rcases Nat.eq_zero_or_pos (tadbit_n obs N m) with h | h
    · rw [h] at hq; omega
    · exact h
  have hr : q % tadbit_n obs N m < tadbit_n obs N m := Nat.mod_lt _ hpos
  have hc : q / tadbit_n obs N m < tadbit_n obs N m := Nat.div_lt_of_lt_mul hq
  have hs := skip_marks_cases env speed (tadbit_n obs N m) m
    (tadbit_arg env obs N m speed).obs _ _ hr hc
  rw [job_decode] at hs
  have e : (tadbit_arg env obs N m speed).skip q
      = skip_marks env speed (tadbit_n obs N m) m (tadbit_arg env obs N m speed).obs q := rfl
  rw [e]
  rcases hs with ⟨_, h | h⟩ | ⟨_, h⟩ <;> rw [h]
  · decide
  · decide

/-- C7: for every input, every speed and every interleaving of the workers,
the filler stores `L[i, j]` only for cells with `i ≤ j - 3` and a zero skip
mark; the compacted matrix is NaN at every cell with `j - i < 3` (the diagonal
and the lower triangle included) and at every cell whose skip mark is not zero:
these cells keep their initial NaN. -/
theorem C7_unfilled_cells_nan (env : Numerics R) (obs : Nat → Nat → Val R) (N m : Nat)
    (n_threads : Int) (nprocs : Nat) (speed : Int) (sched : List Nat) :
    (∀ q ∈ (tadbit_fill env obs N m n_threads nprocs speed sched).written,
      ∃ i j, q = i + j * tadbit_n obs N m ∧ i + 3 ≤ j ∧ j < tadbit_n obs N m ∧
        (tadbit_arg env obs N m speed).skip (i + j * tadbit_n obs N m) = 0) ∧
    (∀ i j, i < tadbit_n obs N m → j < tadbit_n obs N m →
      (j < i + 3 ∨ (tadbit_arg env obs N m speed).skip (i + j * tadbit_n obs N m) ≠ 0) →
      (tadbit_fill env obs N m n_threads nprocs speed sched).llikmat
        (i + j * tadbit_n obs N m) = Val.nan) := by
  obtain ⟨_, h2, _, _, _, h6, _, _, _, _, h11⟩ :=
    tadbit_fill_inv env obs N m n_threads nprocs speed sched
  have hn : (tadbit_arg env obs N m speed).n = tadbit_n obs N m := rfl
  have hsk : ∀ q, (tadbit_arg env obs N m speed).skip q
      = skip_marks env speed (tadbit_n obs N m) m (tadbit_arg env obs N m speed).obs q :=
    fun _ => rfl
  rw [hn] at h2
  constructor
  · intro q hq
    obtain ⟨_, b2, b3⟩ := h2 q (h6 q hq)
    have hpos : 0 < tadbit_n obs N m := by
      rcases Nat.eq_zero_or_pos (tadbit_n obs N m) with h | h
      · rw [h] at b2; omega
      · exact h
    have hr : q % tadbit_n obs N m < tadbit_n obs N m := Nat.mod_lt _ hpos
    have hc : q / tadbit_n obs N m < tadbit_n obs N m := Nat.div_lt_of_lt_mul b2
    have hs := skip_marks_cases env speed (tadbit_n obs N m) m
      (tadbit_arg env obs N m speed).obs _ _ hr hc
    rw [job_decode] at hs
    rw [hsk] at b3
    refine ⟨q % tadbit_n obs N m, q / tadbit_n obs N m, (job_decode _ q).symm, ?_⟩
    rw [job_decode, hsk]
    rcases hs with ⟨g1, g2 | g2⟩ | ⟨_, g2⟩
    · exact ⟨g1, hc, g2⟩
    · rw [g2] at b3
      exact absurd (by decide) b3
    · rw [g2] at b3
      exact absurd (by decide) b3
  · intro i j hi hj hcell
    have hnw : i + j * tadbit_n obs N m ∉
        (tadbit_fill env obs N m n_threads nprocs speed sched).written := by
      intro hw
      obtain ⟨_, _, b3⟩ := h2 _ (h6 _ hw)
      rw [hsk] at b3
      have hs := skip_marks_cases env speed (tadbit_n obs N m) m
        (tadbit_arg env obs N m speed).obs i j hi hj
      rcases hs with ⟨g1, g2 | g2⟩ | ⟨_, g2⟩
      · rcases hcell with hc | hc
        · omega
        · rw [hsk] at hc
          exact hc g2
      · rw [g2] at b3
        exact absurd (by decide) b3
      · rw [g2] at b3
        exact absurd (by decide) b3
    rw [h11 _ hnw]
    exact tadbit_llikmat0_eq _ _

/-- The removal mask: `remove[i]` is 1 when a replicate has a diagonal entry
below 1 at `i`, and 0 otherwise. -/
theorem remove_flags_spec (obs : Nat → Nat → Val R) (N m : Nat) (i : Nat) (hi : i < N) :
    (remove_flags obs N m i = 1 ∧ ∃ k, k < m ∧ Val.lt (obs k (i + i * N)) (Val.fin 1) = true) ∨
    (remove_flags obs N m i = 0 ∧ ∀ k, k < m → Val.lt (obs k (i + i * N)) (Val.fin 1) = false) := by
  unfold remove_flags
  refine forLoop_inv (fun i' (rem : Nat → Int) => i < i' →
    ((rem i = 1 ∧ ∃ k, k < m ∧ Val.lt (obs k (i + i * N)) (Val.fin 1) = true) ∨
     (rem i = 0 ∧ ∀ k, k < m → Val.lt (obs k (i + i * N)) (Val.fin 1) = false)))
    0 N _ _ (Nat.zero_le _) ?_ ?_ hi
  · intro h
    omega
  · intro i' rem _ _ hrem hlt
    beta_reduce
    by_cases hii : i = i'
    · subst hii
      refine forLoop_inv (fun k' (r : Nat → Int) =>
        ((r i = 1 ∧ ∃ k, k < k' ∧ Val.lt (obs k (i + i * N)) (Val.fin 1) = true) ∨
         (r i = 0 ∧ ∀ k, k < k' → Val.lt (obs k (i + i * N)) (Val.fin 1) = false)))
        0 m _ _ (Nat.zero_le _) ?_ ?_
      · right
        exact ⟨setAt_same _ _ _, fun k h => by omega⟩
      · intro k' r _ _ hr
        beta_reduce
        cases hlt' : Val.lt (obs k' (i + i * N)) (Val.fin 1)
        · simp only [Bool.false_eq_true, if_false]
          rcases hr with ⟨a1, k, a2, a3⟩ | ⟨a1, a2⟩
          · left
            exact ⟨a1, k, by omega, a3⟩
          · right
            refine ⟨a1, fun k hk => ?_⟩
            by_cases hkk : k = k'
            · subst hkk; exact hlt'
            · exact a2 k (by omega)
        · simp only [if_true]
          left
          exact ⟨setAt_same _ _ _, k', by omega, hlt'⟩
    · have hkeep : forLoop 0 m
          (fun k rem => if Val.lt (obs k (i' + i' * N)) (Val.fin 1) = true
            then setAt rem i' 1 else rem) (setAt rem i' 0) i = rem i := by
        refine forLoop_inv (fun _ (r : Nat → Int) => r i = rem i) 0 m _ _
          (Nat.zero_le _) ?_ ?_
        · exact setAt_other _ _ _ _ hii
        · intro k' r _ _ hr
          beta_reduce
          split
          · rw [setAt_other _ _ _ _ hii]
            exact hr
          · exact hr
      rw [hkeep]
      exact hrem (by omega)

/-- When no index is removed the compacted dimension is `N`. -/
theorem compact_n_none (N : Nat) (remove : Nat → Int) (h : ∀ i, i < N → remove i = 0) :
    compact_n N remove = (N : Int) := by
  unfold compact_n
  refine forLoop_inv (fun i (n : Int) => i ≤ N → n = (N : Int)) 0 N _ _
    (Nat.zero_le _) ?_ ?_ (le_refl _)
  · intro _; rfl
  · intro i n _ hi hn _
    rw [hn (by omega), h i hi]
    simp

/-- In the seed scenario no index is removed: `n = 8`. -/
theorem tadbit_n_seed : tadbit_n (seedObs : Nat → Nat → Val R) 8 1 = 8 := by
  unfold tadbit_n
  rw [compact_n_none]
  · rfl
  · intro i hi
    rcases remove_flags_spec (seedObs : Nat → Nat → Val R) 8 1 i hi with ⟨_, k, _, h⟩ | ⟨h, _⟩
    · have e1 : (i + i * 8) % 8 = (i + i * 8) / 8 := by omega
      simp only [seedObs, e1, if_true, Val.lt, Val.gt, decide_eq_true_eq] at h
      norm_num at h
    · exact h

/-- With `n/4 = 2` the selector returns 1 whatever `mllik` holds: its only
comparison is against `AIC = -∞`. -/
theorem nbreaks_opt_of_two (n m : Nat) (mllik : Nat → Val R) (h : n / 4 = 2) :
    nbreaks_opt n m mllik = 1 := by
  unfold nbreaks_opt
  rw [h]
  show aic_loop m mllik (0 + 1) 1 Val.ninf - 1 = 1
  rw [aic_loop_first]
  rfl

/-- What `tadbit` does in the seed scenario for an interleaving that lets every
worker exit. -/
theorem tadbit_seed (env : Numerics R) (n_threads : Int) (nprocs : Nat) (sched : List Nat)
    (fresh : Nat → Val R) (hthr : 1 ≤ tadbit_threads n_threads nprocs)
    (hex : AllExited (tadbit_threads n_threads nprocs)
      (tadbit_fill env seedObs 8 1 n_threads nprocs 0 sched)) :
    SeedSpec env n_threads nprocs sched fresh := by
  have hn : tadbit_n (seedObs : Nat → Nat → Val R) 8 1 = 8 := tadbit_n_seed
  have hn' : (tadbit_arg env seedObs 8 1 0).n = 8 := hn
  have hq := queueSpec_of_inv (tadbit_arg env seedObs 8 1 0) (tadbit_threads n_threads nprocs)
    hthr _ _ (tadbit_skip_nonneg env seedObs 8 1 0)
    (tadbit_fill_inv env seedObs 8 1 n_threads nprocs 0 sched)
  obtain ⟨_, _, _, _, hdone⟩ := hq
  obtain ⟨_, hwr⟩ := hdone hex
  have hskip : ∀ i j, i + 3 ≤ j → j < 8 →
      (tadbit_arg env seedObs 8 1 0).skip (i + j * 8) = 0 := by
    intro i j h1 h2
    have e : (tadbit_arg env seedObs 8 1 0).skip (i + j * 8)
        = skip_marks env 0 (tadbit_n (seedObs : Nat → Nat → Val R) 8 1) 1
            (tadbit_arg env seedObs 8 1 0).obs (i + j * 8) := rfl
    rw [e, hn]
    exact skip_marks_speed_zero env 8 1 _ i j h1 h2
  refine ⟨hn, ?_, ?_⟩
  · intro i j h1 h2
    refine ⟨hskip i j h1 h2, (hwr _).mpr ⟨?_, hskip i j h1 h2⟩⟩
    rw [hn']
    omega
  · unfold tadbit
    simp only
    rw [if_pos hex]
    refine ⟨_, rfl, ?_, ?_⟩
    · simp only [hn]
    · simp only [hn]
      exact nbreaks_opt_of_two 8 1 _ (by decide)

/-- The function `tadbit` returns: for every input there is an interleaving of
the workers after which all of them have exited. -/
theorem tadbit_returns (env : Numerics R) (obs : Nat → Nat → Val R) (N m : Nat)
    (n_threads : Int) (nprocs : Nat) (speed : Int) (fresh : Nat → Val R) :
    ∃ sched out, tadbit env obs N m n_threads nprocs speed sched fresh = some out := by
  refine ⟨seq_sched (2 * ((tadbit_arg env obs N m speed).n * (tadbit_arg env obs N m speed).n)
    + 2) (tadbit_threads n_threads nprocs), ?_⟩
  have hex := seq_sched_complete env.poiss_reg env.sqrt (tadbit_arg env obs N m speed)
    (tadbit_threads n_threads nprocs) (fill_init (tadbit_llikmat0 (tadbit_n obs N m)))
  unfold tadbit
  simp only
  unfold tadbit_fill
  rw [if_pos hex]
  exact ⟨_, rfl⟩

/-- The sequential interleaving of one worker lets it exit in the seed scenario. -/
theorem seed_sched_complete :
    AllExited (tadbit_threads 1 1)
      (tadbit_fill exampleEnv seedObs 8 1 1 1 0 (seq_sched 130 1)) := by
  have h := seq_sched_complete exampleEnv.poiss_reg exampleEnv.sqrt
    (tadbit_arg exampleEnv seedObs 8 1 0) 1
    (fill_init (tadbit_llikmat0 (tadbit_n (seedObs : Nat → Nat → Val ℚ) 8 1)))
  have hn0 : tadbit_n (seedObs : Nat → Nat → Val ℚ) 8 1 = 8 := tadbit_n_seed
  have hn : (tadbit_arg exampleEnv seedObs 8 1 0).n = 8 := hn0
  rw [hn] at h
  exact h

/-- C6, counterexample: in the seed scenario, run with one worker, `tadbit`
returns an `nbreaks_opt` that is not 0. -/
theorem C6_counterexample :
    ∃ out, tadbit exampleEnv seedObs 8 1 1 1 0 (seq_sched 130 1) (fun _ => Val.nan) = some out ∧
      out.nbreaks_opt ≠ 0 := by
  obtain ⟨_, _, out, h1, _, h3⟩ :=
    tadbit_seed exampleEnv 1 1 (seq_sched 130 1) (fun _ => Val.nan) (by decide)
      seed_sched_complete
  exact ⟨out, h1, by rw [h3]; decide⟩

/-- C6, amended: for a single replicate with `N = 8`, diagonal 10 and
off-diagonal 1, run with `speed = 0` on at least one worker: no index is
removed (`n = 8`), every cell `(i, j)` with `j - i ≥ 3` is unskipped and
computed, and `tadbit` returns `nbreaks_opt = 1` (with `maxbreaks = 2`). -/
theorem C6_seed_scenario (env : Numerics R) (n_threads : Int) (nprocs : Nat)
    (sched : List Nat) (fresh : Nat → Val R) (hthr : 1 ≤ tadbit_threads n_threads nprocs)
    (hex : AllExited (tadbit_threads n_threads nprocs)
      (tadbit_fill env seedObs 8 1 n_threads nprocs 0 sched)) :
    SeedSpec env n_threads nprocs sched fresh :=
  tadbit_seed env n_threads nprocs sched fresh hthr hex

/-- C6, amended, for one worker that runs alone until it exits. -/
theorem C6_seed_scenario_witness :
    1 ≤ tadbit_threads 1 1 ∧
    AllExited (tadbit_threads 1 1)
      (tadbit_fill exampleEnv seedObs 8 1 1 1 0 (seq_sched 130 1)) ∧
    SeedSpec exampleEnv 1 1 (seq_sched 130 1) (fun _ => Val.nan) :=
  ⟨by decide, seed_sched_complete,
    C6_seed_scenario exampleEnv 1 1 (seq_sched 130 1) (fun _ => Val.nan) (by decide)
      seed_sched_complete⟩

/-- C9 at `n = 4` for the slice `(1, 2)` of the example observations. -/
theorem C9_slice_blocks_witness :
    1 < 2 ∧ 2 < 4 ∧
    SliceSpec exampleObs exampleDist 4 1 2 0
      (slice exampleLg exampleObs exampleDist (fun v => v) 4 1 2 0 (fun _ => zero_block)) :=
  ⟨by decide, by decide,
    C9_slice_blocks exampleLg exampleObs exampleDist (fun v => v) 4 1 2 0
      (fun _ => zero_block) (by decide) (by decide)⟩

/-- C10, the code at a failing input: for `n = 3` and the slice `(0, 1)`, the
cell `(0, 1)` is appended to the middle block at position 0 with its
observation in `counts[0]`, but `lgamma[0]` is still the `0.0` of the
allocation and not the pre-computed log-gamma `7` of the cell. -/
theorem C10_lgamma_not_stored :
    ((slice exampleLg exampleObs exampleDist (fun v => v) 3 0 1 0
      (fun _ => zero_block)) 1).size = 1 ∧
    ((slice exampleLg exampleObs exampleDist (fun v => v) 3 0 1 0
      (fun _ => zero_block)) 1).counts 0 = exampleObs (0 + 1 * 3) ∧
    ((slice exampleLg exampleObs exampleDist (fun v => v) 3 0 1 0
      (fun _ => zero_block)) 1).lgamma 0 = Val.fin 0 ∧
    ((slice exampleLg exampleObs exampleDist (fun v => v) 3 0 1 0
      (fun _ => zero_block)) 1).lgamma 0 ≠ exampleLg (0 + 1 * 3) := by
  decide

end TadbitLemmas

/-! ## The block fitter -/

section PoissRegLemmas

variable {R : Type} [LinearOrderedField R]

theorem blockSum_succ (n : Nat) (t : Nat → R) : blockSum (n + 1) t = blockSum n t + t n := by
  simp [blockSum, List.range_succ]

theorem Val.fin_of_isFin (v : Val R) (h : v.isFin = true) : v = Val.fin v.toR := by
  cases v <;> simp_all [Val.isFin, Val.toR]

/-- On a block of finite numbers the derivative loop computes the three sums
`H_aa`, `H_ab` and `H_bb`. -/
theorem derivs_finite (exp : R → R) (blk : ml_block R) (hfin : FiniteBlock blk) (a b : R) :
    derivs exp blk (Val.fin a) (Val.fin b)
      = (Val.fin (H_aa exp blk a b), Val.fin (H_ab exp blk a b),
          Val.fin (H_bb exp blk a b)) := by
  unfold derivs H_aa H_ab H_bb
  refine forLoop_inv
    (fun i (p : Val R × Val R × Val R) =>
      p = (Val.fin (blockSum i
            (fun i => (blk.weights i).toR * exp (a + b * (blk.dist i).toR))),
          Val.fin (blockSum i
            (fun i => (blk.weights i).toR * exp (a + b * (blk.dist i).toR) * (blk.dist i).toR)),
          Val.fin (blockSum i
            (fun i => (blk.weights i).toR * exp (a + b * (blk.dist i).toR)
              * (blk.dist i).toR ^ 2))))
    0 blk.size _ _ (Nat.zero_le _) ?_ ?_
  · simp [blockSum]
  · intro i p _ hi hp
    obtain ⟨hw, hd, _⟩ := hfin i hi
    rw [hp, Val.fin_of_isFin _ hw, Val.fin_of_isFin _ hd]
    simp only [blockSum_succ, Val.mul, Val.add, Val.exp, Val.toR, pow_two, mul_assoc]

/-- C19. In exact arithmetic, on a block of finite numbers and at finite
`(a, b)` with gradient `(f, g)`, when `denom = H_ab^2 - H_aa*H_bb` is not zero the
update `(da, db)` of `poiss_reg` is finite and solves the Newton system
`H_aa*da + H_ab*db = -f`, `H_ab*da + H_bb*db = -g`. -/
theorem C19_newton_system (exp : R → R) (blk : ml_block R) (hfin : FiniteBlock blk)
    (a b f g : R)
    (hden : H_ab exp blk a b ^ 2 - H_aa exp blk a b * H_bb exp blk a b ≠ 0) :
    ∃ da db : R,
      newton_update exp blk (Val.fin a) (Val.fin b) (Val.fin f) (Val.fin g)
        = (Val.fin da, Val.fin db) ∧
      H_aa exp blk a b * da + H_ab exp blk a b * db = -f ∧
      H_ab exp blk a b * da + H_bb exp blk a b * db = -g := by
  have hden' : H_ab exp blk a b * H_ab exp blk a b - H_aa exp blk a b * H_bb exp blk a b ≠ 0 := by
    rw [← pow_two]; exact hden
  refine ⟨(f * H_bb exp blk a b - g * H_ab exp blk a b)
            / (H_ab exp blk a b * H_ab exp blk a b - H_aa exp blk a b * H_bb exp blk a b),
          (g * H_aa exp blk a b - f * H_ab exp blk a b)
            / (H_ab exp blk a b * H_ab exp blk a b - H_aa exp blk a b * H_bb exp blk a b),
          ?_, ?_, ?_⟩
  · simp only [newton_update, derivs_finite exp blk hfin, Val.mul, Val.sub, Val.div,
      if_neg hden']
  · field_simp
    ring
  · field_simp
    ring

theorem unitBlock_finite : FiniteBlock (unitBlock : ml_block R) := by
  intro i _
  simp [unitBlock, Val.isFin]

theorem unitBlock_sums :
    H_aa Real.exp unitBlock 0 0 = 3 ∧ H_ab Real.exp unitBlock 0 0 = 3 ∧
      H_bb Real.exp unitBlock 0 0 = 5 := by
  simp [H_aa, H_ab, H_bb, blockSum, unitBlock, Val.toR, List.range_succ]
  norm_num

/-- C19 on the block `unitBlock` over the reals, at `(a, b) = (0, 0)` with the
gradient `(1, 2)`: `H_aa = 3`, `H_ab = 3`, `H_bb = 5`. -/
theorem C19_newton_system_witness :
    FiniteBlock (unitBlock : ml_block ℝ) ∧
    (H_ab Real.exp unitBlock 0 0 ^ 2
      - H_aa Real.exp unitBlock 0 0 * H_bb Real.exp unitBlock 0 0 ≠ 0) ∧
    ∃ da db : ℝ,
      newton_update Real.exp unitBlock (Val.fin 0) (Val.fin 0) (Val.fin 1) (Val.fin 2)
        = (Val.fin da, Val.fin db) ∧
      H_aa Real.exp unitBlock 0 0 * da + H_ab Real.exp unitBlock 0 0 * db = -1 ∧
      H_ab Real.exp unitBlock 0 0 * da + H_bb Real.exp unitBlock 0 0 * db = -2 :=
  have hden : H_ab Real.exp unitBlock 0 0 ^ 2
      - H_aa Real.exp unitBlock 0 0 * H_bb Real.exp unitBlock 0 0 ≠ 0 := by
    rw [unitBlock_sums.1, unitBlock_sums.2.1, unitBlock_sums.2.2]
    norm_num
  ⟨unitBlock_finite, hden, C19_newton_system Real.exp unitBlock unitBlock_finite 0 0 1 2 hden⟩

end PoissRegLemmas

section NewtonLoop

variable {R : Type} [LinearOrderedField R]

theorem Val.add_fin_zero (v : Val R) : Val.add v (Val.fin 0) = v := by
  cases v <;> simp [Val.add]

/-- The gradient that `recompute_fg` computes at the step `(da, db)` from
`(a, b)` is the gradient at `(a + da, b + db)`. -/
theorem recompute_fg_shift (exp : R → R) (blk : ml_block R) (a b da db : Val R) :
    recompute_fg exp blk a b da db
      = recompute_fg exp blk (Val.add a da) (Val.add b db) (Val.fin 0) (Val.fin 0) := by
  simp only [recompute_fg, Val.add_fin_zero]

/-- The backtracking loop leaves a step together with the gradient at that step. -/
theorem backtrack_spec (exp : R → R) (blk : ml_block R) (a b oldgrad : Val R) :
    ∀ (fuel : Nat) (s t : BtState R),
      (s.f, s.g) = recompute_fg exp blk a b s.da s.db →
      backtrack exp blk a b oldgrad fuel s = some t →
      (t.f, t.g) = recompute_fg exp blk a b t.da t.db ∧
        Val.gt (sqnorm t.f t.g) oldgrad = false := by
  intro fuel
  induction fuel with
  | zero =>
    intro s t hs h
    by_cases hc : Val.gt (sqnorm s.f s.g) oldgrad = true
    · simp [backtrack, hc] at h
    · simp only [backtrack, if_neg hc, Option.some.injEq] at h
      subst h
      exact ⟨hs, by simpa using hc⟩
  | succ k ih =>
    intro s t hs h
    by_cases hc : Val.gt (sqnorm s.f s.g) oldgrad = true
    · simp only [backtrack, if_pos hc] at h
      exact ih _ t rfl h
    · simp only [backtrack, if_neg hc, Option.some.injEq] at h
      subst h
      exact ⟨hs, by simpa using hc⟩

/-- The loop stops at once when the squared gradient is not above the tolerance. -/
theorem nr_loop_stop (exp : R → R) (TOLERANCE : R) (MAXITER fuel : Nat) (blk : ml_block R)
    (rem : Nat) (s : NRState R)
    (h : Val.gt (sqnorm s.f s.g) (Val.fin TOLERANCE) = false) :
    nr_loop exp TOLERANCE MAXITER fuel blk rem s = some s := by
  cases rem <;> simp [nr_loop, h]

/-- The exit state of the Newton-Raphson loop, from any state at the loop head
whose `iter` counts the bodies and whose `(f, g)` is the gradient at `(a, b)`. -/
theorem nr_loop_spec (exp : R → R) (TOLERANCE : R) (MAXITER fuel : Nat) (blk : ml_block R) :
    ∀ (rem : Nat) (s t : NRState R),
      s.iter = s.bodies → s.bodies ≤ MAXITER →
      (s.f, s.g) = recompute_fg exp blk s.a s.b (Val.fin 0) (Val.fin 0) →
      nr_loop exp TOLERANCE MAXITER fuel blk rem s = some t →
      NRExit exp TOLERANCE MAXITER blk t := by
  intro rem
  induction rem with
  | zero =>
    intro s t hib hb hfg h
    by_cases hc : Val.gt (sqnorm s.f s.g) (Val.fin TOLERANCE) = true
    · by_cases hi : s.iter < MAXITER
      · simp [nr_loop, hc, hi] at h
      · simp only [nr_loop, if_pos hc, if_neg hi, Option.some.injEq] at h
        subst h
        exact ⟨hb, hfg, Or.inr ⟨by simp only; omega, by simp only; omega⟩⟩
    · simp only [nr_loop, if_neg hc, Option.some.injEq] at h
      subst h
      exact ⟨hb, hfg, Or.inl ⟨hib, by simpa using hc⟩⟩
  | succ k ih =>
    intro s t hib hb hfg h
    by_cases hc : Val.gt (sqnorm s.f s.g) (Val.fin TOLERANCE) = true
    · by_cases hi : s.iter < MAXITER
      · simp only [nr_loop, if_pos hc, if_pos hi] at h
        cases hbody : nr_body exp fuel blk (sqnorm s.f s.g) { s with iter := s.iter + 1 } with
        | none => simp [hbody] at h
        | some u =>
          simp only [hbody] at h
          simp only [nr_body] at hbody
          cases hbt : backtrack exp blk s.a s.b (sqnorm s.f s.g) fuel
              { da := (newton_update exp blk s.a s.b s.f s.g).1,
                db := (newton_update exp blk s.a s.b s.f s.g).2,
                f := (recompute_fg exp blk s.a s.b (newton_update exp blk s.a s.b s.f s.g).1
                  (newton_update exp blk s.a s.b s.f s.g).2).1,
                g := (recompute_fg exp blk s.a s.b (newton_update exp blk s.a s.b s.f s.g).1
                  (newton_update exp blk s.a s.b s.f s.g).2).2 } with
          | none => simp [hbt] at hbody
          | some v =>
            simp only [hbt, Option.some.injEq] at hbody
            subst hbody
            have hv := (backtrack_spec exp blk s.a s.b (sqnorm s.f s.g) fuel _ v rfl hbt).1
            refine ih _ t ?_ ?_ ?_ h
            · simp only; omega
            · simp only; omega
            · simp only
              rw [hv, recompute_fg_shift]
      · simp only [nr_loop, if_pos hc, if_neg hi, Option.some.injEq] at h
        subst h
        exact ⟨hb, hfg, Or.inr ⟨by simp only; omega, by simp only; omega⟩⟩
    · simp only [nr_loop, if_neg hc, Option.some.injEq] at h
      subst h
      exact ⟨hb, hfg, Or.inl ⟨hib, by simpa using hc⟩⟩

/-- The state at the exit of the loop of `poiss_reg`. -/
theorem poiss_reg_run_spec (exp : R → R) (TOLERANCE : R) (MAXITER fuel : Nat)
    (blk : ml_block R) (t : NRState R)
    (h : poiss_reg_run exp TOLERANCE MAXITER fuel blk = some t) :
    NRExit exp TOLERANCE MAXITER blk t :=
  nr_loop_spec exp TOLERANCE MAXITER fuel blk MAXITER _ t rfl (Nat.zero_le _) rfl h


theorem forLoop_zero_three {σ : Type} (body : Nat → σ → σ) (s : σ) :
    forLoop 0 3 body s = body 2 (body 1 (body 0 s)) := rfl

theorem unitBlock_fg :
    recompute_fg Real.exp (unitBlock : ml_block ℝ) (Val.fin 0) (Val.fin 0) (Val.fin 0) (Val.fin 0)
      = (Val.fin 0, Val.fin 0) := by
  simp [recompute_fg, unitBlock, forLoop_zero_three, Val.add, Val.mul, Val.sub, Val.exp]

theorem unitBlock_run (fuel : Nat) :
    poiss_reg_run Real.exp (1 / 1000000) 10000 fuel (unitBlock : ml_block ℝ)
      = some { a := Val.fin 0, b := Val.fin 0, da := Val.fin 0, db := Val.fin 0,
               f := Val.fin 0, g := Val.fin 0, iter := 0, bodies := 0 } := by
  unfold poiss_reg_run
  simp only [unitBlock_fg]
  apply nr_loop_stop
  simp [sqnorm, Val.mul, Val.add, Val.gt]

theorem unitBlock_returns (fuel : Nat) :
    poiss_reg Real.exp (1 / 1000000) 10000 fuel (unitBlock : ml_block ℝ) = some (Val.fin 3) := by
  unfold poiss_reg
  rw [unitBlock_run]
  simp [unitBlock, final_llik, forLoop_zero_three, Val.add, Val.mul, Val.sub, Val.exp]
  norm_num

theorem unitBlock_returned : returned_llik Real.exp (unitBlock : ml_block ℝ) 0 0 = 3 := by
  simp [returned_llik, blockSum, unitBlock, Val.toR, List.range_succ]
  norm_num

theorem unitBlock_model : model_llik Real.exp Real.log (unitBlock : ml_block ℝ) 0 0 = -3 := by
  simp [model_llik, blockSum, unitBlock, Val.toR, List.range_succ]
  norm_num

theorem flatBlock_fg :
    recompute_fg Real.exp (flatBlock : ml_block ℝ) (Val.fin 0) (Val.fin 0) (Val.fin 0) (Val.fin 0)
      = (Val.fin 3, Val.fin 3) := by
  simp [recompute_fg, flatBlock, forLoop_zero_three, Val.add, Val.mul, Val.sub, Val.exp]
  norm_num

theorem flatBlock_update :
    newton_update Real.exp (flatBlock : ml_block ℝ) (Val.fin 0) (Val.fin 0) (Val.fin 3) (Val.fin 3)
      = (Val.nan, Val.nan) := by
  simp [newton_update, derivs, flatBlock, forLoop_zero_three, Val.add, Val.mul, Val.sub, Val.exp,
    Val.div]

theorem flatBlock_fg_nan :
    recompute_fg Real.exp (flatBlock : ml_block ℝ) (Val.fin 0) (Val.fin 0) Val.nan Val.nan
      = (Val.nan, Val.nan) := by
  simp [recompute_fg, flatBlock, forLoop_zero_three, Val.add, Val.mul, Val.sub, Val.exp]

theorem flatBlock_run (fuel : Nat) :
    poiss_reg_run Real.exp (1 / 1000000) 10000 fuel (flatBlock : ml_block ℝ)
      = some { a := Val.nan, b := Val.nan, da := Val.nan, db := Val.nan,
               f := Val.nan, g := Val.nan, iter := 1, bodies := 1 } := by
  unfold poiss_reg_run
  simp only [flatBlock_fg]
  show nr_loop Real.exp (1 / 1000000) (9999 + 1) fuel flatBlock (9999 + 1) _ = _
  have hgt : Val.gt (sqnorm (Val.fin (3:ℝ)) (Val.fin 3)) (Val.fin (1 / 1000000)) = true := by
    simp [sqnorm, Val.mul, Val.add, Val.gt]; norm_num
  have hbt : backtrack Real.exp (flatBlock : ml_block ℝ) (Val.fin 0) (Val.fin 0)
      (sqnorm (Val.fin 3) (Val.fin 3)) fuel
      { da := Val.nan, db := Val.nan, f := Val.nan, g := Val.nan }
      = some { da := Val.nan, db := Val.nan, f := Val.nan, g := Val.nan } := by
    cases fuel <;> simp [backtrack, sqnorm, Val.mul, Val.add, Val.gt]
  rw [nr_loop]
  simp only [hgt, if_true, nr_body, flatBlock_update, flatBlock_fg_nan, hbt]
  simp only [Nat.zero_lt_succ, if_true]
  apply nr_loop_stop
  simp [sqnorm, Val.mul, Val.add, Val.gt]

/-- The loop needs no more than `MAXITER` bodies: it gives no state only when a
backtracking loop did not stop within the fuel. -/
theorem nr_loop_none (exp : R → R) (TOLERANCE : R) (MAXITER fuel : Nat) (blk : ml_block R) :
    ∀ (rem : Nat) (s : NRState R), MAXITER ≤ s.iter + rem →
      nr_loop exp TOLERANCE MAXITER fuel blk rem s = none →
      ∃ (a b og : Val R) (st : BtState R), backtrack exp blk a b og fuel st = none := by
  intro rem
  induction rem with
  | zero =>
    intro s hrem h
    by_cases hc : Val.gt (sqnorm s.f s.g) (Val.fin TOLERANCE) = true
    · have hi : ¬ s.iter < MAXITER := by omega
      simp [nr_loop, hc, hi] at h
    · simp [nr_loop, hc] at h
  | succ k ih =>
    intro s hrem h
    by_cases hc : Val.gt (sqnorm s.f s.g) (Val.fin TOLERANCE) = true
    · by_cases hi : s.iter < MAXITER
      · simp only [nr_loop, if_pos hc, if_pos hi] at h
        cases hbody : nr_body exp fuel blk (sqnorm s.f s.g) { s with iter := s.iter + 1 } with
        | none =>
          simp only [nr_body] at hbody
          cases hbt : backtrack exp blk s.a s.b (sqnorm s.f s.g) fuel
              { da := (newton_update exp blk s.a s.b s.f s.g).1,
                db := (newton_update exp blk s.a s.b s.f s.g).2,
                f := (recompute_fg exp blk s.a s.b (newton_update exp blk s.a s.b s.f s.g).1
                  (newton_update exp blk s.a s.b s.f s.g).2).1,
                g := (recompute_fg exp blk s.a s.b (newton_update exp blk s.a s.b s.f s.g).1
                  (newton_update exp blk s.a s.b s.f s.g).2).2 } with
          | none => exact ⟨_, _, _, _, hbt⟩
          | some v => simp [hbt] at hbody
        | some u =>
          simp only [hbody] at h
          simp only [nr_body] at hbody
          cases hbt : backtrack exp blk s.a s.b (sqnorm s.f s.g) fuel
              { da := (newton_update exp blk s.a s.b s.f s.g).1,
                db := (newton_update exp blk s.a s.b s.f s.g).2,
                f := (recompute_fg exp blk s.a s.b (newton_update exp blk s.a s.b s.f s.g).1
                  (newton_update exp blk s.a s.b s.f s.g).2).1,
                g := (recompute_fg exp blk s.a s.b (newton_update exp blk s.a s.b s.f s.g).1
                  (newton_update exp blk s.a s.b s.f s.g).2).2 } with
          | none => exact ⟨_, _, _, _, hbt⟩
          | some v =>
            simp only [hbt, Option.some.injEq] at hbody
            subst hbody
            exact ih _ (by simp only; omega) h
      · simp [nr_loop, hc, hi] at h
    · simp [nr_loop, hc] at h

/-- `poiss_reg` returns a value unless a backtracking loop does not stop
within the fuel. -/
theorem poiss_reg_none (exp : R → R) (TOLERANCE : R) (MAXITER fuel : Nat) (blk : ml_block R)
    (h : poiss_reg exp TOLERANCE MAXITER fuel blk = none) :
    ∃ (a b og : Val R) (st : BtState R), backtrack exp blk a b og fuel st = none := by
  unfold poiss_reg at h
  by_cases h1 : blk.size < 1
  · simp [h1] at h
  · by_cases h3 : blk.size < 3
    · simp [h1, h3] at h
    · simp only [if_neg h1, if_neg h3] at h
      cases hr : poiss_reg_run exp TOLERANCE MAXITER fuel blk with
      | none => exact nr_loop_none exp TOLERANCE MAXITER fuel blk MAXITER _ (by simp) hr
      | some s =>
        rw [hr] at h
        by_cases hs : s.iter ≥ MAXITER <;> simp [hs] at h

/-- On a block of finite numbers the sum of lines 197-203 at finite `(a, b)` is
the number `returned_llik`. -/
theorem final_llik_finite (exp : R → R) (blk : ml_block R) (hfin : FiniteBlock blk)
    (hlg : ∀ i, i < blk.size → (blk.lgamma i).isFin = true) (a b : R) :
    final_llik exp blk (Val.fin a) (Val.fin b) = Val.fin (returned_llik exp blk a b) := by
  unfold final_llik returned_llik
  refine forLoop_inv
    (fun i (p : Val R) =>
      p = Val.fin (blockSum i (fun i =>
        exp (a + b * (blk.dist i).toR) + (blk.counts i).toR * (a + b * (blk.dist i).toR)
          - (blk.lgamma i).toR)))
    0 blk.size _ _ (Nat.zero_le _) ?_ ?_
  · simp [blockSum]
  · intro i p _ hi hp
    obtain ⟨_, hd, hk⟩ := hfin i hi
    rw [hp, Val.fin_of_isFin _ hk, Val.fin_of_isFin _ hd, Val.fin_of_isFin _ (hlg i hi)]
    simp only [blockSum_succ, Val.mul, Val.add, Val.sub, Val.exp, Val.toR]

end NewtonLoop

/-! ### Claims on `poiss_reg` -/

/-- C11. On the block of three observations with `k_i = w_i = 1`, distances
`0, 1, 2` and `lgamma_i = 0`, the Newton-Raphson loop stops at once at
`(a, b) = (0, 0)` with the gradient `(0, 0)`, and `poiss_reg` returns `3`, the sum
of `exp(a + b*d_i) + k_i*(a + b*d_i) - lgamma_i`; the log-likelihood of the model
`-w_i*exp(a + b*d_i) + k_i*(log w_i + a + b*d_i) - lgamma_i` sums to `-3` there. -/
theorem C11_returned_sum_differs (fuel : Nat) :
    poiss_reg_run Real.exp (1 / 1000000) 10000 fuel (unitBlock : ml_block ℝ)
      = some { a := Val.fin 0, b := Val.fin 0, da := Val.fin 0, db := Val.fin 0,
               f := Val.fin 0, g := Val.fin 0, iter := 0, bodies := 0 } ∧
    poiss_reg Real.exp (1 / 1000000) 10000 fuel (unitBlock : ml_block ℝ) = some (Val.fin 3) ∧
    returned_llik Real.exp (unitBlock : ml_block ℝ) 0 0 = 3 ∧
    model_llik Real.exp Real.log (unitBlock : ml_block ℝ) 0 0 = -3 :=
  ⟨unitBlock_run fuel, unitBlock_returns fuel, unitBlock_returned, unitBlock_model⟩

/-- C12 (as stated, refuted). On the block of three observations at the same
distance (`k_i = 1`, `w_i = 2`, `d_i = 1`), with `TOLERANCE = 1e-6` and
`MAXITER = 10000`, the loop is left after one body with `iter = 1`, `poiss_reg`
returns through the final sum, and the squared gradient at the returned `(a, b)`
is NaN, not a number at most `TOLERANCE`. -/
theorem C12_counterexample :
    ∃ t : NRState ℝ,
      poiss_reg_run Real.exp (1 / 1000000) 10000 0 (flatBlock : ml_block ℝ) = some t ∧
      t.iter < 10000 ∧
      poiss_reg Real.exp (1 / 1000000) 10000 0 (flatBlock : ml_block ℝ)
        = some (final_llik Real.exp flatBlock t.a t.b) ∧
      ¬ Val.le
          (sqnorm (recompute_fg Real.exp flatBlock t.a t.b (Val.fin 0) (Val.fin 0)).1
            (recompute_fg Real.exp flatBlock t.a t.b (Val.fin 0) (Val.fin 0)).2)
          (Val.fin (1 / 1000000)) := by
  refine ⟨_, flatBlock_run 0, by simp only; omega, ?_, ?_⟩
  · unfold poiss_reg
    rw [flatBlock_run]
    simp [flatBlock]
  · simp [recompute_fg, flatBlock, forLoop_zero_three, Val.add, Val.mul, Val.sub, Val.exp,
      sqnorm, Val.le]

section NewtonClaims

variable {R : Type} [LinearOrderedField R]

/-- C12 (amended). For every block of size at least 3 on which the loop of
`poiss_reg` is left in the state `t`: the body ran at most `MAXITER` times; if
`iter` has reached `MAXITER` the function returns NaN; otherwise it returns the
final sum at `(a, b)`, and the squared gradient `f*f + g*g` at the returned
`(a, b)` is not above `TOLERANCE`: it is NaN or at most `TOLERANCE`. -/
theorem C12_newton_loop_exit (exp : R → R) (TOLERANCE : R) (MAXITER fuel : Nat)
    (blk : ml_block R) (hsize : 3 ≤ blk.size) (t : NRState R)
    (h : poiss_reg_run exp TOLERANCE MAXITER fuel blk = some t) :
    t.bodies ≤ MAXITER ∧
    (MAXITER ≤ t.iter → poiss_reg exp TOLERANCE MAXITER fuel blk = some Val.nan) ∧
    (t.iter < MAXITER →
      poiss_reg exp TOLERANCE MAXITER fuel blk = some (final_llik exp blk t.a t.b) ∧
      Val.gt
        (sqnorm (recompute_fg exp blk t.a t.b (Val.fin 0) (Val.fin 0)).1
          (recompute_fg exp blk t.a t.b (Val.fin 0) (Val.fin 0)).2)
        (Val.fin TOLERANCE) = false ∧
      (sqnorm (recompute_fg exp blk t.a t.b (Val.fin 0) (Val.fin 0)).1
          (recompute_fg exp blk t.a t.b (Val.fin 0) (Val.fin 0)).2 = Val.nan ∨
        Val.le
          (sqnorm (recompute_fg exp blk t.a t.b (Val.fin 0) (Val.fin 0)).1
            (recompute_fg exp blk t.a t.b (Val.fin 0) (Val.fin 0)).2)
          (Val.fin TOLERANCE))) := by
  obtain ⟨hb, hfg, hex⟩ := poiss_reg_run_spec exp TOLERANCE MAXITER fuel blk t h
  have h1 : ¬ blk.size < 1 := by omega
  have h3 : ¬ blk.size < 3 := by omega
  refine ⟨hb, ?_, ?_⟩
  · intro hi
    unfold poiss_reg
    rw [if_neg h1, if_neg h3, h]
    simp [hi]
  · intro hi
    have hi' : ¬ t.iter ≥ MAXITER := by omega
    have hgt : Val.gt (sqnorm t.f t.g) (Val.fin TOLERANCE) = false := by
      rcases hex with ⟨_, hg⟩ | ⟨h', _⟩
      · exact hg
      · omega
    have hf : t.f = (recompute_fg exp blk t.a t.b (Val.fin 0) (Val.fin 0)).1 :=
      congrArg Prod.fst hfg
    have hg : t.g = (recompute_fg exp blk t.a t.b (Val.fin 0) (Val.fin 0)).2 :=
      congrArg Prod.snd hfg
    rw [hf, hg] at hgt
    refine ⟨?_, hgt, ?_⟩
    · unfold poiss_reg
      rw [if_neg h1, if_neg h3, h]
      simp [hi']
    · by_cases hn : sqnorm (recompute_fg exp blk t.a t.b (Val.fin 0) (Val.fin 0)).1
          (recompute_fg exp blk t.a t.b (Val.fin 0) (Val.fin 0)).2 = Val.nan
      · exact Or.inl hn
      · exact Or.inr ((Val.gt_false_iff_le hn (by simp)).1 hgt)

end NewtonClaims

/-- C12 (amended) on the block `unitBlock` over the reals, with
`TOLERANCE = 1e-6` and `MAXITER = 10000`: the loop is left at once. -/
theorem C12_newton_loop_exit_witness :
    3 ≤ (unitBlock : ml_block ℝ).size ∧
    poiss_reg_run Real.exp (1 / 1000000) 10000 0 (unitBlock : ml_block ℝ)
      = some { a := Val.fin 0, b := Val.fin 0, da := Val.fin 0, db := Val.fin 0,
               f := Val.fin 0, g := Val.fin 0, iter := 0, bodies := 0 } ∧
    (0 ≤ 10000 ∧
      (10000 ≤ 0 → poiss_reg Real.exp (1 / 1000000) 10000 0 (unitBlock : ml_block ℝ)
        = some Val.nan) ∧
      (0 < 10000 →
        poiss_reg Real.exp (1 / 1000000) 10000 0 (unitBlock : ml_block ℝ)
          = some (final_llik Real.exp unitBlock (Val.fin 0) (Val.fin 0)) ∧
        Val.gt
          (sqnorm
            (recompute_fg Real.exp (unitBlock : ml_block ℝ) (Val.fin 0) (Val.fin 0)
              (Val.fin 0) (Val.fin 0)).1
            (recompute_fg Real.exp (unitBlock : ml_block ℝ) (Val.fin 0) (Val.fin 0)
              (Val.fin 0) (Val.fin 0)).2)
          (Val.fin (1 / 1000000)) = false ∧
        (sqnorm
            (recompute_fg Real.exp (unitBlock : ml_block ℝ) (Val.fin 0) (Val.fin 0)
              (Val.fin 0) (Val.fin 0)).1
            (recompute_fg Real.exp (unitBlock : ml_block ℝ) (Val.fin 0) (Val.fin 0)
              (Val.fin 0) (Val.fin 0)).2 = Val.nan ∨
          Val.le
            (sqnorm
              (recompute_fg Real.exp (unitBlock : ml_block ℝ) (Val.fin 0) (Val.fin 0)
                (Val.fin 0) (Val.fin 0)).1
              (recompute_fg Real.exp (unitBlock : ml_block ℝ) (Val.fin 0) (Val.fin 0)
                (Val.fin 0) (Val.fin 0)).2)
            (Val.fin (1 / 1000000))))) :=
  ⟨by simp [unitBlock], unitBlock_run 0,
    C12_newton_loop_exit Real.exp (1 / 1000000) 10000 0 unitBlock (by simp [unitBlock]) _
      (unitBlock_run 0)⟩

/-! ## The marks of the pre-screen -/

section PrescreenMarks

variable {R : Type} [LinearOrderedField R]

/-- The mark that the pre-screen leaves in the cell `(r, c)`. -/
theorem prescreen_mark_val (speed : Int) (n : Nat) (DI : Nat → Val R) (cutoff : Val R)
    (skip : Nat → Int) (r c : Nat) (hr : r < n) (hc : c < n) :
    prescreen_mark speed n DI cutoff skip (r + c * n)
      = if r + 3 ≤ c then
          (if too_large speed n r c then 1
           else if (decide (r < 10 + 1) || decide ((r : Int) > (n : Int) - 10 - 2) ||
              Val.gt (DI (r - 1)) cutoff) &&
              (decide (c < 10 + 1) || decide ((c : Int) > (n : Int) - 10 - 2) ||
              Val.gt (DI c) cutoff) then 0 else 1)
        else skip (r + c * n) := by
  have e : prescreen_mark speed n DI cutoff skip
      = forLoop 0 (n - 3) (fun i s => forLoop (i + 3) n (fun j s => setAt s (i + j * n)
          (if too_large speed n i j then 1
           else if (decide (i < 10 + 1) || decide ((i : Int) > (n : Int) - 10 - 2) ||
              Val.gt (DI (i - 1)) cutoff) &&
              (decide (j < 10 + 1) || decide ((j : Int) > (n : Int) - 10 - 2) ||
              Val.gt (DI j) cutoff) then 0 else 1)) s) skip := by
    unfold prescreen_mark
    apply forLoop_congr
    intro i t _ _
    apply forLoop_congr
    intro j u _ _
    simp only
    split <;> rfl
  rw [e, forLoop_mark n _ skip r c hr hc]

theorem too_large_iff (speed : Int) (n i j : Nat) (hij : i ≤ j) :
    too_large speed n i j = true ↔
      (speed = 3 ∧ j - i > n / 2) ∨ (speed = 4 ∧ j - i > n / 4) ∨
        (speed = 5 ∧ j - i > n / 8) := by
  simp only [too_large, Bool.or_eq_true, Bool.and_eq_true, decide_eq_true_eq]
  constructor
  · rintro ((⟨h, h'⟩ | ⟨h, h'⟩) | ⟨h, h'⟩)
    · exact Or.inl ⟨h, by omega⟩
    · exact Or.inr (Or.inl ⟨h, by omega⟩)
    · exact Or.inr (Or.inr ⟨h, by omega⟩)
  · rintro (⟨h, h'⟩ | ⟨h, h'⟩ | ⟨h, h'⟩)
    · exact Or.inl (Or.inl ⟨h, by omega⟩)
    · exact Or.inl (Or.inr ⟨h, by omega⟩)
    · exact Or.inr ⟨h, by omega⟩

/-- C13. For a compacted size `n ≥ 21`, with the vector `DI` and the `cutoff`
of the pre-screen: for `speed` in `1 .. 5`, a cell `(i, j)` with `i + 3 ≤ j < n`
ends with `skip = 0` iff its span is not prohibited (not `speed = 3` and
`j - i > n/2`, not `speed = 4` and `j - i > n/4`, not `speed = 5` and
`j - i > n/8`) and both `i < 11 or i > n - 12 or DI[i-1] > cutoff` and
`j < 11 or j > n - 12 or DI[j] > cutoff` hold; with `speed = 0` the cells with
`skip = 0` are those with `i + 3 ≤ j`; a cell with `j - i < 3` is marked skipped
for every speed. -/
theorem C13_prescreen_marks (env : Numerics R) (n m : Nat) (obs : Nat → Nat → Val R)
    (hn : 21 ≤ n) :
    (∀ (speed : Int) (i j : Nat), 1 ≤ speed → speed ≤ 5 → i + 3 ≤ j → j < n →
      (skip_marks env speed n m obs (i + j * n) = 0 ↔
        (¬ (speed = 3 ∧ j - i > n / 2) ∧ ¬ (speed = 4 ∧ j - i > n / 4) ∧
          ¬ (speed = 5 ∧ j - i > n / 8)) ∧
        (i < 11 ∨ i > n - 12 ∨
          Val.gt ((env.prescreen_stats n m obs).1 (i - 1)) (env.prescreen_stats n m obs).2
            = true) ∧
        (j < 11 ∨ j > n - 12 ∨
          Val.gt ((env.prescreen_stats n m obs).1 j) (env.prescreen_stats n m obs).2
            = true))) ∧
    (∀ i j : Nat, i < n → j < n →
      (skip_marks env 0 n m obs (i + j * n) = 0 ↔ i + 3 ≤ j)) ∧
    (∀ (speed : Int) (i j : Nat), i < n → j < n → j < i + 3 →
      skip_marks env speed n m obs (i + j * n) ≠ 0) := by
  refine ⟨?_, ?_, ?_⟩
  · intro speed i j h1 _ hij hj
    have hs : speed > 0 := by omega
    unfold skip_marks
    rw [if_pos hs, prescreen_mark_val speed n _ _ _ i j (by omega) hj, if_pos hij]
    have htl := too_large_iff speed n i j (by omega)
    by_cases ht : too_large speed n i j = true
    · rw [if_pos ht]
      have := htl.1 ht
      constructor
      · intro h; exact absurd h (by decide)
      · rintro ⟨⟨h3, h4, h5⟩, _⟩
        rcases this with h | h | h
        · exact absurd h h3
        · exact absurd h h4
        · exact absurd h h5
    · rw [if_neg ht]
      have hnot : ¬ ((speed = 3 ∧ j - i > n / 2) ∨ (speed = 4 ∧ j - i > n / 4) ∨
          (speed = 5 ∧ j - i > n / 8)) := fun h => ht (htl.2 h)
      have hi : (decide (i < 10 + 1) || decide ((i : Int) > (n : Int) - 10 - 2) ||
          Val.gt ((env.prescreen_stats n m obs).1 (i - 1)) (env.prescreen_stats n m obs).2)
            = true ↔
          (i < 11 ∨ i > n - 12 ∨
            Val.gt ((env.prescreen_stats n m obs).1 (i - 1)) (env.prescreen_stats n m obs).2
              = true) := by
        simp only [Bool.or_eq_true, decide_eq_true_eq]
        constructor
        · rintro ((h | h) | h)
          · exact Or.inl (by omega)
          · exact Or.inr (Or.inl (by omega))
          · exact Or.inr (Or.inr h)
        · rintro (h | h | h)
          · exact Or.inl (Or.inl (by omega))
          · exact Or.inl (Or.inr (by omega))
          · exact Or.inr h
      have hjj : (decide (j < 10 + 1) || decide ((j : Int) > (n : Int) - 10 - 2) ||
          Val.gt ((env.prescreen_stats n m obs).1 j) (env.prescreen_stats n m obs).2)
            = true ↔
          (j < 11 ∨ j > n - 12 ∨
            Val.gt ((env.prescreen_stats n m obs).1 j) (env.prescreen_stats n m obs).2
              = true) := by
        simp only [Bool.or_eq_true, decide_eq_true_eq]
        constructor
        · rintro ((h | h) | h)
          · exact Or.inl (by omega)
          · exact Or.inr (Or.inl (by omega))
          · exact Or.inr (Or.inr h)
        · rintro (h | h | h)
          · exact Or.inl (Or.inl (by omega))
          · exact Or.inl (Or.inr (by omega))
          · exact Or.inr h
      constructor
      · intro h
        by_cases hb : ((decide (i < 10 + 1) || decide ((i : Int) > (n : Int) - 10 - 2) ||
          Val.gt ((env.prescreen_stats n m obs).1 (i - 1)) (env.prescreen_stats n m obs).2) &&
          (decide (j < 10 + 1) || decide ((j : Int) > (n : Int) - 10 - 2) ||
          Val.gt ((env.prescreen_stats n m obs).1 j) (env.prescreen_stats n m obs).2)) = true
        · rw [Bool.and_eq_true] at hb
          exact ⟨⟨fun h => hnot (Or.inl h), fun h => hnot (Or.inr (Or.inl h)),
            fun h => hnot (Or.inr (Or.inr h))⟩, hi.1 hb.1, hjj.1 hb.2⟩
        · rw [if_neg hb] at h
          exact absurd h (by decide)
      · rintro ⟨_, h1, h2⟩
        rw [if_pos (by rw [Bool.and_eq_true]; exact ⟨hi.2 h1, hjj.2 h2⟩)]
  · intro i j hi hj
    unfold skip_marks
    rw [if_neg (by decide), skip_init_eq n i j hi hj]
    by_cases h : i + 3 ≤ j
    · simp [h]
    · simp [h, memset_one]
  · intro speed i j hi hj hij
    rcases skip_marks_cases env speed n m obs i j hi hj with h | h
    · omega
    · rw [h.2]
      decide

end PrescreenMarks

/-- C13 at `n = 21` with one replicate of ones and the example statistics. -/
theorem C13_prescreen_marks_witness :
    21 ≤ 21 ∧
    ((∀ (speed : Int) (i j : Nat), 1 ≤ speed → speed ≤ 5 → i + 3 ≤ j → j < 21 →
      (skip_marks exampleEnv speed 21 1 (fun _ _ => Val.fin 1) (i + j * 21) = 0 ↔
        (¬ (speed = 3 ∧ j - i > 21 / 2) ∧ ¬ (speed = 4 ∧ j - i > 21 / 4) ∧
          ¬ (speed = 5 ∧ j - i > 21 / 8)) ∧
        (i < 11 ∨ i > 21 - 12 ∨
          Val.gt ((exampleEnv.prescreen_stats 21 1 (fun _ _ => Val.fin 1)).1 (i - 1))
            (exampleEnv.prescreen_stats 21 1 (fun _ _ => Val.fin 1)).2 = true) ∧
        (j < 11 ∨ j > 21 - 12 ∨
          Val.gt ((exampleEnv.prescreen_stats 21 1 (fun _ _ => Val.fin 1)).1 j)
            (exampleEnv.prescreen_stats 21 1 (fun _ _ => Val.fin 1)).2 = true))) ∧
    (∀ i j : Nat, i < 21 → j < 21 →
      (skip_marks exampleEnv 0 21 1 (fun _ _ => Val.fin 1) (i + j * 21) = 0 ↔ i + 3 ≤ j)) ∧
    (∀ (speed : Int) (i j : Nat), i < 21 → j < 21 → j < i + 3 →
      skip_marks exampleEnv speed 21 1 (fun _ _ => Val.fin 1) (i + j * 21) ≠ 0)) :=
  ⟨le_refl 21, C13_prescreen_marks exampleEnv 21 1 (fun _ _ => Val.fin 1) (le_refl 21)⟩

/-! ## The pre-screen at `n = 20` -/

section PrescreenTwenty

variable {R : Type} [LinearOrderedField R] [FloorRing R]

theorem truncInt_neg_half : truncInt (-(1 / 2) : R) = 0 := by
  have h : ¬ (0 : R) ≤ -(1 / 2) := by norm_num
  rw [truncInt, if_neg h, Int.ceil_eq_iff]
  norm_num

/-- With an empty array, `get_quantile` at the quantile `0.5` reads `copy[0]`. -/
theorem get_quantile_empty (array : Nat → Val R) :
    get_quantile array 0 (Val.fin (1 / 2))
      = Except.error (Fault.outOfBounds PArray.copy 0 0) := by
  have h0 : Val.lt (Val.fin (1 / 2 : R)) (Val.fin 0) = false := by
    simp [Val.lt, Val.gt]
  have h1 : Val.gt (Val.fin (1 / 2 : R)) (Val.fin 1) = false := by
    simp [Val.gt]
    norm_num
  have hm : Val.mul (Val.fin (((0 - 1 : Int) : R))) (Val.fin (1 / 2 : R))
      = Val.fin (-(1 / 2)) := by
    simp [Val.mul]
  simp only [get_quantile, h0, h1, hm, truncInt_neg_half, readAt, Bool.false_eq_true, if_false]
  simp

/-- C14. At the compacted size `n = 20` (with `length = 10`), for every
observation matrix and every number of replicates, the statistics of the
pre-screen stop on an access out of bounds: the arrays `DI` and `absdDI` are
left untouched by the loops, `absdDI` has `n - 2*length = 0` entries, and
`get_quantile(absdDI, 0, 0.5)` reads `copy[(int)(-0.5)] = copy[0]` in an array of
length 0. -/
theorem C14_quantile_out_of_bounds (sqrt : Val R → Val R) (obs : Nat → Nat → Val R)
    (m : Nat) :
    prescreen_stats_checked sqrt obs 20 m
      = Except.error (Fault.outOfBounds PArray.copy 0 0) := by
  have h1 : di_index sqrt obs 20 m = Except.ok (fun _ => Val.fin 0) := rfl
  have h2 : di_diff 20 (fun _ => (Val.fin 0 : Val R))
      = Except.ok (setAt (fun _ => Val.fin 0) 9 (Val.sub (Val.fin 0) (Val.fin 0))) := rfl
  have h3 : ∀ DI : Nat → Val R, abs_diff 20 DI = Except.ok (fun _ => Val.nan) :=
    fun _ => rfl
  have h4 : ((20 : Nat) : Int) - 2 * 10 = 0 := by norm_num
  unfold prescreen_stats_checked
  rw [h1]
  simp only [bind, Except.bind, h2, h3, h4, get_quantile_empty]

end PrescreenTwenty

section PrescreenTwentyMarks

variable {R : Type} [LinearOrderedField R]

/-- When every diagonal entry of every replicate is at least 1 (not below 1),
no index is removed: `n = N`. -/
theorem tadbit_n_full (obs : Nat → Nat → Val R) (N m : Nat)
    (hdiag : ∀ k i, k < m → i < N → Val.lt (obs k (i + i * N)) (Val.fin 1) = false) :
    tadbit_n obs N m = N := by
  unfold tadbit_n
  rw [compact_n_none]
  · rfl
  · intro i hi
    rcases remove_flags_spec obs N m i hi with ⟨_, k, hk, h⟩ | ⟨h, _⟩
    · rw [hdiag k i hk hi] at h
      exact absurd h (by decide)
    · exact h

/-- With `N = 20`, one replicate whose diagonal entries are at least 1 and
`speed = 5`: `n = 20`, every cell `(i, j)` with `i + 3 ≤ j < n` has
`j - i > n/8 = 2` and is marked skipped, and its entry of `L` stays NaN, whatever
the statistics of the pre-screen are. -/
theorem prescreen_twenty_marks (env : Numerics R) (obs : Nat → Nat → Val R)
    (hdiag : ∀ i, i < 20 → Val.lt (obs 0 (i + i * 20)) (Val.fin 1) = false)
    (n_threads : Int) (nprocs : Nat) (sched : List Nat) :
    tadbit_n obs 20 1 = 20 ∧
    ∀ i j, i + 3 ≤ j → j < 20 →
      j - i > 20 / 8 ∧
      (tadbit_arg env obs 20 1 5).skip (i + j * 20) = 1 ∧
      (tadbit_fill env obs 20 1 n_threads nprocs 5 sched).llikmat (i + j * 20) = Val.nan := by
  have hn : tadbit_n obs 20 1 = 20 :=
    tadbit_n_full obs 20 1 (fun k i hk hi => by
      have : k = 0 := by omega
      subst this
      exact hdiag i hi)
  refine ⟨hn, ?_⟩
  intro i j hij hj
  have hsk : (tadbit_arg env obs 20 1 5).skip (i + j * 20) = 1 := by
    have e : (tadbit_arg env obs 20 1 5).skip
        = skip_marks env 5 (tadbit_n obs 20 1) 1 (tadbit_arg env obs 20 1 5).obs := rfl
    rw [e, hn]
    unfold skip_marks
    rw [if_pos (by decide), prescreen_mark_val 5 20 _ _ _ i j (by omega) hj, if_pos hij]
    have ht : too_large 5 20 i j = true :=
      (too_large_iff 5 20 i j (by omega)).2 (Or.inr (Or.inr ⟨rfl, by omega⟩))
    rw [if_pos ht]
  refine ⟨by omega, hsk, ?_⟩
  obtain ⟨_, h2, _, _, _, h6, _, _, _, _, h11⟩ :=
    tadbit_fill_inv env obs 20 1 n_threads nprocs 5 sched
  have hnw : i + j * 20 ∉ (tadbit_fill env obs 20 1 n_threads nprocs 5 sched).written := by
    intro hw
    obtain ⟨_, _, b3⟩ := h2 _ (h6 _ hw)
    rw [hsk] at b3
    exact b3 (by decide)
  rw [h11 _ hnw]
  exact tadbit_llikmat0_eq _ _

end PrescreenTwentyMarks

/-! ## The expansion of the outputs -/

section RankLemmas

theorem rank_zero (remove : Nat → Int) : rank remove 0 = 0 := rfl

theorem rank_succ (remove : Nat → Int) (x : Nat) :
    rank remove (x + 1) = rank remove x + (if remove x = 0 then 1 else 0) := by
  unfold rank
  rw [List.range_succ, List.filter_append, List.length_append]
  by_cases h : remove x = 0 <;> simp [h]

theorem removedCount_succ (remove : Nat → Int) (x : Nat) :
    removedCount remove (x + 1) = removedCount remove x + (if remove x = 0 then 0 else 1) := by
  unfold removedCount
  rw [List.range_succ, List.filter_append, List.length_append]
  by_cases h : remove x = 0 <;> simp [h]

theorem rank_add_removedCount (remove : Nat → Int) (N : Nat) :
    rank remove N + removedCount remove N = N := by
  induction N with
  | zero => rfl
  | succ k ih =>
    rw [rank_succ, removedCount_succ]
    by_cases h : remove k = 0 <;> simp [h] <;> omega

theorem rank_mono (remove : Nat → Int) {x y : Nat} (h : x ≤ y) :
    rank remove x ≤ rank remove y := by
  induction y with
  | zero =>
    have : x = 0 := by omega
    subst this; exact le_refl _
  | succ k ih =>
    by_cases hx : x = k + 1
    · subst hx; exact le_refl _
    · have := ih (by omega)
      rw [rank_succ]
      omega

/-- Every rank below the number of kept indices is the rank of a kept index. -/
theorem rank_surj (remove : Nat → Int) (N : Nat) :
    ∀ r, r < rank remove N → ∃ i, i < N ∧ remove i = 0 ∧ rank remove i = r := by
  induction N with
  | zero => intro r hr; simp [rank_zero] at hr
  | succ k ih =>
    intro r hr
    rw [rank_succ] at hr
    by_cases hlt : r < rank remove k
    · obtain ⟨i, h1, h2, h3⟩ := ih r hlt
      exact ⟨i, by omega, h2, h3⟩
    · by_cases hk : remove k = 0
      · rw [if_pos hk] at hr
        exact ⟨k, by omega, hk, by omega⟩
      · rw [if_neg hk] at hr
        omega

/-- The compacted dimension counts the kept indices when the mask holds 0 and 1. -/
theorem compact_n_rank (N : Nat) (remove : Nat → Int)
    (h : ∀ i, i < N → remove i = 0 ∨ remove i = 1) :
    compact_n N remove = (rank remove N : Int) := by
  unfold compact_n
  have key := forLoop_inv
    (fun i (n : Int) => n = (N : Int) - (removedCount remove i : Int)) 0 N
    (fun i n => n - remove i) (N : Int) (Nat.zero_le _) (by simp [removedCount]) ?_
  · rw [key]
    have := rank_add_removedCount remove N
    omega
  · intro i n _ hi hn
    beta_reduce
    rw [hn, removedCount_succ]
    rcases h i hi with h0 | h1
    · rw [h0]; simp
    · rw [h1]; simp
      omega

end RankLemmas

section ResizeLemmas

variable {R : Type} [LinearOrderedField R]

/-- The compacted dimension of `tadbit` is the number of kept indices. -/
theorem tadbit_n_rank (obs : Nat → Nat → Val R) (N m : Nat) :
    tadbit_n obs N m = rank (remove_flags obs N m) N := by
  unfold tadbit_n
  rw [compact_n_rank]
  · simp
  · intro i hi
    rcases remove_flags_spec obs N m i hi with ⟨h, _⟩ | ⟨h, _⟩
    · exact Or.inr h
    · exact Or.inl h

end ResizeLemmas

section ResizeLoops

variable {α : Type}

/-- The loop `for (j = 0; j < mb; j++) a[i + j*N] = h(j)`. -/
theorem forLoop_rowTo (N mb i : Nat) (hi : i < N) (h : Nat → α) (a : Nat → α) (r c : Nat)
    (hr : r < N) :
    forLoop 0 mb (fun j l => setAt l (i + j * N) (h j)) a (r + c * N)
      = if r = i ∧ c < mb then h c else a (r + c * N) := by
  refine forLoop_inv (fun j (l : Nat → α) =>
    l (r + c * N) = if r = i ∧ c < j then h c else a (r + c * N)) 0 mb _ _
    (Nat.zero_le _) ?_ ?_
  · simp
  · intro j t _ _ ht
    by_cases hk : r + c * N = i + j * N
    · obtain ⟨h1, h2⟩ := idx_inj hr hi hk
      subst h1; subst h2
      rw [setAt_same]
      simp
    · rw [setAt_other _ _ _ _ hk, ht]
      by_cases h1 : r = i
      · subst h1
        have hcj : c ≠ j := fun e => hk (by rw [e])
        by_cases h2 : c < j
        · simp [h2, Nat.lt_succ_of_lt h2]
        · have : ¬ c < j + 1 := by omega
          simp [h2, this]
      · simp [h1]

/-- The expansion of the breakpoint table: the counter ends at the number of
kept indices, the row of a kept index `i` is the row `rank i` of the compacted
table, the row of a removed index is zero. -/
theorem resize_bkpts_spec (N n maxbreaks : Nat) (remove : Nat → Int) (bkpts : Nat → Int) :
    (resize_bkpts N n maxbreaks remove bkpts).1 = rank remove N ∧
    ∀ i j, i < N → j < maxbreaks →
      (resize_bkpts N n maxbreaks remove bkpts).2 (i + j * N)
        = if remove i = 0 then bkpts (rank remove i + j * n) else 0 := by
  unfold resize_bkpts
  have key := forLoop_inv
    (fun i' (p : Nat × (Nat → Int)) =>
      p.1 = rank remove i' ∧
      ∀ i j, i < N → j < maxbreaks →
        p.2 (i + j * N) = if i < i' ∧ remove i = 0 then bkpts (rank remove i + j * n) else 0)
    0 N
    (fun i (p : Nat × (Nat → Int)) =>
      if remove i = 0 then
        (p.1 + 1,
          forLoop 0 maxbreaks (fun j r => setAt r (i + j * N) (bkpts (p.1 + j * n))) p.2)
      else p)
    (0, forLoop 0 (N * maxbreaks) (fun q r => setAt r q 0) (fun _ => 0))
    (Nat.zero_le _) ?_ ?_
  · refine ⟨key.1, fun i j hi hj => ?_⟩
    rw [key.2 i j hi hj]
    simp [hi]
  · refine ⟨rfl, fun i j _ _ => ?_⟩
    show forLoop 0 (N * maxbreaks) (fun q r => setAt r q ((fun _ => (0 : Int)) q))
      (fun _ => 0) (i + j * N) = _
    rw [forLoop_fill]
    simp
  · intro i' p _ hi' hp
    obtain ⟨hp1, hp2⟩ := hp
    beta_reduce
    by_cases hrem : remove i' = 0
    · rw [if_pos hrem]
      refine ⟨by rw [rank_succ, if_pos hrem, hp1], fun i j hi hj => ?_⟩
      show forLoop 0 maxbreaks (fun j r => setAt r (i' + j * N) (bkpts (p.1 + j * n))) p.2
        (i + j * N) = _
      rw [forLoop_rowTo N maxbreaks i' hi' (fun j => bkpts (p.1 + j * n)) p.2 i j hi]
      by_cases hii : i = i'
      · subst hii
        simp [hj, hrem, hp1]
      · rw [if_neg (fun h => hii h.1), hp2 i j hi hj]
        by_cases hlt : i < i'
        · simp [hlt, Nat.lt_succ_of_lt hlt]
        · have : ¬ i < i' + 1 := by omega
          simp [hlt, this]
    · rw [if_neg hrem]
      refine ⟨by rw [rank_succ, if_neg hrem, hp1]; rfl, fun i j hi hj => ?_⟩
      rw [hp2 i j hi hj]
      by_cases hii : i = i'
      · subst hii
        simp [hrem]
      · by_cases hlt : i < i'
        · simp [hlt, Nat.lt_succ_of_lt hlt]
        · have : ¬ i < i' + 1 := by omega
          simp [hlt, this]

/-- The loop `for (i = 0; i < K; i++) a[l] = v` stores at the one index `l`. -/
theorem forLoop_const (K l : Nat) (v : α) (a : Nat → α) (q : Nat) :
    forLoop 0 K (fun _ r => setAt r l v) a q = if q = l ∧ 0 < K then v else a q := by
  refine forLoop_inv (fun i (r : Nat → α) => r q = if q = l ∧ 0 < i then v else a q) 0 K _ _
    (Nat.zero_le _) ?_ ?_
  · simp
  · intro i t _ _ ht
    by_cases hq : q = l
    · subst hq
      rw [setAt_same]
      simp
    · rw [setAt_other _ _ _ _ hq, ht]
      simp [hq]

end ResizeLoops

section ResizeRow

variable {R : Type}

/-- The inner loop of the expansion of the matrix, for the kept row `i` read
at the compacted row `l`. -/
theorem resize_llikmat_row (N n : Nat) (remove : Nat → Int) (llikmat : Nat → Val R)
    (i l : Nat) (hi : i < N) (a : Nat → Val R) (r c : Nat) (hr : r < N) (hc : c < N) :
    (forLoop 0 N
      (fun j (q : Nat × (Nat → Val R)) =>
        if remove j ≠ 0 then q
        else (q.1 + 1, setAt q.2 (i + j * N) (llikmat (l + q.1 * n))))
      (0, a)).2 (r + c * N)
      = if r = i ∧ remove c = 0 then llikmat (l + rank remove c * n) else a (r + c * N) := by
  have key := forLoop_inv
    (fun j' (q : Nat × (Nat → Val R)) =>
      q.1 = rank remove j' ∧
      q.2 (r + c * N) = if r = i ∧ c < j' ∧ remove c = 0 then llikmat (l + rank remove c * n)
        else a (r + c * N))
    0 N
    (fun j (q : Nat × (Nat → Val R)) =>
      if remove j ≠ 0 then q
      else (q.1 + 1, setAt q.2 (i + j * N) (llikmat (l + q.1 * n))))
    (0, a) (Nat.zero_le _) ?_ ?_
  · rw [key.2]
    simp [hc]
  · exact ⟨rfl, by simp⟩
  · intro j' q _ hj' hq
    obtain ⟨hq1, hq2⟩ := hq
    beta_reduce
    by_cases hrem : remove j' = 0
    · rw [if_neg (by simpa using hrem)]
      refine ⟨by rw [rank_succ, if_pos hrem, hq1], ?_⟩
      show setAt q.2 (i + j' * N) (llikmat (l + q.1 * n)) (r + c * N) = _
      by_cases hk : r + c * N = i + j' * N
      · obtain ⟨h1, h2⟩ := idx_inj hr hi hk
        subst h1; subst h2
        rw [setAt_same, hq1]
        simp [hrem]
      · rw [setAt_other _ _ _ _ hk, hq2]
        by_cases h1 : r = i
        · subst h1
          have hcj : c ≠ j' := fun e => hk (by rw [e])
          by_cases h2 : c < j'
          · simp [h2, Nat.lt_succ_of_lt h2]
          · have : ¬ c < j' + 1 := by omega
            simp [h2, this]
        · simp [h1]
    · rw [if_pos hrem]
      refine ⟨by rw [rank_succ, if_neg hrem, hq1]; rfl, ?_⟩
      rw [hq2]
      by_cases hcj : c = j'
      · subst hcj
        simp [hrem]
      · by_cases h2 : c < j'
        · simp [h2, Nat.lt_succ_of_lt h2]
        · have : ¬ c < j' + 1 := by omega
          simp [h2, this]

/-- The expansion of the matrix: a cell of two kept indices holds the compacted
entry at their ranks; every other cell holds what the buffer held when it was
allocated, except the one index `l0`, which holds NaN. -/
theorem resize_llikmat_spec (N n : Nat) (remove : Nat → Int) (llikmat : Nat → Val R)
    (l0 : Nat) (fresh : Nat → Val R) (r c : Nat) (hr : r < N) (hc : c < N) :
    resize_llikmat N n remove llikmat l0 fresh (r + c * N)
      = if remove r = 0 ∧ remove c = 0 then llikmat (rank remove r + rank remove c * n)
        else if r + c * N = l0 then Val.nan else fresh (r + c * N) := by
  unfold resize_llikmat
  have key := forLoop_inv
    (fun i' (p : Nat × (Nat → Val R)) =>
      p.1 = rank remove i' ∧
      p.2 (r + c * N) = if r < i' ∧ remove r = 0 ∧ remove c = 0
        then llikmat (rank remove r + rank remove c * n)
        else forLoop 0 (N * N) (fun _ a => setAt a l0 Val.nan) fresh (r + c * N))
    0 N
    (fun i (p : Nat × (Nat → Val R)) =>
      if remove i ≠ 0 then p
      else
        (p.1 + 1,
          (forLoop 0 N
            (fun j (q : Nat × (Nat → Val R)) =>
              if remove j ≠ 0 then q
              else (q.1 + 1, setAt q.2 (i + j * N) (llikmat (p.1 + q.1 * n))))
            (0, p.2)).2))
    (0, forLoop 0 (N * N) (fun _ a => setAt a l0 Val.nan) fresh)
    (Nat.zero_le _) ?_ ?_
  · rw [key.2, forLoop_const]
    have hpos : 0 < N * N := Nat.mul_pos (by omega) (by omega)
    simp [hr, hpos]
  · exact ⟨rfl, by simp⟩
  · intro i' p _ hi' hp
    obtain ⟨hp1, hp2⟩ := hp
    beta_reduce
    by_cases hrem : remove i' = 0
    · rw [if_neg (by simpa using hrem)]
      refine ⟨by rw [rank_succ, if_pos hrem, hp1], ?_⟩
      show (forLoop 0 N
            (fun j (q : Nat × (Nat → Val R)) =>
              if remove j ≠ 0 then q
              else (q.1 + 1, setAt q.2 (i' + j * N) (llikmat (p.1 + q.1 * n))))
            (0, p.2)).2 (r + c * N) = _
      rw [resize_llikmat_row N n remove llikmat i' p.1 hi' p.2 r c hr hc, hp2, hp1]
      by_cases hri : r = i'
      · subst hri
        by_cases hcc : remove c = 0
        · simp [hrem, hcc]
        · simp [hcc]
      · rw [if_neg (fun h => hri h.1)]
        by_cases hlt : r < i'
        · simp [hlt, Nat.lt_succ_of_lt hlt]
        · have : ¬ r < i' + 1 := by omega
          simp [hlt, this]
    · rw [if_pos hrem]
      refine ⟨by rw [rank_succ, if_neg hrem, hp1]; rfl, ?_⟩
      rw [hp2]
      by_cases hri : r = i'
      · subst hri
        simp [hrem]
      · by_cases hlt : r < i'
        · simp [hlt, Nat.lt_succ_of_lt hlt]
        · have : ¬ r < i' + 1 := by omega
          simp [hlt, this]

end ResizeRow

section ResizeMatrix

variable {R : Type} [LinearOrderedField R]

/-- The matrix that `tadbit` returns is the expansion of the filled matrix, with
the NaN stored at the index that the expansion of the breakpoints left in `l`:
the number of kept indices. -/
theorem tadbit_out_llikmat (env : Numerics R) (obs : Nat → Nat → Val R) (N m : Nat)
    (n_threads : Int) (nprocs : Nat) (speed : Int) (sched : List Nat) (fresh : Nat → Val R)
    (out : tadbit_output R)
    (h : tadbit env obs N m n_threads nprocs speed sched fresh = some out) :
    out.llikmat = resize_llikmat N (tadbit_n obs N m) (remove_flags obs N m)
      (tadbit_fill env obs N m n_threads nprocs speed sched).llikmat
      (rank (remove_flags obs N m) N) fresh := by
  unfold tadbit at h
  simp only at h
  by_cases hex : AllExited (tadbit_threads n_threads nprocs)
      (tadbit_fill env obs N m n_threads nprocs speed sched)
  · rw [if_pos hex] at h
    simp only [Option.some.injEq] at h
    rw [← h]
    simp only [(resize_bkpts_spec N _ _ _ _).1]
  · rw [if_neg hex] at h
    exact absurd h (by simp)

theorem removedObs_flags :
    remove_flags (removedObs : Nat → Nat → Val R) 2 1 0 = 1 ∧
      remove_flags (removedObs : Nat → Nat → Val R) 2 1 1 = 0 := by
  constructor
  · rcases remove_flags_spec (removedObs : Nat → Nat → Val R) 2 1 0 (by omega) with
      ⟨h, _⟩ | ⟨_, h⟩
    · exact h
    · have := h 0 (by omega)
      simp [removedObs, Val.lt, Val.gt] at this
  · rcases remove_flags_spec (removedObs : Nat → Nat → Val R) 2 1 1 (by omega) with
      ⟨_, k, _, h⟩ | ⟨h, _⟩
    · simp [removedObs, Val.lt, Val.gt] at h
    · exact h

/-- C15. With `N = 2`, one replicate with `obs[0,0] = 0` and the other entries
1 (the index 0 is removed, `n = 1`), and a new buffer that holds 7 everywhere:
`tadbit` returns a matrix whose cells `(0, 0)` and `(0, 1)`, in the removed row,
hold 7, not NaN; the NaN of lines 773-775 is stored at the one index `l = 1`. -/
theorem C15_removed_cells_not_nan (env : Numerics R) (n_threads : Int) (nprocs : Nat)
    (speed : Int) :
    ∃ sched out,
      tadbit env removedObs 2 1 n_threads nprocs speed sched (fun _ => Val.fin 7) = some out ∧
      remove_flags (removedObs : Nat → Nat → Val R) 2 1 0 = 1 ∧
      out.llikmat (0 + 0 * 2) = Val.fin 7 ∧
      out.llikmat (0 + 1 * 2) = Val.fin 7 ∧
      out.llikmat (1 + 0 * 2) = Val.nan := by
  obtain ⟨sched, out, h⟩ :=
    tadbit_returns env removedObs 2 1 n_threads nprocs speed (fun _ => Val.fin 7)
  obtain ⟨h0, h1⟩ := removedObs_flags (R := R)
  have hrank : rank (remove_flags (removedObs : Nat → Nat → Val R) 2 1) 2 = 1 := by
    rw [rank_succ, rank_succ, rank_zero, h0, h1]
    rfl
  refine ⟨sched, out, h, h0, ?_, ?_, ?_⟩
  · rw [tadbit_out_llikmat env _ _ _ _ _ _ _ _ out h,
      resize_llikmat_spec _ _ _ _ _ _ 0 0 (by omega) (by omega), hrank, h0]
    simp
  · rw [tadbit_out_llikmat env _ _ _ _ _ _ _ _ out h,
      resize_llikmat_spec _ _ _ _ _ _ 0 1 (by omega) (by omega), hrank, h0]
    simp
  · rw [tadbit_out_llikmat env _ _ _ _ _ _ _ _ out h,
      resize_llikmat_spec _ _ _ _ _ _ 1 0 (by omega) (by omega), hrank, h0]
    simp

/-- C16. For the removal mask of `tadbit` (the index `i` is removed iff a
replicate has `obs[i,i] < 1`; `n` is `N` minus the number of removed indices) and
every compacted table `bkpts`: the expanded table has a zero row at every
removed index; at every kept index `i` its row is the row `rank i` of the
compacted table; and every row of the compacted table is the row of a kept
index, so that deleting the removed rows gives the compacted table back. -/
theorem C16_bkpts_expansion (obs : Nat → Nat → Val R) (N m maxbreaks : Nat)
    (bkpts : Nat → Int) :
    (∀ i, i < N →
      (remove_flags obs N m i ≠ 0 ↔
        ∃ k, k < m ∧ Val.lt (obs k (i + i * N)) (Val.fin 1) = true)) ∧
    tadbit_n obs N m + removedCount (remove_flags obs N m) N = N ∧
    (∀ i j, i < N → j < maxbreaks → remove_flags obs N m i ≠ 0 →
      (resize_bkpts N (tadbit_n obs N m) maxbreaks (remove_flags obs N m) bkpts).2
        (i + j * N) = 0) ∧
    (∀ i j, i < N → j < maxbreaks → remove_flags obs N m i = 0 →
      (resize_bkpts N (tadbit_n obs N m) maxbreaks (remove_flags obs N m) bkpts).2
        (i + j * N)
        = bkpts (rank (remove_flags obs N m) i + j * tadbit_n obs N m)) ∧
    (∀ r, r < tadbit_n obs N m →
      ∃ i, i < N ∧ remove_flags obs N m i = 0 ∧ rank (remove_flags obs N m) i = r ∧
        ∀ j, j < maxbreaks →
          (resize_bkpts N (tadbit_n obs N m) maxbreaks (remove_flags obs N m) bkpts).2
            (i + j * N) = bkpts (r + j * tadbit_n obs N m)) := by
  have hspec := (resize_bkpts_spec N (tadbit_n obs N m) maxbreaks (remove_flags obs N m)
    bkpts).2
  refine ⟨?_, ?_, ?_, ?_, ?_⟩
  · intro i hi
    rcases remove_flags_spec obs N m i hi with ⟨h, hk⟩ | ⟨h, hk⟩
    · exact ⟨fun _ => hk, fun _ => by rw [h]; decide⟩
    · constructor
      · intro h'; exact absurd h h'
      · rintro ⟨k, hk1, hk2⟩
        rw [hk k hk1] at hk2
        exact absurd hk2 (by decide)
  · rw [tadbit_n_rank]
    exact rank_add_removedCount _ _
  · intro i j hi hj hrem
    rw [hspec i j hi hj, if_neg hrem]
  · intro i j hi hj hrem
    rw [hspec i j hi hj, if_pos hrem]
  · intro r hr
    rw [tadbit_n_rank] at hr
    obtain ⟨i, h1, h2, h3⟩ := rank_surj _ N r hr
    refine ⟨i, h1, h2, h3, fun j hj => ?_⟩
    rw [hspec i j h1 hj, if_pos h2, h3]

end ResizeMatrix

/-! ## The length of the segments -/

section SegmentLengths

theorem segmentsFrom_snoc (b last : Nat) :
    ∀ (s : Nat) (es : List Nat),
      segmentsFrom s (es ++ [b]) last = segmentsFrom s es b ++ [(b + 1, last)] := by
  intro s es
  induction es generalizing s with
  | nil => rfl
  | cons e es ih =>
    show (s, e) :: segmentsFrom (e + 1) (es ++ [b]) last = _
    rw [ih]
    rfl

variable {R : Type} [LinearOrderedRing R]

/-- Every segment of the traced-back break points of a value greater than `-∞`
holds at least three indices. -/
theorem dpSeg_min_len (L : Nat → Val R) (n : Nat) :
    ∀ nb j, (nb = 0 → 2 ≤ j) → (1 ≤ nb → 3 * nb + 2 ≤ j) →
      Val.gt (dpLlik L n nb j) Val.ninf = true →
      ∀ se ∈ segmentsFrom 0 (dpSeg L n nb j) j, se.1 + 2 ≤ se.2 := by
  intro nb
  induction nb with
  | zero =>
    intro j h0 _ _ se hse
    simp only [dpSeg, segmentsFrom, List.mem_singleton] at hse
    subst hse
    have := h0 rfl
    simpa using this
  | succ nb ih =>
    intro j _ _ hg se hse
    obtain ⟨i, hi1, hi2, hv, hseg, _⟩ := dp_succ_gt L n nb j hg
    have hprev : Val.gt (dpLlik L n nb (i - 1)) Val.ninf = true := by
      rw [hv] at hg
      exact (Val.gt_ninf_of_add hg).1
    rw [hseg, segmentsFrom_snoc, List.mem_append, List.mem_singleton] at hse
    rcases hse with hse | hse
    · exact ih (i - 1) (fun _ => by omega) (fun _ => by omega) hprev se hse
    · subst hse
      show i - 1 + 1 + 2 ≤ j
      omega

/-- C17. For every `n ≥ 4`, every matrix `L` (whatever it holds, also in the
cells with `j - i < 3`) and every `k` with `1 ≤ k < maxbreaks ≤ n/4` such that
`mllik[k] > -∞` when `mlwalk` returns: the column `k` of the break point table
flags exactly the indices of an increasing list `es`, and every segment of the
segmentation of `[0, n-1]` that `es` encodes holds at least three indices. -/
theorem C17_segments_at_least_three (L : Nat → Val R) (n m maxbreaks k : Nat)
    (mllik0 : Nat → Val R) (bk0 : Nat → Int) (hn : 4 ≤ n) (hmb : maxbreaks ≤ n / 4)
    (hk1 : 1 ≤ k) (hk : k < maxbreaks)
    (hgt : Val.gt ((mlwalk L n m maxbreaks mllik0 bk0).1 k) Val.ninf = true) :
    ∃ es : List Nat,
      es.Pairwise (· < ·) ∧ (∀ e ∈ es, e < n) ∧
      FlagsExactly (mlwalk L n m maxbreaks mllik0 bk0).2 n k es ∧
      ∀ se ∈ segmentsFrom 0 es (n - 1), se.1 + 2 ≤ se.2 := by
  have h4 : 4 * k + 4 ≤ n := by omega
  obtain ⟨e1, e2⟩ := mlwalk_out L n m maxbreaks mllik0 bk0 k hk1 hk (by omega)
  rw [e1] at hgt
  obtain ⟨_, s2, s3⟩ := dpSeg_struct L n k (n - 1) (fun _ => by omega) hgt
  refine ⟨dpSeg L n k (n - 1), s2, fun e he => by have := s3 e he; omega, ?_, ?_⟩
  · intro j hj
    rw [e2 hgt j hj]
    by_cases hm : j ∈ dpSeg L n k (n - 1) <;> simp [hm]
  · exact dpSeg_min_len L n k (n - 1) (fun h => by omega) (fun _ => by omega) hgt

end SegmentLengths

/-- C17 at `n = 8`, `maxbreaks = 2`, `k = 1` on the matrix `exampleL8`. -/
theorem C17_segments_at_least_three_witness :
    4 ≤ 8 ∧ 2 ≤ 8 / 4 ∧ 1 ≤ 1 ∧ 1 < 2 ∧
    Val.gt ((mlwalk exampleL8 8 1 2 (fun _ => Val.nan) (fun _ => 0)).1 1) Val.ninf = true ∧
    ∃ es : List Nat,
      es.Pairwise (· < ·) ∧ (∀ e ∈ es, e < 8) ∧
      FlagsExactly (mlwalk exampleL8 8 1 2 (fun _ => Val.nan) (fun _ => 0)).2 8 1 es ∧
      ∀ se ∈ segmentsFrom 0 es (8 - 1), se.1 + 2 ≤ se.2 :=
  ⟨by decide, by decide, by decide, by decide, by decide,
    C17_segments_at_least_three exampleL8 8 1 2 1 (fun _ => Val.nan) (fun _ => 0) (by decide)
      (by decide) (by decide) (by decide) (by decide)⟩

/-! ## The walk on a matrix that is linear in the span -/

section LinearWalk

variable {R : Type} [LinearOrderedRing R]

end LinearWalk

section SliceTargets

variable {R : Type}

theorem slice_target_lt (obs : Nat → Val R) (n start end_ : Nat) (speed : Int)
    (col row l : Nat) (h : slice_target obs n start end_ speed col row = some l) : l < 3 := by
  unfold slice_target at h
  split_ifs at h <;> simp at h <;> omega

end SliceTargets

section SliceCapacity

variable {R : Type} [LinearOrderedRing R]

theorem slice_cell_checked_eq (cap : Nat → Nat) (lg obs dist : Nat → Val R)
    (sqrt : Val R → Val R) (n start end_ : Nat) (speed : Int) (col row : Nat)
    (blocks : Nat → ml_block R) :
    slice_cell_checked cap lg obs dist sqrt n start end_ speed col row blocks =
      match slice_target obs n start end_ speed col row with
      | none => some blocks
      | some l => slice_store_checked cap lg obs dist sqrt n row col l blocks := by
  unfold slice_cell_checked slice_target
  split_ifs <;> rfl

/-- Folding the checked body of `slice` over cells of the slice: when every
block has room for the cells that the specification gives it, no store is out
of the arrays and the blocks are those of the unchecked body. -/
theorem slice_fold_checked (cap : Nat → Nat) (lg obs dist : Nat → Val R)
    (sqrt : Val R → Val R) (n start end_ : Nat) (speed : Int) (hse : start ≤ end_)
    (cs : List (Nat × Nat)) :
    ∀ (b0 : Nat → ml_block R), (∀ rc ∈ cs, rc.2 ≤ end_) →
      (∀ l, l < 3 → (b0 l).size + (cs.filter
        (fun rc => decide (retained obs n speed rc ∧ inBlock start end_ l rc))).length
          ≤ cap l) →
      cs.foldl (fun (b : Option (Nat → ml_block R)) rc =>
          b.bind (slice_cell_checked cap lg obs dist sqrt n start end_ speed rc.2 rc.1))
        (some b0)
        = some (cs.foldl
            (fun b rc => slice_cell lg obs dist sqrt n start end_ speed rc.2 rc.1 b) b0) := by
  induction cs with
  | nil => intro b0 _ _; rfl
  | cons c cs ih =>
    intro b0 hcs hcap
    have hc : c.2 ≤ end_ := hcs c (List.mem_cons_self _ _)
    have hcs' : ∀ rc ∈ cs, rc.2 ≤ end_ := fun rc h => hcs rc (List.mem_cons_of_mem _ h)
    rw [List.foldl_cons, List.foldl_cons, Option.some_bind, slice_cell_checked_eq]
    have hstep : ∀ l, ((slice_cell lg obs dist sqrt n start end_ speed c.2 c.1 b0) l).size
        = (b0 l).size + ([c].filter
            (fun rc => decide (retained obs n speed rc ∧ inBlock start end_ l rc))).length :=
      fun l => (slice_fold lg obs dist sqrt n start end_ speed hse [c] b0
        (fun rc h => by rw [List.mem_singleton] at h; rw [h]; exact hc) l).1
    have hcap' : ∀ l, l < 3 →
        ((slice_cell lg obs dist sqrt n start end_ speed c.2 c.1 b0) l).size
        + (cs.filter
          (fun rc => decide (retained obs n speed rc ∧ inBlock start end_ l rc))).length
        ≤ cap l := by
      intro l hl
      have h := hcap l hl
      have e : (c :: cs).filter
            (fun rc => decide (retained obs n speed rc ∧ inBlock start end_ l rc))
          = [c].filter (fun rc => decide (retained obs n speed rc ∧ inBlock start end_ l rc))
            ++ cs.filter
              (fun rc => decide (retained obs n speed rc ∧ inBlock start end_ l rc)) := by
        rw [← List.filter_append]
        rfl
      rw [e, List.length_append] at h
      rw [hstep l]
      omega
    cases ht : slice_target obs n start end_ speed c.2 c.1 with
    | none =>
      have e : slice_cell lg obs dist sqrt n start end_ speed c.2 c.1 b0 = b0 := by
        rw [slice_cell_eq, ht]
      rw [e] at hcap'
      simp only [e]
      exact ih b0 hcs' hcap'
    | some l0 =>
      have e : slice_cell lg obs dist sqrt n start end_ speed c.2 c.1 b0
          = slice_store lg obs dist sqrt n c.1 c.2 l0 b0 := by
        rw [slice_cell_eq, ht]
      have hroom : (b0 l0).size < cap l0 := by
        have h := hcap l0 (slice_target_lt obs n start end_ speed c.2 c.1 l0 ht)
        rw [filter_cons_block obs n start end_ speed hse l0 c cs hc, if_pos ht,
          List.length_cons] at h
        omega
      simp only [slice_store_checked, if_pos hroom, e]
      rw [e] at hcap'
      exact ih _ hcs' hcap'

/-- The sizes of the blocks are at most those of the slice without NaN and
without censoring. -/
theorem length_blockCells_le (obs : Nat → Val R) (n start end_ : Nat) (speed : Int)
    (hen : end_ < n) (cnt : Nat) (hcnt : start + cnt ≤ end_ + 1) :
    ((scanCells n start cnt).filter
      (fun rc => decide (retained obs n speed rc ∧ inBlock start end_ 0 rc))).length
        ≤ start * cnt ∧
    2 * ((scanCells n start cnt).filter
      (fun rc => decide (retained obs n speed rc ∧ inBlock start end_ 1 rc))).length
        ≤ cnt * (cnt - 1) ∧
    ((scanCells n start cnt).filter
      (fun rc => decide (retained obs n speed rc ∧ inBlock start end_ 2 rc))).length
        ≤ (n - 1 - end_) * cnt := by
  obtain ⟨c0, c1, c2⟩ := length_blockCells (fun _ => (Val.fin 0 : Val R)) n start end_ 0 hen
    (fun _ => by simp) (by decide) cnt hcnt
  have hret : ∀ rc, retained (fun _ => (Val.fin 0 : Val R)) n 0 rc :=
    fun rc => ⟨by simp, Or.inl (by decide)⟩
  have hsub : ∀ l, ((scanCells n start cnt).filter
      (fun rc => decide (retained obs n speed rc ∧ inBlock start end_ l rc))).length
      ≤ ((scanCells n start cnt).filter
        (fun rc => decide (retained (fun _ => (Val.fin 0 : Val R)) n 0 rc ∧
          inBlock start end_ l rc))).length := by
    intro l
    apply List.Sublist.length_le
    apply List.monotone_filter_right
    intro rc h
    simp only [decide_eq_true_eq] at h ⊢
    exact ⟨hret rc, h.2⟩
  refine ⟨?_, ?_, ?_⟩
  · rw [← c0]; exact hsub 0
  · rw [← c1]; have := hsub 1; omega
  · rw [← c2]; exact hsub 2

theorem nmax_bounds (n start end_ : Nat) (hse : start ≤ end_) (hen : end_ < n) :
    start * (end_ + 1 - start) ≤ nmax n 0 ∧
    (end_ + 1 - start) * (end_ + 1 - start - 1) ≤ 2 * nmax n 1 ∧
    (n - 1 - end_) * (end_ + 1 - start) ≤ nmax n 2 := by
  obtain ⟨w, hw⟩ : ∃ w, end_ + 1 = start + w := ⟨end_ + 1 - start, by omega⟩
  obtain ⟨t, ht⟩ : ∃ t, n = end_ + 1 + t := ⟨n - 1 - end_, by omega⟩
  have e1 : end_ + 1 - start = w := by omega
  have e2 : n - 1 - end_ = t := by omega
  have e3 : n + 1 = start + w + t + 1 := by omega
  rw [e1, e2]
  simp only [nmax, e3]
  refine ⟨?_, ?_, ?_⟩
  · rw [if_neg (by decide), Nat.le_div_iff_mul_le (by decide)]
    nlinarith [sq_nonneg ((start : Int) - w), Nat.zero_le (start * w), Nat.zero_le t,
      Nat.zero_le (start * t), Nat.zero_le (w * t)]
  · rw [if_pos trivial]
    have hdiv : (start + w + t + 1) * (start + w + t + 1)
        ≤ 2 * ((start + w + t + 1) * (start + w + t + 1) / 2) + 1 := by omega
    have hww : w * (w - 1) ≤ w * w := Nat.mul_le_mul_left _ (Nat.sub_le _ _)
    nlinarith [Nat.zero_le (start * w), Nat.zero_le t, Nat.zero_le (start * t),
      Nat.zero_le (w * t), Nat.zero_le (start * start), Nat.zero_le (t * t)]
  · rw [if_neg (by decide), Nat.le_div_iff_mul_le (by decide)]
    nlinarith [Nat.zero_le (start * w), Nat.zero_le t, Nat.zero_le (start * t),
      Nat.zero_le (w * t), Nat.zero_le (start * start), Nat.zero_le (t * t),
      Nat.zero_le (w * w), mul_self_nonneg ((w : Int) - t)]

/-- C20. For every `n`, every `start < end < n` (so `n ≥ 1`), every
observation matrix and every speed: the sizes of the top, middle and bottom
blocks that `slice` produces are at most the capacities `(n+1)^2/4`, `(n+1)^2/2`
and `(n+1)^2/4` allocated by `fill_llikmat`, and every position `pos` at which
`slice` stores is below the capacity of its block: the checked `slice` never
fails and gives the same blocks. -/
theorem C20_block_capacities (lg obs dist : Nat → Val R) (sqrt : Val R → Val R)
    (n start end_ : Nat) (speed : Int) (blocks : Nat → ml_block R)
    (hse : start < end_) (hen : end_ < n) :
    slice_checked (nmax n) lg obs dist sqrt n start end_ speed blocks
      = some (slice lg obs dist sqrt n start end_ speed blocks) ∧
    ∀ l, l < 3 → (slice lg obs dist sqrt n start end_ speed blocks l).size ≤ nmax n l := by
  have hle : start ≤ end_ := by omega
  have hcnt : end_ + 1 = start + (end_ + 1 - start) := by omega
  have hfold : slice lg obs dist sqrt n start end_ speed blocks
      = (scanCells n start (end_ + 1 - start)).foldl
          (fun b rc => slice_cell lg obs dist sqrt n start end_ speed rc.2 rc.1 b)
          (forLoop 0 3 (fun l b => setAt b l { b l with size := 0 }) blocks) := by
    have h := forLoop_scan n start
      (fun col row b => slice_cell lg obs dist sqrt n start end_ speed col row b)
      (end_ + 1 - start) (forLoop 0 3 (fun l b => setAt b l { b l with size := 0 }) blocks)
    rw [← hcnt] at h
    exact h
  have hfoldc : slice_checked (nmax n) lg obs dist sqrt n start end_ speed blocks
      = (scanCells n start (end_ + 1 - start)).foldl
          (fun (b : Option (Nat → ml_block R)) rc =>
            b.bind (slice_cell_checked (nmax n) lg obs dist sqrt n start end_ speed rc.2 rc.1))
          (some (forLoop 0 3 (fun l b => setAt b l { b l with size := 0 }) blocks)) := by
    have h := forLoop_scan n start
      (fun col row (b : Option (Nat → ml_block R)) =>
        b.bind (slice_cell_checked (nmax n) lg obs dist sqrt n start end_ speed col row))
      (end_ + 1 - start)
      (some (forLoop 0 3 (fun l b => setAt b l { b l with size := 0 }) blocks))
    rw [← hcnt] at h
    exact h
  have hcols : ∀ rc ∈ scanCells n start (end_ + 1 - start), rc.2 ≤ end_ := by
    intro rc h
    rw [mem_scanCells] at h
    omega
  have hsize0 : ∀ l, l < 3 →
      (forLoop 0 3 (fun l b => setAt b l { b l with size := 0 }) blocks l).size = 0 := by
    intro l hl
    rw [slice_reset, if_pos hl]
  obtain ⟨c0, c1, c2⟩ := length_blockCells_le obs n start end_ speed hen
    (end_ + 1 - start) (by omega)
  obtain ⟨b0, b1, b2⟩ := nmax_bounds n start end_ hle hen
  have hlen : ∀ l, l < 3 →
      ((scanCells n start (end_ + 1 - start)).filter
        (fun rc => decide (retained obs n speed rc ∧ inBlock start end_ l rc))).length
        ≤ nmax n l := by
    intro l hl
    have h3 : l = 0 ∨ l = 1 ∨ l = 2 := by omega
    rcases h3 with h | h | h <;> subst h <;> omega
  constructor
  · rw [hfoldc, hfold]
    refine slice_fold_checked (nmax n) lg obs dist sqrt n start end_ speed hle
      (scanCells n start (end_ + 1 - start))
      (forLoop 0 3 (fun l b => setAt b l { b l with size := 0 }) blocks) hcols ?_
    intro l hl
    rw [hsize0 l hl, Nat.zero_add]
    exact hlen l hl
  · intro l hl
    obtain ⟨f1, _⟩ := slice_fold lg obs dist sqrt n start end_ speed hle
      (scanCells n start (end_ + 1 - start))
      (forLoop 0 3 (fun l b => setAt b l { b l with size := 0 }) blocks) hcols l
    rw [hfold, f1, hsize0 l hl, Nat.zero_add]
    exact hlen l hl

end SliceCapacity

/-- C20 at `n = 4`, `start = 1`, `end = 2` on the example matrices. -/
theorem C20_block_capacities_witness :
    1 < 2 ∧ 2 < 4 ∧
    (slice_checked (nmax 4) exampleLg exampleObs exampleDist (fun v => v) 4 1 2 0
        (fun _ => zero_block)
      = some (slice exampleLg exampleObs exampleDist (fun v => v) 4 1 2 0
          (fun _ => zero_block)) ∧
    ∀ l, l < 3 →
      (slice exampleLg exampleObs exampleDist (fun v => v) 4 1 2 0
        (fun _ => zero_block) l).size ≤ nmax 4 l) :=
  ⟨by decide, by decide,
    C20_block_capacities exampleLg exampleObs exampleDist (fun v => v) 4 1 2 0
      (fun _ => zero_block) (by decide) (by decide)⟩

/-! ## The skip marks across the speed settings -/

section SpeedMonotone

variable {R : Type} [LinearOrderedField R]

/-- With the pre-screen active, a cell `(i, j)` with `i + 3 ≤ j < n` is unskipped
iff it is not too large for the speed and the two tests on `DI` pass; the tests
on `DI` do not depend on the speed. -/
theorem skip_marks_zero_iff (env : Numerics R) (speed : Int) (n m : Nat)
    (obs : Nat → Nat → Val R) (i j : Nat) (hs : speed > 0) (hij : i + 3 ≤ j) (hj : j < n) :
    skip_marks env speed n m obs (i + j * n) = 0 ↔
      too_large speed n i j = false ∧
      ((decide (i < 10 + 1) || decide ((i : Int) > (n : Int) - 10 - 2) ||
          Val.gt ((env.prescreen_stats n m obs).1 (i - 1)) (env.prescreen_stats n m obs).2) &&
        (decide (j < 10 + 1) || decide ((j : Int) > (n : Int) - 10 - 2) ||
          Val.gt ((env.prescreen_stats n m obs).1 j) (env.prescreen_stats n m obs).2))
        = true := by
  unfold skip_marks
  rw [if_pos hs, prescreen_mark_val speed n _ _ _ i j (by omega) hj, if_pos hij]
  by_cases ht : too_large speed n i j = true
  · rw [if_pos ht]
    constructor
    · intro h; exact absurd h (by decide)
    · rintro ⟨h, _⟩
      rw [ht] at h
      exact absurd h (by decide)
  · rw [if_neg ht]
    have ht' : too_large speed n i j = false := by simpa using ht
    split
    · rename_i hb
      exact ⟨fun _ => ⟨ht', hb⟩, fun _ => rfl⟩
    · rename_i hb
      constructor
      · intro h; exact absurd h (by decide)
      · rintro ⟨_, h⟩
        exact absurd h hb

/-- C21. For fixed compacted data (so for the same `DI` and `cutoff`), the set
of unskipped cells shrinks as the speed grows: a cell unskipped at speed 5 is
unskipped at speed 4, one unskipped at speed 4 is unskipped at speed 3, one
unskipped at speed 3 is unskipped at speed 2, the speeds 2 and 1 unskip the same
cells, and a cell unskipped at speed 1 is unskipped at speed 0; and for every
speed a cell that is marked skipped before the pre-screen runs is still marked
skipped after it. -/
theorem C21_skip_monotone (env : Numerics R) (n m : Nat) (obs : Nat → Nat → Val R) :
    (∀ i j, i < n → j < n →
      (skip_marks env 5 n m obs (i + j * n) = 0 → skip_marks env 4 n m obs (i + j * n) = 0) ∧
      (skip_marks env 4 n m obs (i + j * n) = 0 → skip_marks env 3 n m obs (i + j * n) = 0) ∧
      (skip_marks env 3 n m obs (i + j * n) = 0 → skip_marks env 2 n m obs (i + j * n) = 0) ∧
      (skip_marks env 2 n m obs (i + j * n) = 0 ↔ skip_marks env 1 n m obs (i + j * n) = 0) ∧
      (skip_marks env 1 n m obs (i + j * n) = 0 →
        skip_marks env 0 n m obs (i + j * n) = 0)) ∧
    (∀ (speed : Int) (i j : Nat), i < n → j < n → skip_init n (i + j * n) ≠ 0 →
      skip_marks env speed n m obs (i + j * n) ≠ 0) := by
  constructor
  · intro i j hi hj
    by_cases hij : i + 3 ≤ j
    · have z5 := skip_marks_zero_iff env 5 n m obs i j (by decide) hij hj
      have z4 := skip_marks_zero_iff env 4 n m obs i j (by decide) hij hj
      have z3 := skip_marks_zero_iff env 3 n m obs i j (by decide) hij hj
      have z2 := skip_marks_zero_iff env 2 n m obs i j (by decide) hij hj
      have z1 := skip_marks_zero_iff env 1 n m obs i j (by decide) hij hj
      have t5 := too_large_iff 5 n i j (by omega)
      have t4 := too_large_iff 4 n i j (by omega)
      have t3 := too_large_iff 3 n i j (by omega)
      have t2 : too_large 2 n i j = false := by
        cases h : too_large 2 n i j
        · rfl
        · have := (too_large_iff 2 n i j (by omega)).1 h
          omega
      have t1 : too_large 1 n i j = false := by
        cases h : too_large 1 n i j
        · rfl
        · have := (too_large_iff 1 n i j (by omega)).1 h
          omega
      have h54 : too_large 5 n i j = false → too_large 4 n i j = false := by
        intro h
        cases h' : too_large 4 n i j
        · rfl
        · have a := t4.1 h'
          have b : too_large 5 n i j = true := t5.2 (Or.inr (Or.inr ⟨rfl, by omega⟩))
          rw [h] at b
          exact absurd b (by decide)
      have h43 : too_large 4 n i j = false → too_large 3 n i j = false := by
        intro h
        cases h' : too_large 3 n i j
        · rfl
        · have a := t3.1 h'
          have b : too_large 4 n i j = true := t4.2 (Or.inr (Or.inl ⟨rfl, by omega⟩))
          rw [h] at b
          exact absurd b (by decide)
      refine ⟨?_, ?_, ?_, ?_, ?_⟩
      · intro h
        exact z4.2 ⟨h54 (z5.1 h).1, (z5.1 h).2⟩
      · intro h
        exact z3.2 ⟨h43 (z4.1 h).1, (z4.1 h).2⟩
      · intro h
        exact z2.2 ⟨t2, (z3.1 h).2⟩
      · exact ⟨fun h => z1.2 ⟨t1, (z2.1 h).2⟩, fun h => z2.2 ⟨t2, (z1.1 h).2⟩⟩
      · intro _
        exact skip_marks_speed_zero env n m obs i j hij hj
    · have hne : ∀ speed : Int, skip_marks env speed n m obs (i + j * n) ≠ 0 := by
        intro speed
        rcases skip_marks_cases env speed n m obs i j hi hj with h | h
        · exact absurd h.1 hij
        · rw [h.2]; decide
      exact ⟨fun h => absurd h (hne 5), fun h => absurd h (hne 4), fun h => absurd h (hne 3),
        ⟨fun h => absurd h (hne 2), fun h => absurd h (hne 1)⟩, fun h => absurd h (hne 1)⟩
  · intro speed i j hi hj h0
    rw [skip_init_eq n i j hi hj] at h0
    by_cases hij : i + 3 ≤ j
    · rw [if_pos hij] at h0
      exact absurd rfl h0
    · rcases skip_marks_cases env speed n m obs i j hi hj with h | h
      · exact absurd h.1 hij
      · rw [h.2]; decide

end SpeedMonotone

/-! ## The sign of the denominator of the Newton step -/

section DenomSign

variable {R : Type} [LinearOrderedField R]

theorem blockSum_eq_sum (n : Nat) (t : Nat → R) :
    blockSum n t = ∑ i in Finset.range n, t i := by
  induction n with
  | zero => simp [blockSum]
  | succ k ih => rw [blockSum_succ, Finset.sum_range_succ, ih]

/-- The identity of Lagrange for weighted sums: twice `A*C - B^2` is the sum of
`p_i p_j (x_i - x_j)^2` over all pairs. -/
theorem lagrange_identity (n : Nat) (p x : Nat → R) :
    ∑ i in Finset.range n, ∑ j in Finset.range n, p i * p j * (x i - x j) ^ 2
      = 2 * ((∑ i in Finset.range n, p i) * (∑ i in Finset.range n, p i * x i ^ 2)
          - (∑ i in Finset.range n, p i * x i) ^ 2) := by
  have e : ∀ i j, p i * p j * (x i - x j) ^ 2
      = (p i * x i ^ 2) * p j - 2 * ((p i * x i) * (p j * x j)) + p i * (p j * x j ^ 2) := by
    intro i j; ring
  simp only [e, Finset.sum_add_distrib, Finset.sum_sub_distrib, ← Finset.mul_sum,
    ← Finset.sum_mul]
  ring

/-- Cauchy-Schwarz for positive weights, with the case of equality. -/
theorem weighted_cauchy_schwarz (n : Nat) (p x : Nat → R) (hp : ∀ i, i < n → 0 < p i) :
    (∑ i in Finset.range n, p i * x i) ^ 2
        - (∑ i in Finset.range n, p i) * (∑ i in Finset.range n, p i * x i ^ 2) ≤ 0 ∧
    ((∑ i in Finset.range n, p i * x i) ^ 2
        - (∑ i in Finset.range n, p i) * (∑ i in Finset.range n, p i * x i ^ 2) = 0 ↔
      ∀ i j, i < n → j < n → x i = x j) := by
  have hL := lagrange_identity n p x
  have hterm : ∀ i ∈ Finset.range n, ∀ j ∈ Finset.range n,
      0 ≤ p i * p j * (x i - x j) ^ 2 := by
    intro i hi j hj
    have h1 := hp i (Finset.mem_range.mp hi)
    have h2 := hp j (Finset.mem_range.mp hj)
    positivity
  have hinner : ∀ i ∈ Finset.range n,
      0 ≤ ∑ j in Finset.range n, p i * p j * (x i - x j) ^ 2 :=
    fun i hi => Finset.sum_nonneg (hterm i hi)
  have hsum : 0 ≤ ∑ i in Finset.range n, ∑ j in Finset.range n,
      p i * p j * (x i - x j) ^ 2 := Finset.sum_nonneg hinner
  constructor
  · linarith
  · constructor
    · intro h0
      have hz : ∑ i in Finset.range n, ∑ j in Finset.range n,
          p i * p j * (x i - x j) ^ 2 = 0 := by linarith
      intro i j hi hj
      have h1 := (Finset.sum_eq_zero_iff_of_nonneg hinner).1 hz i (Finset.mem_range.mpr hi)
      have h2 := (Finset.sum_eq_zero_iff_of_nonneg (hterm i (Finset.mem_range.mpr hi))).1 h1 j
        (Finset.mem_range.mpr hj)
      have hpp : p i * p j ≠ 0 := ne_of_gt (mul_pos (hp i hi) (hp j hj))
      have h3 : (x i - x j) ^ 2 = 0 := by
        rcases mul_eq_zero.1 h2 with h | h
        · exact absurd h hpp
        · exact h
      have h4 : x i - x j = 0 := pow_eq_zero_iff (by decide) |>.1 h3
      linarith
    · intro hall
      have hz : ∑ i in Finset.range n, ∑ j in Finset.range n,
          p i * p j * (x i - x j) ^ 2 = 0 := by
        apply Finset.sum_eq_zero
        intro i hi
        apply Finset.sum_eq_zero
        intro j hj
        rw [hall i j (Finset.mem_range.mp hi) (Finset.mem_range.mp hj)]
        ring
      linarith

/-- On a block of finite numbers the variable `denom` is `H_ab^2 - H_aa*H_bb`. -/
theorem newton_denom_finite (exp : R → R) (blk : ml_block R) (hfin : FiniteBlock blk)
    (a b : R) :
    newton_denom exp blk (Val.fin a) (Val.fin b)
      = Val.fin (H_ab exp blk a b ^ 2 - H_aa exp blk a b * H_bb exp blk a b) := by
  simp only [newton_denom, derivs_finite exp blk hfin, Val.mul, Val.sub, pow_two]

/-- C24. In exact arithmetic with a positive `exp`, for every block of finite
numbers whose weights are positive and every `(a, b)`: the variable `denom` of
`poiss_reg` is `H_ab^2 - H_aa*H_bb`; it is at most 0; it is negative (so not
zero, and the divisions that give `da` and `db` are by a non-zero number) as soon
as two observations of the block have different distances; and it is 0 exactly
when all the distances of the block are equal. -/
theorem C24_denom_sign (exp : R → R) (hexp : ∀ x, 0 < exp x) (blk : ml_block R)
    (hfin : FiniteBlock blk) (hw : PositiveWeights blk) (a b : R) :
    newton_denom exp blk (Val.fin a) (Val.fin b)
      = Val.fin (H_ab exp blk a b ^ 2 - H_aa exp blk a b * H_bb exp blk a b) ∧
    H_ab exp blk a b ^ 2 - H_aa exp blk a b * H_bb exp blk a b ≤ 0 ∧
    ((∃ i j, i < blk.size ∧ j < blk.size ∧ (blk.dist i).toR ≠ (blk.dist j).toR) →
      H_ab exp blk a b ^ 2 - H_aa exp blk a b * H_bb exp blk a b < 0) ∧
    (H_ab exp blk a b ^ 2 - H_aa exp blk a b * H_bb exp blk a b = 0 ↔
      ∀ i j, i < blk.size → j < blk.size → (blk.dist i).toR = (blk.dist j).toR) := by
  have hp : ∀ i, i < blk.size →
      0 < (blk.weights i).toR * exp (a + b * (blk.dist i).toR) :=
    fun i hi => mul_pos (hw i hi) (hexp _)
  obtain ⟨c1, c2⟩ := weighted_cauchy_schwarz blk.size
    (fun i => (blk.weights i).toR * exp (a + b * (blk.dist i).toR))
    (fun i => (blk.dist i).toR) hp
  have e : H_ab exp blk a b ^ 2 - H_aa exp blk a b * H_bb exp blk a b
      = (∑ i in Finset.range blk.size,
            (blk.weights i).toR * exp (a + b * (blk.dist i).toR) * (blk.dist i).toR) ^ 2
        - (∑ i in Finset.range blk.size,
            (blk.weights i).toR * exp (a + b * (blk.dist i).toR))
          * (∑ i in Finset.range blk.size,
            (blk.weights i).toR * exp (a + b * (blk.dist i).toR) * (blk.dist i).toR ^ 2) := by
    simp only [H_aa, H_ab, H_bb, blockSum_eq_sum]
  refine ⟨newton_denom_finite exp blk hfin a b, ?_, ?_, ?_⟩
  · rw [e]; exact c1
  · rintro ⟨i, j, hi, hj, hne⟩
    rw [e]
    rcases lt_or_eq_of_le c1 with h | h
    · exact h
    · exact absurd (c2.1 h i j hi hj) hne
  · rw [e]; exact c2

end DenomSign

section SliceWeights

variable {R : Type} [LinearOrderedRing R]

/-- The weight that `slice` stores for a cell (line 307) is positive when the two
diagonal entries are numbers at least 1 and `sqrt` maps a positive number to a
positive number.  (A NaN diagonal entry is not below 1, so its index is kept
by the removal, and its weights are NaN.) -/
theorem slice_weight_positive (lg obs dist : Nat → Val R) (sqrt : Val R → Val R)
    (n row col l : Nat) (blocks : Nat → ml_block R) (x y : R)
    (hx : obs (row + row * n) = Val.fin x) (hy : obs (col + col * n) = Val.fin y)
    (h1 : 1 ≤ x) (h2 : 1 ≤ y)
    (hsqrt : ∀ z, 0 < z → ∃ s, sqrt (Val.fin z) = Val.fin s ∧ 0 < s) :
    0 < ((slice_store lg obs dist sqrt n row col l blocks l).weights (blocks l).size).toR := by
  have hxy : 0 < x * y := mul_pos (lt_of_lt_of_le one_pos h1) (lt_of_lt_of_le one_pos h2)
  obtain ⟨s, hs1, hs2⟩ := hsqrt (x * y) hxy
  simp [slice_store, setAt, hx, hy, Val.mul, hs1, Val.toR, hs2]

end SliceWeights

theorem unitBlock_positive : PositiveWeights (unitBlock : ml_block ℝ) := by
  intro i _
  simp [unitBlock, Val.toR]

/-- C24 on the block `unitBlock` over the reals with the exponential function,
at `(a, b) = (0, 0)`. -/
theorem C24_denom_sign_witness :
    (∀ x : ℝ, 0 < Real.exp x) ∧ FiniteBlock (unitBlock : ml_block ℝ) ∧
    PositiveWeights (unitBlock : ml_block ℝ) ∧
    (newton_denom Real.exp (unitBlock : ml_block ℝ) (Val.fin 0) (Val.fin 0)
      = Val.fin (H_ab Real.exp unitBlock 0 0 ^ 2
          - H_aa Real.exp unitBlock 0 0 * H_bb Real.exp unitBlock 0 0) ∧
    H_ab Real.exp (unitBlock : ml_block ℝ) 0 0 ^ 2
      - H_aa Real.exp unitBlock 0 0 * H_bb Real.exp unitBlock 0 0 ≤ 0 ∧
    ((∃ i j, i < (unitBlock : ml_block ℝ).size ∧ j < (unitBlock : ml_block ℝ).size ∧
        ((unitBlock : ml_block ℝ).dist i).toR ≠ ((unitBlock : ml_block ℝ).dist j).toR) →
      H_ab Real.exp (unitBlock : ml_block ℝ) 0 0 ^ 2
        - H_aa Real.exp unitBlock 0 0 * H_bb Real.exp unitBlock 0 0 < 0) ∧
    (H_ab Real.exp (unitBlock : ml_block ℝ) 0 0 ^ 2
        - H_aa Real.exp unitBlock 0 0 * H_bb Real.exp unitBlock 0 0 = 0 ↔
      ∀ i j, i < (unitBlock : ml_block ℝ).size → j < (unitBlock : ml_block ℝ).size →
        ((unitBlock : ml_block ℝ).dist i).toR = ((unitBlock : ml_block ℝ).dist j).toR)) :=
  ⟨Real.exp_pos, unitBlock_finite, unitBlock_positive,
    C24_denom_sign Real.exp Real.exp_pos unitBlock unitBlock_finite unitBlock_positive 0 0⟩

/-! ## The array accesses of `mlwalk` -/

section CheckedBasics

variable {α σ : Type}

theorem getAt_eq (len : Int) (a : Nat → α) (idx : Int) (h0 : 0 ≤ idx) (h1 : idx < len) :
    getAt len a idx = some (a idx.toNat) := by
  simp [getAt, h0, h1]

theorem putAt_eq (len : Int) (a : Nat → α) (idx : Int) (v : α) (h0 : 0 ≤ idx)
    (h1 : idx < len) :
    putAt len a idx v = some (setAt a idx.toNat v) := by
  simp [putAt, h0, h1]

/-- A checked loop whose body never fails on its range is the unchecked loop. -/
theorem forLoopO_eq (lo hi : Nat) (bodyO : Nat → σ → Option σ) (body : Nat → σ → σ) (s : σ)
    (h : ∀ i t, lo ≤ i → i < hi → bodyO i t = some (body i t)) :
    forLoopO lo hi bodyO s = some (forLoop lo hi body s) := by
  unfold forLoopO
  by_cases hle : lo ≤ hi
  · refine forLoop_inv (fun k (r : Option σ) => r = some (forLoop lo k body s)) lo hi _ _
      hle ?_ ?_
    · beta_reduce
      rw [forLoop_empty _ _ _ _ (le_refl _)]
    · intro k r hk1 hk2 hr
      beta_reduce
      rw [hr, Option.some_bind, h k _ hk1 hk2, forLoop_succ lo k body s hk1]
  · rw [forLoop_empty _ _ _ _ (by omega), forLoop_empty _ _ _ _ (by omega)]

theorem idx_lt_int {n r c : Nat} (hr : r < n) (hc : c < n) :
    (r : Int) + (c : Int) * (n : Int) < (n : Int) * (n : Int) := by
  have := idx_lt hr hc
  exact_mod_cast this

theorem idx_nonneg (r c n : Nat) : (0 : Int) ≤ (r : Int) + (c : Int) * (n : Int) := by
  positivity

end CheckedBasics

section CheckedInit

variable {R : Type}

theorem mlwalk_init_checked_eq (L : Nat → Val R) (n maxbreaks : Nat) (mllik : Nat → Val R)
    (breakpoints : Nat → Int) :
    mlwalk_init_checked L n maxbreaks mllik breakpoints
      = some (mlwalk_init L n maxbreaks mllik breakpoints) := by
  have hlists : forLoopO 0 (n * n)
      (fun i (p : (Nat → Int) × (Nat → Int)) =>
        (putAt ((n : Int) * (n : Int)) p.1 (i : Int) 0).bind fun a =>
        (putAt ((n : Int) * (n : Int)) p.2 (i : Int) 0).bind fun b => some (a, b))
      ((fun _ => 0), (fun _ => 0))
      = some (forLoop 0 (n * n)
          (fun i (p : (Nat → Int) × (Nat → Int)) => (setAt p.1 i 0, setAt p.2 i 0))
          ((fun _ => 0), (fun _ => 0))) := by
    apply forLoopO_eq
    intro i t _ hi
    have hi' : (i : Int) < (n : Int) * (n : Int) := by exact_mod_cast hi
    rw [putAt_eq _ _ _ _ (by omega) hi', Option.some_bind, putAt_eq _ _ _ _ (by omega) hi',
      Option.some_bind, Int.toNat_natCast]
  have hml : forLoopO 0 maxbreaks
      (fun i a => putAt (maxbreaks : Int) a (i : Int) Val.nan) mllik
      = some (forLoop 0 maxbreaks (fun i a => setAt a i Val.nan) mllik) := by
    apply forLoopO_eq
    intro i t _ hi
    rw [putAt_eq _ _ _ _ (by omega) (by omega), Int.toNat_natCast]
  have hll : forLoopO 0 n
      (fun i (p : (Nat → Val R) × (Nat → Val R)) =>
        (getAt ((n : Int) * (n : Int)) L ((i : Int) * (n : Int))).bind fun x =>
        (putAt (n : Int) p.1 (i : Int) x).bind fun a =>
        (putAt (n : Int) p.2 (i : Int) Val.ninf).bind fun b => some (a, b))
      ((fun _ => Val.nan), (fun _ => Val.nan))
      = some (forLoop 0 n
          (fun i (p : (Nat → Val R) × (Nat → Val R)) =>
            (setAt p.1 i (L (i * n)), setAt p.2 i Val.ninf))
          ((fun _ => Val.nan), (fun _ => Val.nan))) := by
    apply forLoopO_eq
    intro i t _ hi
    have hlt : (i : Int) * (n : Int) < (n : Int) * (n : Int) :=
      mul_lt_mul_of_pos_right (by omega) (by omega)
    have hge : (0 : Int) ≤ (i : Int) * (n : Int) := by positivity
    have et : ((i : Int) * (n : Int)).toNat = i * n := by
      rw [← Int.natCast_mul]
      exact Int.toNat_natCast _
    rw [getAt_eq _ _ _ hge hlt, Option.some_bind, putAt_eq _ _ _ _ (by omega) (by omega),
      Option.some_bind, putAt_eq _ _ _ _ (by omega) (by omega), Option.some_bind,
      Int.toNat_natCast, et]
  unfold mlwalk_init_checked mlwalk_init
  simp only [Option.bind_eq_bind, Option.pure_def, hlists, hml, hll, Option.some_bind]

end CheckedInit

section CheckedWalk

variable {R : Type} [LinearOrderedRing R]

theorem mlwalk_i_checked_eq (L : Nat → Val R) (n j : Nat) (ol : Nat → Val R) (i : Nat)
    (s : (Nat → Val R) × Int) (hi1 : 1 ≤ i) (hi : i < n) (hj : j < n) :
    mlwalk_i_checked L n j ol i s = some (mlwalk_i L n j ol i s) := by
  have e1 : ((i : Int) - 1).toNat = i - 1 := by omega
  have e2 : ((j : Int)).toNat = j := Int.toNat_natCast j
  unfold mlwalk_i_checked mlwalk_i
  rw [getAt_eq _ _ _ (by omega) (by omega),
    getAt_eq _ _ _ (idx_nonneg i j n) (idx_lt_int hi hj),
    getAt_eq _ _ _ (by omega) (by omega)]
  simp only [Option.bind_eq_bind, Option.some_bind, e1, e2, toNat_idx]
  split
  · rw [putAt_eq _ _ _ _ (by omega) (by omega)]
    simp only [Option.some_bind, e2]
    rfl
  · rfl

/-- The pair that the loop over `i` leaves is the best pair of the end point. -/
theorem mlwalk_i_best (L : Nat → Val R) (n nb j : Nat) (ol nl : Nat → Val R) :
    (forLoop (3 * nb) (j - 3) (mlwalk_i L n j ol) (setAt nl j Val.ninf, (-1 : Int))).1 j
        = (best L n nb ol j).1 ∧
    (forLoop (3 * nb) (j - 3) (mlwalk_i L n j ol) (setAt nl j Val.ninf, (-1 : Int))).2
        = (best L n nb ol j).2 := by
  rw [mlwalk_i_loop]
  simp only [setAt_same, best]
  exact ⟨trivial, trivial⟩

/-- When the best value of the end point `j` at level `nb ≥ 1` is greater than
`-∞`, `new_bkpt` lies in `[3*nb - 1, j - 5]`. -/
theorem best_bkpt_range (L : Nat → Val R) (n nb j : Nat) (ol : Nat → Val R)
    (hg : Val.gt (best L n nb ol j).1 Val.ninf = true) :
    3 * (nb : Int) - 1 ≤ (best L n nb ol j).2 ∧ (best L n nb ol j).2 ≤ (j : Int) - 5 := by
  rcases best_spec L n nb ol j with ⟨hb, _⟩ | ⟨i, hi1, hi2, hb, _, _⟩
  · rw [hb] at hg
    simp [Val.gt] at hg
  · rw [hb]
    simp only
    omega

theorem mlwalk_j_checked_eq (L : Nat → Val R) (n nb : Nat) (ol : Nat → Val R)
    (obl : Nat → Int) (j : Nat) (s : (Nat → Val R) × (Nat → Int)) (hnb : 1 ≤ nb)
    (hj1 : 3 * nb + 2 ≤ j) (hj : j < n) :
    mlwalk_j_checked L n nb ol obl j s = some (mlwalk_j L n nb ol obl j s) := by
  have e2 : ((j : Int)).toNat = j := Int.toNat_natCast j
  have hloop : forLoopO (3 * nb) (j - 3) (mlwalk_i_checked L n j ol)
      (setAt s.1 j Val.ninf, (-1 : Int))
      = some (forLoop (3 * nb) (j - 3) (mlwalk_i L n j ol) (setAt s.1 j Val.ninf, (-1 : Int))) :=
    forLoopO_eq _ _ _ _ _ (fun i t h1 h2 =>
      mlwalk_i_checked_eq L n j ol i t (by omega) (by omega) hj)
  obtain ⟨b1, b2⟩ := mlwalk_i_best L n nb j ol s.1
  unfold mlwalk_j_checked mlwalk_j
  rw [putAt_eq _ _ _ _ (by omega) (by omega)]
  simp only [Option.bind_eq_bind, Option.some_bind, e2, hloop]
  rw [getAt_eq _ _ _ (by omega) (by omega)]
  simp only [Option.some_bind, e2]
  by_cases hg : Val.gt
      ((forLoop (3 * nb) (j - 3) (mlwalk_i L n j ol) (setAt s.1 j Val.ninf, (-1 : Int))).1 j)
      Val.ninf = true
  · rw [if_pos hg, if_pos hg]
    have hr := best_bkpt_range L n nb j ol (by rw [← b1]; exact hg)
    rw [← b2] at hr
    have hcopy : forLoopO 0 n
        (fun i l => do
          let x ← getAt ((n : Int) * (n : Int)) obl
            ((forLoop (3 * nb) (j - 3) (mlwalk_i L n j ol)
              (setAt s.1 j Val.ninf, (-1 : Int))).2 + (i : Int) * (n : Int))
          putAt ((n : Int) * (n : Int)) l ((j : Int) + (i : Int) * (n : Int)) x)
        s.2
        = some (forLoop 0 n
            (fun i l => setAt l (j + i * n)
              (obl (Int.toNat ((forLoop (3 * nb) (j - 3) (mlwalk_i L n j ol)
                (setAt s.1 j Val.ninf, (-1 : Int))).2 + (i : Int) * (n : Int)))))
            s.2) := by
      apply forLoopO_eq
      intro i t _ hi
      have hlt : (forLoop (3 * nb) (j - 3) (mlwalk_i L n j ol)
          (setAt s.1 j Val.ninf, (-1 : Int))).2 + (i : Int) * (n : Int)
          < (n : Int) * (n : Int) := by
        have h1 : ((i : Int) + 1) * (n : Int) ≤ (n : Int) * (n : Int) :=
          mul_le_mul_of_nonneg_right (by omega) (by omega)
        have h2 : ((i : Int) + 1) * (n : Int) = (i : Int) * (n : Int) + (n : Int) := by ring
        omega
      have hge : 0 ≤ (forLoop (3 * nb) (j - 3) (mlwalk_i L n j ol)
          (setAt s.1 j Val.ninf, (-1 : Int))).2 + (i : Int) * (n : Int) := by
        have : (0 : Int) ≤ (i : Int) * (n : Int) := by positivity
        omega
      rw [getAt_eq _ _ _ hge hlt]
      simp only [Option.bind_eq_bind, Option.some_bind]
      rw [putAt_eq _ _ _ _ (idx_nonneg j i n) (idx_lt_int hj hi), toNat_idx]
    simp only [Option.bind_eq_bind] at hcopy
    rw [hcopy]
    simp only [Option.some_bind]
    have hlt2 : (j : Int) + (forLoop (3 * nb) (j - 3) (mlwalk_i L n j ol)
        (setAt s.1 j Val.ninf, (-1 : Int))).2 * (n : Int) < (n : Int) * (n : Int) := by
      have h1 : ((forLoop (3 * nb) (j - 3) (mlwalk_i L n j ol)
          (setAt s.1 j Val.ninf, (-1 : Int))).2 + 1) * (n : Int) ≤ (n : Int) * (n : Int) :=
        mul_le_mul_of_nonneg_right (by omega) (by omega)
      have h2 : ((forLoop (3 * nb) (j - 3) (mlwalk_i L n j ol)
          (setAt s.1 j Val.ninf, (-1 : Int))).2 + 1) * (n : Int)
          = (forLoop (3 * nb) (j - 3) (mlwalk_i L n j ol)
            (setAt s.1 j Val.ninf, (-1 : Int))).2 * (n : Int) + (n : Int) := by ring
      omega
    have hge2 : 0 ≤ (j : Int) + (forLoop (3 * nb) (j - 3) (mlwalk_i L n j ol)
        (setAt s.1 j Val.ninf, (-1 : Int))).2 * (n : Int) := by
      have : (0 : Int) ≤ (forLoop (3 * nb) (j - 3) (mlwalk_i L n j ol)
          (setAt s.1 j Val.ninf, (-1 : Int))).2 * (n : Int) :=
        mul_nonneg (by omega) (by omega)
      omega
    rw [putAt_eq _ _ _ _ hge2 hlt2]
    rfl
  · rw [if_neg hg, if_neg hg]
    rfl

theorem mlwalk_level_checked_eq (L : Nat → Val R) (n maxbreaks nb : Nat) (s : MlState R)
    (hn : 1 ≤ n) (hnb : 1 ≤ nb) (hmb : nb < maxbreaks) :
    mlwalk_level_checked L n maxbreaks nb s = some (mlwalk_level L n nb s) := by
  have hcopy : forLoopO 0 (n * n)
      (fun i o => (getAt ((n : Int) * (n : Int)) s.new_bkpt_list (i : Int)).bind
        fun x => putAt ((n : Int) * (n : Int)) o (i : Int) x)
      s.old_bkpt_list
      = some (forLoop 0 (n * n) (fun i o => setAt o i (s.new_bkpt_list i)) s.old_bkpt_list) := by
    apply forLoopO_eq
    intro i t _ hi
    have hi' : (i : Int) < (n : Int) * (n : Int) := by exact_mod_cast hi
    rw [getAt_eq _ _ _ (by omega) hi', Option.some_bind, putAt_eq _ _ _ _ (by omega) hi',
      Int.toNat_natCast]
  have hj : ∀ obl, forLoopO (3 * nb + 2) n (mlwalk_j_checked L n nb s.old_llik obl)
      (s.new_llik, s.new_bkpt_list)
      = some (forLoop (3 * nb + 2) n (mlwalk_j L n nb s.old_llik obl)
          (s.new_llik, s.new_bkpt_list)) :=
    fun obl => forLoopO_eq _ _ _ _ _ (fun j t h1 h2 =>
      mlwalk_j_checked_eq L n nb s.old_llik obl j t hnb h1 h2)
  have hrec : ∀ (r : (Nat → Val R) × (Nat → Int)), forLoopO 0 n
      (fun i (p : (Nat → Val R) × (Nat → Int)) =>
        (getAt (n : Int) r.1 (i : Int)).bind fun x =>
        (putAt (n : Int) p.1 (i : Int) x).bind fun ol =>
        (getAt ((n : Int) * (n : Int)) r.2 ((n : Int) - 1 + (i : Int) * (n : Int))).bind fun y =>
        (putAt ((n : Int) * (maxbreaks : Int)) p.2
          ((i : Int) + (nb : Int) * (n : Int)) y).bind fun bk => some (ol, bk))
      (s.old_llik, s.breakpoints)
      = some (forLoop 0 n
          (fun i (p : (Nat → Val R) × (Nat → Int)) =>
            (setAt p.1 i (r.1 i), setAt p.2 (i + nb * n) (r.2 (n - 1 + i * n))))
          (s.old_llik, s.breakpoints)) := by
    intro r
    apply forLoopO_eq
    intro i p _ hi
    have hlt : (n : Int) - 1 + (i : Int) * (n : Int) < (n : Int) * (n : Int) := by
      have := idx_lt_int (show n - 1 < n by omega) hi
      have e : ((n - 1 : Nat) : Int) = (n : Int) - 1 := by omega
      rw [e] at this
      exact this
    have hge : 0 ≤ (n : Int) - 1 + (i : Int) * (n : Int) := by
      have : (0 : Int) ≤ (i : Int) * (n : Int) := by positivity
      omega
    have et : ((n : Int) - 1 + (i : Int) * (n : Int)).toNat = n - 1 + i * n := by
      have e : (n : Int) - 1 = ((n - 1 : Nat) : Int) := by omega
      rw [e, toNat_idx]
    have hlt2 : (i : Int) + (nb : Int) * (n : Int) < (n : Int) * (maxbreaks : Int) := by
      have h1 : ((nb : Int) + 1) * (n : Int) ≤ (maxbreaks : Int) * (n : Int) :=
        mul_le_mul_of_nonneg_right (by omega) (by omega)
      have h2 : ((nb : Int) + 1) * (n : Int) = (nb : Int) * (n : Int) + (n : Int) := by ring
      have h3 : (maxbreaks : Int) * (n : Int) = (n : Int) * (maxbreaks : Int) := by ring
      omega
    rw [getAt_eq _ _ _ (by omega) (by omega), Option.some_bind,
      putAt_eq _ _ _ _ (by omega) (by omega), Option.some_bind,
      getAt_eq _ _ _ hge hlt, Option.some_bind,
      putAt_eq _ _ _ _ (idx_nonneg i nb n) hlt2, Option.some_bind,
      Int.toNat_natCast, et, toNat_idx]
  have en : ((n : Int) - 1).toNat = n - 1 := by omega
  unfold mlwalk_level_checked mlwalk_level
  simp only [Option.bind_eq_bind, Option.pure_def, hcopy, Option.some_bind, hj, hrec]
  rw [getAt_eq _ _ _ (by omega) (by omega), Option.some_bind,
    putAt_eq _ _ _ _ (by omega) (by omega), Option.some_bind, en, Int.toNat_natCast]

/-- With `n ≥ 1`, every array access of `mlwalk` is in bounds: the checked
function returns what `mlwalk` returns. -/
theorem mlwalk_checked_eq (L : Nat → Val R) (n m maxbreaks : Nat) (mllik : Nat → Val R)
    (breakpoints : Nat → Int) (hn : 1 ≤ n) :
    mlwalk_checked L n m maxbreaks mllik breakpoints
      = some (mlwalk L n m maxbreaks mllik breakpoints) := by
  have hloop : ∀ s0, forLoopO 1 maxbreaks (mlwalk_level_checked L n maxbreaks) s0
      = some (forLoop 1 maxbreaks (mlwalk_level L n) s0) :=
    fun s0 => forLoopO_eq _ _ _ _ _ (fun nb t h1 h2 =>
      mlwalk_level_checked_eq L n maxbreaks nb t hn h1 h2)
  unfold mlwalk_checked mlwalk mlwalk_run
  simp only [Option.bind_eq_bind, Option.pure_def, mlwalk_init_checked_eq, Option.some_bind,
    hloop]

/-- C22. For every `n ≥ 4`, every `maxbreaks ≤ n/4` and every matrix `L`: every
array access of `mlwalk` is in bounds (the checked function returns what `mlwalk`
returns); whenever the breakpoint list of the end point `j` is updated at a
level `nbreaks ≥ 1` (`new_llik[j] > -∞` after the loop over `i`), the chosen
`new_bkpt` lies in `[3*nbreaks - 1, j - 5]`, so it is not the initial `-1`; the
loop over `i` reads `old_llik[i-1]` with `i - 1 ≥ 2`; and for every level
`nbreaks < maxbreaks` the end point `n - 1` read for `mllik[nbreaks]` is in the
range `j ≥ 3*nbreaks + 2` recomputed at that level, so that `mllik[nbreaks]` is
the value of the recurrence at that level, not one left by a level before. -/
theorem C22_mlwalk_in_bounds (L : Nat → Val R) (n m maxbreaks : Nat)
    (mllik0 : Nat → Val R) (bk0 : Nat → Int) (hn : 4 ≤ n) (hmb : maxbreaks ≤ n / 4) :
    mlwalk_checked L n m maxbreaks mllik0 bk0 = some (mlwalk L n m maxbreaks mllik0 bk0) ∧
    (∀ (nb j : Nat) (ol nl : Nat → Val R), 1 ≤ nb →
      Val.gt ((forLoop (3 * nb) (j - 3) (mlwalk_i L n j ol)
        (setAt nl j Val.ninf, (-1 : Int))).1 j) Val.ninf = true →
      3 * (nb : Int) - 1 ≤ (forLoop (3 * nb) (j - 3) (mlwalk_i L n j ol)
        (setAt nl j Val.ninf, (-1 : Int))).2 ∧
      (forLoop (3 * nb) (j - 3) (mlwalk_i L n j ol)
        (setAt nl j Val.ninf, (-1 : Int))).2 ≤ (j : Int) - 5 ∧
      (forLoop (3 * nb) (j - 3) (mlwalk_i L n j ol)
        (setAt nl j Val.ninf, (-1 : Int))).2 ≠ -1) ∧
    (∀ nb i : Nat, 1 ≤ nb → 3 * nb ≤ i → (2 : Int) ≤ (i : Int) - 1) ∧
    (∀ nb, 1 ≤ nb → nb < maxbreaks →
      3 * nb + 2 ≤ n - 1 ∧
      (mlwalk L n m maxbreaks mllik0 bk0).1 nb = dpLlik L n nb (n - 1)) := by
  refine ⟨mlwalk_checked_eq L n m maxbreaks mllik0 bk0 (by omega), ?_, ?_, ?_⟩
  · intro nb j ol nl hnb hg
    obtain ⟨b1, b2⟩ := mlwalk_i_best L n nb j ol nl
    rw [b1] at hg
    have hr := best_bkpt_range L n nb j ol hg
    rw [b2]
    exact ⟨hr.1, hr.2, by omega⟩
  · intro nb i hnb hi
    omega
  · intro nb hnb hlt
    have h4 : 4 * nb + 4 ≤ n := by omega
    exact ⟨by omega, (mlwalk_out L n m maxbreaks mllik0 bk0 nb hnb hlt (by omega)).1⟩

end CheckedWalk

/-- C22 at `n = 8`, `maxbreaks = 2` on the matrix `exampleL8`. -/
theorem C22_mlwalk_in_bounds_witness :
    4 ≤ 8 ∧ 2 ≤ 8 / 4 ∧
    (mlwalk_checked exampleL8 8 1 2 (fun _ => Val.nan) (fun _ => 0)
      = some (mlwalk exampleL8 8 1 2 (fun _ => Val.nan) (fun _ => 0)) ∧
    (∀ (nb j : Nat) (ol nl : Nat → Val Int), 1 ≤ nb →
      Val.gt ((forLoop (3 * nb) (j - 3) (mlwalk_i exampleL8 8 j ol)
        (setAt nl j Val.ninf, (-1 : Int))).1 j) Val.ninf = true →
      3 * (nb : Int) - 1 ≤ (forLoop (3 * nb) (j - 3) (mlwalk_i exampleL8 8 j ol)
        (setAt nl j Val.ninf, (-1 : Int))).2 ∧
      (forLoop (3 * nb) (j - 3) (mlwalk_i exampleL8 8 j ol)
        (setAt nl j Val.ninf, (-1 : Int))).2 ≤ (j : Int) - 5 ∧
      (forLoop (3 * nb) (j - 3) (mlwalk_i exampleL8 8 j ol)
        (setAt nl j Val.ninf, (-1 : Int))).2 ≠ -1) ∧
    (∀ nb i : Nat, 1 ≤ nb → 3 * nb ≤ i → (2 : Int) ≤ (i : Int) - 1) ∧
    (∀ nb, 1 ≤ nb → nb < 2 →
      3 * nb + 2 ≤ 8 - 1 ∧
      (mlwalk exampleL8 8 1 2 (fun _ => Val.nan) (fun _ => 0)).1 nb
        = dpLlik exampleL8 8 nb (8 - 1))) :=
  ⟨by decide, by decide,
    C22_mlwalk_in_bounds exampleL8 8 1 2 (fun _ => Val.nan) (fun _ => 0) (by decide)
      (by decide)⟩

/-! ## The array accesses of the pre-screen -/

section ExceptLoops

variable {α σ : Type}

theorem readAt_ok (arr : PArray) (len : Int) (a : Nat → α) (idx : Int) (h0 : 0 ≤ idx)
    (h1 : idx < len) : readAt arr len a idx = Except.ok (a idx.toNat) := by
  simp [readAt, h0, h1]

theorem writeAt_ok (arr : PArray) (len : Int) (a : Nat → α) (idx : Int) (v : α) (h0 : 0 ≤ idx)
    (h1 : idx < len) : writeAt arr len a idx v = Except.ok (setAt a idx.toNat v) := by
  simp [writeAt, h0, h1]

/-- Invariant rule for a checked loop: when every body on the range returns and
keeps the invariant, the loop returns a state with the invariant. -/
theorem forLoopE_inv (P : Nat → σ → Prop) (lo hi : Nat) (body : Nat → σ → Except Fault σ)
    (s : σ) (hle : lo ≤ hi) (h0 : P lo s)
    (hs : ∀ i t, lo ≤ i → i < hi → P i t → ∃ t', body i t = Except.ok t' ∧ P (i + 1) t') :
    ∃ r, forLoopE lo hi body s = Except.ok r ∧ P hi r := by
  unfold forLoopE
  refine forLoop_inv (fun k (r : Except Fault σ) => ∃ t, r = Except.ok t ∧ P k t) lo hi _ _
    hle ⟨s, rfl, h0⟩ ?_
  intro k r hk1 hk2 hr
  obtain ⟨t, rfl, ht⟩ := hr
  obtain ⟨t', h1, h2⟩ := hs k t hk1 hk2 ht
  exact ⟨t', h1, h2⟩

/-- A checked loop whose bodies all return on the range returns. -/
theorem forLoopE_ok (lo hi : Nat) (body : Nat → σ → Except Fault σ) (s : σ)
    (hs : ∀ i t, lo ≤ i → i < hi → ∃ t', body i t = Except.ok t') :
    ∃ r, forLoopE lo hi body s = Except.ok r := by
  by_cases hle : lo ≤ hi
  · obtain ⟨r, h, _⟩ := forLoopE_inv (fun _ _ => True) lo hi body s hle trivial
      (fun i t h1 h2 _ => by
        obtain ⟨t', ht⟩ := hs i t h1 h2
        exact ⟨t', ht, trivial⟩)
    exact ⟨r, h⟩
  · exact ⟨s, by unfold forLoopE; rw [forLoop_empty _ _ _ _ (by omega)]⟩

/-- A cell `(r, c)` of an `n × n` array, with `int` coordinates. -/
theorem cell_in_bounds (n r c : Int) (hr0 : 0 ≤ r) (hr : r < n) (hc0 : 0 ≤ c) (hc : c < n) :
    0 ≤ r + c * n ∧ r + c * n < n * n := by
  have h1 : 0 ≤ c * n := mul_nonneg hc0 (by omega)
  have h2 : (c + 1) * n ≤ n * n := mul_le_mul_of_nonneg_right (by omega) (by omega)
  have h3 : (c + 1) * n = c * n + n := by ring
  constructor <;> omega

end ExceptLoops

section QuantileClamp

variable {R : Type} [LinearOrderedField R]

/-- The clamping of `get_quantile` leaves a number of `[0, 1]`, unless the
quantile is NaN. -/
theorem clamp_unit (q : Val R) (hq : q ≠ Val.nan) :
    ∃ x : R, 0 ≤ x ∧ x ≤ 1 ∧
      (if Val.gt (if Val.lt q (Val.fin 0) then Val.fin 0 else q) (Val.fin 1) then Val.fin 1
        else (if Val.lt q (Val.fin 0) then Val.fin 0 else q)) = Val.fin x := by
  cases q with
  | fin y =>
    by_cases h0 : y < 0
    · refine ⟨0, le_refl _, zero_le_one, ?_⟩
      simp [Val.lt, Val.gt, h0]
    · by_cases h1 : 1 < y
      · refine ⟨1, zero_le_one, le_refl _, ?_⟩
        simp [Val.lt, Val.gt, h0, h1]
      · refine ⟨y, not_lt.mp h0, not_lt.mp h1, ?_⟩
        simp [Val.lt, Val.gt, h0, h1]
  | pinf =>
    refine ⟨1, zero_le_one, le_refl _, ?_⟩
    simp [Val.lt, Val.gt]
  | ninf =>
    refine ⟨0, le_refl _, zero_le_one, ?_⟩
    simp [Val.lt, Val.gt]
  | nan => exact absurd rfl hq

end QuantileClamp

section QuantileBounds

variable {R : Type} [LinearOrderedField R] [FloorRing R]

theorem truncInt_range (n : Int) (x : R) (hn : 1 ≤ n) (h0 : 0 ≤ x) (h1 : x ≤ 1) :
    0 ≤ truncInt ((((n - 1 : Int)) : R) * x) ∧ truncInt ((((n - 1 : Int)) : R) * x) ≤ n - 1 := by
  have hn1 : (0 : R) ≤ ((n - 1 : Int) : R) := by exact_mod_cast (by omega : (0 : Int) ≤ n - 1)
  have hp : 0 ≤ ((n - 1 : Int) : R) * x := mul_nonneg hn1 h0
  have hle : ((n - 1 : Int) : R) * x ≤ ((n - 1 : Int) : R) := by
    calc ((n - 1 : Int) : R) * x ≤ ((n - 1 : Int) : R) * 1 := mul_le_mul_of_nonneg_left h1 hn1
      _ = ((n - 1 : Int) : R) := mul_one _
  rw [truncInt, if_pos hp]
  constructor
  · exact Int.floor_nonneg.mpr hp
  · have := Int.floor_le_floor hle
    rw [Int.floor_intCast] at this
    exact this

/-- For an array of `n ≥ 1` entries and a quantile that is not NaN,
`get_quantile` reads `copy` at a position of `[0, n-1]`. -/
theorem get_quantile_ok (array : Nat → Val R) (n : Int) (q : Val R) (hn : 1 ≤ n)
    (hq : q ≠ Val.nan) :
    ∃ k : Int, 0 ≤ k ∧ k ≤ n - 1 ∧
      get_quantile array n q
        = Except.ok ((sorted_copy array n).getD k.toNat Val.nan) := by
  obtain ⟨x, h0, h1, hx⟩ := clamp_unit q hq
  obtain ⟨t0, t1⟩ := truncInt_range n x hn h0 h1
  refine ⟨truncInt ((((n - 1 : Int)) : R) * x), t0, t1, ?_⟩
  unfold get_quantile
  simp only [hx, Val.mul]
  rw [readAt_ok _ _ _ _ t0 (by omega)]

end QuantileBounds

section StatsBounds

variable {R : Type} [LinearOrderedField R]

/-- The statements of lines 657-660 read `obs` and `DI` in bounds when
`length ≤ i < n - length` and `1 ≤ j ≤ length`. -/
theorem di_step_ok (sqrt : Val R → Val R) (obs_k : Nat → Val R) (n i j : Nat)
    (DI : Nat → Val R) (hi1 : 10 ≤ i) (hi2 : i < n - 10) (hj1 : 1 ≤ j) (hj2 : j < 10 + 1) :
    ∃ DI', di_step sqrt obs_k n i j DI = Except.ok DI' := by
  have c1 := cell_in_bounds (n : Int) (i : Int) (i : Int) (by omega) (by omega) (by omega)
    (by omega)
  have c2 := cell_in_bounds (n : Int) ((i : Int) - j) ((i : Int) - j) (by omega) (by omega)
    (by omega) (by omega)
  have c3 := cell_in_bounds (n : Int) ((i : Int) - j) (i : Int) (by omega) (by omega)
    (by omega) (by omega)
  have c5 := cell_in_bounds (n : Int) ((i : Int) + j) ((i : Int) + j) (by omega) (by omega)
    (by omega) (by omega)
  have c6 := cell_in_bounds (n : Int) (i : Int) ((i : Int) + j) (by omega) (by omega)
    (by omega) (by omega)
  have cD : (0 : Int) ≤ (i : Int) ∧ (i : Int) < (n : Int) := by omega
  unfold di_step
  simp only [readAt, writeAt, if_pos c1, if_pos c2, if_pos c3, if_pos c5, if_pos c6, if_pos cD,
    bind, Except.bind]
  exact ⟨_, rfl⟩

/-- The loops of lines 653-663 read `obs` and `DI` in bounds. -/
theorem di_index_ok (sqrt : Val R → Val R) (obs : Nat → Nat → Val R) (n m : Nat) :
    ∃ DI, di_index sqrt obs n m = Except.ok DI := by
  unfold di_index
  apply forLoopE_ok
  intro i DI hi1 hi2
  have cD : (0 : Int) ≤ (i : Int) ∧ (i : Int) < (n : Int) := by omega
  simp only [writeAt, if_pos cD, bind, Except.bind]
  apply forLoopE_ok
  intro k DI1 _ _
  apply forLoopE_ok
  intro j DI2 hj1 hj2
  exact di_step_ok sqrt (obs k) n i j DI2 hi1 hi2 hj1 hj2

/-- The differentiation of lines 665-669 is in bounds when `n ≥ 21`. -/
theorem di_diff_ok (n : Nat) (DI : Nat → Val R) (hn : 21 ≤ n) :
    ∃ DI', di_diff n DI = Except.ok DI' := by
  have c10 : (0 : Int) ≤ 10 ∧ (10 : Int) < (n : Int) := by omega
  have cl : (0 : Int) ≤ (n : Int) - 10 - 1 ∧ (n : Int) - 10 - 1 < (n : Int) := by omega
  obtain ⟨DI1, h1⟩ := forLoopE_ok 10 (n - 10 - 1)
    (fun i (DI : Nat → Val R) => do
      let x ← readAt PArray.DI n DI ((i : Int) + 1)
      let y ← readAt PArray.DI n DI i
      writeAt PArray.DI n DI i (Val.sub x y)) DI
    (fun i t hi1 hi2 => by
      have a1 : (0 : Int) ≤ (i : Int) + 1 ∧ (i : Int) + 1 < (n : Int) := by omega
      have a2 : (0 : Int) ≤ (i : Int) ∧ (i : Int) < (n : Int) := by omega
      simp only [readAt, writeAt, if_pos a1, if_pos a2, bind, Except.bind]
      exact ⟨_, rfl⟩)
  unfold di_diff
  simp only [readAt, writeAt, if_pos c10, bind, Except.bind] at h1 ⊢
  rw [h1]
  simp only [if_pos cl]
  exact ⟨_, rfl⟩

/-- The loop of lines 672-674 reads `DI` and stores into `absdDI` in bounds. -/
theorem abs_diff_ok (n : Nat) (DI : Nat → Val R) :
    ∃ a, abs_diff n DI = Except.ok a := by
  unfold abs_diff
  apply forLoopE_ok
  intro i t hi1 hi2
  have a1 : (0 : Int) ≤ (i : Int) ∧ (i : Int) < (n : Int) := by omega
  have a2 : (0 : Int) ≤ (i : Int) - 10 ∧ (i : Int) - 10 < (n : Int) - 2 * 10 := by omega
  simp only [readAt, writeAt, if_pos a1, if_pos a2, bind, Except.bind]
  exact ⟨_, rfl⟩

end StatsBounds

section StatsOk

variable {R : Type} [LinearOrderedField R] [FloorRing R]

/-- For `n ≥ 21` the statistics of the pre-screen are computed with every array
access in bounds. -/
theorem prescreen_stats_ok (sqrt : Val R → Val R) (obs : Nat → Nat → Val R) (n m : Nat)
    (hn : 21 ≤ n) :
    ∃ DI cutoff, prescreen_stats_checked sqrt obs n m = Except.ok (DI, cutoff) := by
  obtain ⟨DI0, h0⟩ := di_index_ok sqrt obs n m
  obtain ⟨DI, h1⟩ := di_diff_ok n DI0 hn
  obtain ⟨a, h2⟩ := abs_diff_ok n DI
  obtain ⟨k1, _, _, h3⟩ := get_quantile_ok a ((n : Int) - 2 * 10) (Val.fin (1 / 2 : R))
    (by omega) (by simp)
  have hq : Val.div (Val.fin (200 : R)) (Val.fin (n : R)) ≠ Val.nan := by
    have hn0 : (n : R) ≠ 0 := by
      have : (0 : R) < (n : R) := by exact_mod_cast (by omega : 0 < n)
      exact ne_of_gt this
    simp [Val.div, hn0]
  obtain ⟨k2, _, _, h4⟩ := get_quantile_ok DI (n : Int)
    (Val.div (Val.fin (200 : R)) (Val.fin (n : R))) (by omega) hq
  unfold prescreen_stats_checked
  simp only [h0, h1, h2, h3, h4, bind, Except.bind, pure, Except.pure]
  exact ⟨_, _, rfl⟩

end StatsOk

section MarksOk

variable {R : Type} [LinearOrderedField R]

/-- The reads of `DI` recorded so far are reads at `v - 1` or `v` for a loop
variable `v` with `11 ≤ v ≤ n - 12`. -/
theorem edge_or_peak_ok (n : Nat) (DI : Nat → Val R) (cutoff : Val R) (v : Nat) (idx : Int)
    (reads : List (Nat × Int)) (hidx : idx = (v : Int) ∨ idx = (v : Int) - 1)
    (hreads : ∀ e ∈ reads, 11 ≤ e.1 ∧ (e.1 : Int) ≤ (n : Int) - 12 ∧
      (e.2 = (e.1 : Int) ∨ e.2 = (e.1 : Int) - 1)) :
    ∃ reads', edge_or_peak n DI cutoff v idx reads
        = Except.ok (decide (v < 10 + 1) || decide ((v : Int) > (n : Int) - 10 - 2) ||
            Val.gt (DI idx.toNat) cutoff, reads') ∧
      ∀ e ∈ reads', 11 ≤ e.1 ∧ (e.1 : Int) ≤ (n : Int) - 12 ∧
        (e.2 = (e.1 : Int) ∨ e.2 = (e.1 : Int) - 1) := by
  unfold edge_or_peak
  by_cases h1 : v < 10 + 1
  · rw [if_pos h1]
    exact ⟨reads, by simp [h1], hreads⟩
  · rw [if_neg h1]
    by_cases h2 : (v : Int) > (n : Int) - 10 - 2
    · rw [if_pos h2]
      exact ⟨reads, by simp [h2], hreads⟩
    · rw [if_neg h2]
      have c : 0 ≤ idx ∧ idx < (n : Int) := by omega
      simp only [readAt, if_pos c, bind, Except.bind]
      refine ⟨(v, idx) :: reads, by simp [h1, h2], ?_⟩
      intro e he
      rw [List.mem_cons] at he
      rcases he with he | he
      · subst he
        simp only
        omega
      · exact hreads e he

/-- The body of the marking loop stores into `skip` in bounds and reads `DI`
only behind the two tests on the loop variable. -/
theorem prescreen_cell_checked_ok (speed : Int) (n : Nat) (DI : Nat → Val R)
    (cutoff : Val R) (i j : Nat) (s : (Nat → Int) × List (Nat × Int)) (hi : i < n)
    (hj : j < n)
    (hreads : ∀ e ∈ s.2, 11 ≤ e.1 ∧ (e.1 : Int) ≤ (n : Int) - 12 ∧
      (e.2 = (e.1 : Int) ∨ e.2 = (e.1 : Int) - 1)) :
    ∃ reads', prescreen_cell_checked speed n DI cutoff i j s
        = Except.ok
            ((if too_large speed n i j then setAt s.1 (i + j * n) 1
              else
                setAt s.1 (i + j * n)
                  (if (decide (i < 10 + 1) || decide ((i : Int) > (n : Int) - 10 - 2) ||
                      Val.gt (DI (i - 1)) cutoff) &&
                    (decide (j < 10 + 1) || decide ((j : Int) > (n : Int) - 10 - 2) ||
                      Val.gt (DI j) cutoff) then 0 else 1)), reads') ∧
      ∀ e ∈ reads', 11 ≤ e.1 ∧ (e.1 : Int) ≤ (n : Int) - 12 ∧
        (e.2 = (e.1 : Int) ∨ e.2 = (e.1 : Int) - 1) := by
  have c := cell_in_bounds (n : Int) (i : Int) (j : Int) (by omega) (by omega) (by omega)
    (by omega)
  unfold prescreen_cell_checked
  by_cases ht : too_large speed n i j = true
  · rw [if_pos ht, if_pos ht]
    simp only [writeAt, if_pos c, bind, Except.bind, toNat_idx]
    exact ⟨s.2, rfl, hreads⟩
  · rw [if_neg ht, if_neg ht]
    obtain ⟨r1, e1, q1⟩ := edge_or_peak_ok n DI cutoff i ((i : Int) - 1) s.2 (Or.inr rfl) hreads
    obtain ⟨r2, e2, q2⟩ := edge_or_peak_ok n DI cutoff j (j : Int) r1 (Or.inl rfl) q1
    have t1 : ((i : Int) - 1).toNat = i - 1 := by omega
    rw [t1] at e1
    rw [Int.toNat_natCast] at e2
    simp only [e1, e2, writeAt, if_pos c, bind, Except.bind, toNat_idx]
    exact ⟨r2, rfl, q2⟩

/-- The checked marking loop returns the marks of `prescreen_mark`, and every
read of `DI` it records is at `v - 1` or `v` for a loop variable `v` with
`11 ≤ v ≤ n - 12`. -/
theorem prescreen_mark_checked_ok (speed : Int) (n : Nat) (DI : Nat → Val R)
    (cutoff : Val R) (skip : Nat → Int) :
    ∃ reads, prescreen_mark_checked speed n DI cutoff skip
        = Except.ok (prescreen_mark speed n DI cutoff skip, reads) ∧
      ∀ e ∈ reads, 11 ≤ e.1 ∧ (e.1 : Int) ≤ (n : Int) - 12 ∧
        (e.2 = (e.1 : Int) ∨ e.2 = (e.1 : Int) - 1) := by
  unfold prescreen_mark_checked prescreen_mark
  obtain ⟨r, h1, h2, h3⟩ := forLoopE_inv
    (fun k (t : (Nat → Int) × List (Nat × Int)) =>
      t.1 = forLoop 0 k
        (fun i s => forLoop (i + 3) n
          (fun j s =>
            if too_large speed n i j then setAt s (i + j * n) 1
            else
              let ii := decide (i < 10 + 1) || decide ((i : Int) > (n : Int) - 10 - 2) ||
                Val.gt (DI (i - 1)) cutoff
              let jj := decide (j < 10 + 1) || decide ((j : Int) > (n : Int) - 10 - 2) ||
                Val.gt (DI j) cutoff
              setAt s (i + j * n) (if ii && jj then 0 else 1))
          s)
        skip ∧
      ∀ e ∈ t.2, 11 ≤ e.1 ∧ (e.1 : Int) ≤ (n : Int) - 12 ∧
        (e.2 = (e.1 : Int) ∨ e.2 = (e.1 : Int) - 1))
    0 (n - 3)
    (fun i s => forLoopE (i + 3) n
      (fun j s => prescreen_cell_checked speed n DI cutoff i j s) s)
    (skip, []) (Nat.zero_le _)
    ⟨by rw [forLoop_empty _ _ _ _ (le_refl _)], by simp⟩
    (fun i t _ hi ht => by
      obtain ⟨ht1, ht2⟩ := ht
      obtain ⟨r, g1, g2, g3⟩ := forLoopE_inv
        (fun k (u : (Nat → Int) × List (Nat × Int)) =>
          u.1 = forLoop (i + 3) k
            (fun j s =>
              if too_large speed n i j then setAt s (i + j * n) 1
              else
                let ii := decide (i < 10 + 1) || decide ((i : Int) > (n : Int) - 10 - 2) ||
                  Val.gt (DI (i - 1)) cutoff
                let jj := decide (j < 10 + 1) || decide ((j : Int) > (n : Int) - 10 - 2) ||
                  Val.gt (DI j) cutoff
                setAt s (i + j * n) (if ii && jj then 0 else 1))
            t.1 ∧
          ∀ e ∈ u.2, 11 ≤ e.1 ∧ (e.1 : Int) ≤ (n : Int) - 12 ∧
            (e.2 = (e.1 : Int) ∨ e.2 = (e.1 : Int) - 1))
        (i + 3) n
        (fun j s => prescreen_cell_checked speed n DI cutoff i j s)
        t (by omega)
        ⟨by rw [forLoop_empty _ _ _ _ (le_refl _)], ht2⟩
        (fun j u hj1 hj2 hu => by
          obtain ⟨hu1, hu2⟩ := hu
          obtain ⟨r', e', q'⟩ := prescreen_cell_checked_ok speed n DI cutoff i j u (by omega)
            hj2 hu2
          refine ⟨_, e', ?_, q'⟩
          rw [forLoop_succ _ _ _ _ hj1, ← hu1])
      refine ⟨r, g1, ?_, g3⟩
      rw [forLoop_succ _ _ _ _ (Nat.zero_le _), ← ht1, g2])
  refine ⟨r.2, ?_, h3⟩
  rw [h1]
  exact congrArg (fun x => Except.ok (x, r.2)) h2

end MarksOk

section PrescreenBounds

variable {R : Type} [LinearOrderedField R] [FloorRing R]

/-- C23. For every compacted size `n ≥ 21` and every speed, every index that the
pre-screen uses is in bounds: the checked statistics return a pair
`(DI, cutoff)`, the checked pre-screen returns the marks of the marking loop, and
every read of `DI` in the marking loop is at `v - 1` or `v` for a loop variable
`v` with `11 ≤ v ≤ n - 12` (the operator `||` skips the others); `obs` is read
at rows and columns `i - j ≥ 0` and `i + j ≤ n - 1`; `DI[length]` and
`DI[n-length-1]` are entries of `DI`; `absdDI` has `n - 2*length ≥ 1` entries;
and `get_quantile`, on an array of at least one entry and a quantile that is not
NaN, reads a position of `[0, n-1]`. -/
theorem C23_prescreen_in_bounds (sqrt : Val R → Val R) (obs : Nat → Nat → Val R)
    (n m : Nat) (speed : Int) (skip : Nat → Int) (hn : 21 ≤ n) :
    (∃ DI cutoff reads,
      prescreen_stats_checked sqrt obs n m = Except.ok (DI, cutoff) ∧
      prescreen_checked sqrt obs n m speed skip
        = Except.ok (prescreen_mark speed n DI cutoff skip, reads) ∧
      ∀ e ∈ reads, 11 ≤ e.1 ∧ (e.1 : Int) ≤ (n : Int) - 12 ∧
        (e.2 = (e.1 : Int) ∨ e.2 = (e.1 : Int) - 1)) ∧
    (∀ i j : Nat, 10 ≤ i → i < n - 10 → 1 ≤ j → j < 10 + 1 →
      (0 : Int) ≤ (i : Int) - (j : Int) ∧ i + j ≤ n - 1) ∧
    (10 < n ∧ (0 : Int) ≤ (n : Int) - 10 - 1 ∧ (n : Int) - 10 - 1 < (n : Int)) ∧
    (1 : Int) ≤ (n : Int) - 2 * 10 ∧
    (∀ (array : Nat → Val R) (len : Int) (q : Val R), 1 ≤ len → q ≠ Val.nan →
      ∃ k : Int, 0 ≤ k ∧ k ≤ len - 1 ∧
        get_quantile array len q
          = Except.ok ((sorted_copy array len).getD k.toNat Val.nan)) := by
  refine ⟨?_, ?_, ?_, ?_, ?_⟩
  · obtain ⟨DI, cutoff, h1⟩ := prescreen_stats_ok sqrt obs n m hn
    obtain ⟨reads, h2, h3⟩ := prescreen_mark_checked_ok speed n DI cutoff skip
    refine ⟨DI, cutoff, reads, h1, ?_, h3⟩
    unfold prescreen_checked
    simp only [h1, bind, Except.bind, h2]
  · intro i j h1 h2 h3 h4
    omega
  · omega
  · omega
  · intro array len q h1 h2
    exact get_quantile_ok array len q h1 h2

end PrescreenBounds

/-- C23 at `n = 21` with one replicate of ones, `speed = 5` and the identity in
the place of `sqrt`, over the rationals. -/
theorem C23_prescreen_in_bounds_witness :
    21 ≤ 21 ∧
    ((∃ DI cutoff reads,
      prescreen_stats_checked (fun v => v) (fun _ _ => (Val.fin 1 : Val ℚ)) 21 1
        = Except.ok (DI, cutoff) ∧
      prescreen_checked (fun v => v) (fun _ _ => (Val.fin 1 : Val ℚ)) 21 1 5 (skip_init 21)
        = Except.ok (prescreen_mark 5 21 DI cutoff (skip_init 21), reads) ∧
      ∀ e ∈ reads, 11 ≤ e.1 ∧ (e.1 : Int) ≤ ((21 : Nat) : Int) - 12 ∧
        (e.2 = (e.1 : Int) ∨ e.2 = (e.1 : Int) - 1)) ∧
    (∀ i j : Nat, 10 ≤ i → i < 21 - 10 → 1 ≤ j → j < 10 + 1 →
      (0 : Int) ≤ (i : Int) - (j : Int) ∧ i + j ≤ 21 - 1) ∧
    (10 < 21 ∧ (0 : Int) ≤ ((21 : Nat) : Int) - 10 - 1 ∧
      ((21 : Nat) : Int) - 10 - 1 < ((21 : Nat) : Int)) ∧
    (1 : Int) ≤ ((21 : Nat) : Int) - 2 * 10 ∧
    (∀ (array : Nat → Val ℚ) (len : Int) (q : Val ℚ), 1 ≤ len → q ≠ Val.nan →
      ∃ k : Int, 0 ≤ k ∧ k ≤ len - 1 ∧
        get_quantile array len q
          = Except.ok ((sorted_copy array len).getD k.toNat Val.nan))) :=
  ⟨le_refl 21,
    C23_prescreen_in_bounds (fun v => v) (fun _ _ => (Val.fin 1 : Val ℚ)) 21 1 5 (skip_init 21)
      (le_refl 21)⟩

section FillDone

variable {R : Type}

/-- The members of `unskipped` are the indices below `n*n` with a zero skip mark. -/
theorem mem_unskipped (arg : thread_arg R) (q : Nat) :
    q ∈ unskipped arg ↔ q < arg.n * arg.n ∧ arg.skip q = 0 := by
  unfold unskipped
  rw [List.mem_filter, List.mem_range, decide_eq_true_eq]

/-- The list `unskipped` is strictly increasing. -/
theorem unskipped_sorted (arg : thread_arg R) : (unskipped arg).Pairwise (· < ·) :=
  List.Pairwise.filter _ (List.pairwise_lt_range _)

/-- The facts on the queue once every worker has exited. -/
theorem queueDone_of_inv (arg : thread_arg R) (n_threads : Nat) (hT : 1 ≤ n_threads)
    (l0 : Nat → Val R) (s : FillState R)
    (hskip : ∀ q, q < arg.n * arg.n → 0 ≤ arg.skip q) (hinv : FillInv arg n_threads l0 s)
    (hex : AllExited n_threads s) : QueueDone arg n_threads s := by
  obtain ⟨h1, h2, hnd, _, h5⟩ := queueSpec_of_inv arg n_threads hT l0 s hskip hinv
  obtain ⟨hc, hw⟩ := h5 hex
  have hwnd : s.written.Nodup := hinv.2.2.2.2.2.2.2.2.2.1
  have hmem : ∀ q, q ∈ s.handed ↔ q ∈ unskipped arg := by
    intro q
    rw [mem_unskipped]
    constructor
    · exact h2 q
    · rintro ⟨b1, b2⟩
      exact List.count_pos_iff.mp (by rw [hc q b1 b2]; exact Nat.one_pos)
  have hund : (unskipped arg).Nodup := (unskipped_sorted arg).imp (fun h => ne_of_lt h)
  refine ⟨hex, hc, ?_, hw, ?_⟩
  · exact List.eq_of_perm_of_sorted ((List.perm_ext_iff_of_nodup hnd hund).mpr hmem)
      h1 (unskipped_sorted arg)
  · refine (List.perm_ext_iff_of_nodup hwnd hund).mpr ?_
    intro q
    rw [hw q, mem_unskipped]

end FillDone

section FillClaim

variable {R : Type} [LinearOrderedField R]

/-- C8: with each mutex-protected acquisition as one atomic step on the shared
index, for every number of workers `≥ 1` and every interleaving `sched` of their
steps: the jobs handed out are strictly increasing, each has a zero skip mark,
none is handed out twice, each is the flat index `i + j*n` of its cell `(q mod
n, q div n)`; the workers do exit: letting them run one after the other after
`sched` leaves every worker out of its loop, with every `q < n*n` with a zero
skip mark handed out exactly once; and in every state where all workers have
exited, the jobs handed out are the list `unskipped` and the cells written are a
permutation of it, which depends on the skip marks only, not on the number of
workers or the interleaving. -/
theorem C8_task_queue (poiss_reg : ml_block R → Val R) (sqrt : Val R → Val R)
    (arg : thread_arg R) (n_threads : Nat) (sched : List Nat) (l0 : Nat → Val R)
    (hT : 1 ≤ n_threads) (hskip : ∀ q, q < arg.n * arg.n → 0 ≤ arg.skip q) :
    QueueSpec arg n_threads
      (run_workers poiss_reg sqrt arg n_threads sched (fill_init l0)) ∧
    QueueDone arg n_threads
      (run_workers poiss_reg sqrt arg n_threads
        (sched ++ seq_sched (2 * (arg.n * arg.n) + 2) n_threads) (fill_init l0)) ∧
    (AllExited n_threads (run_workers poiss_reg sqrt arg n_threads sched (fill_init l0)) →
      QueueDone arg n_threads
        (run_workers poiss_reg sqrt arg n_threads sched (fill_init l0))) :=
  ⟨queueSpec_of_inv arg n_threads hT l0 _ hskip
      (run_workers_inv poiss_reg sqrt arg n_threads l0 sched _ (fill_init_inv arg n_threads l0)),
    queueDone_of_inv arg n_threads hT l0 _ hskip
      (run_workers_inv poiss_reg sqrt arg n_threads l0 _ _ (fill_init_inv arg n_threads l0))
      (by
        rw [run_workers_append]
        exact seq_sched_complete poiss_reg sqrt arg n_threads _),
    fun hex => queueDone_of_inv arg n_threads hT l0 _ hskip
      (run_workers_inv poiss_reg sqrt arg n_threads l0 sched _ (fill_init_inv arg n_threads l0))
      hex⟩

end FillClaim

/-- The skip marks of `exampleArg5` are not negative. -/
theorem exampleArg5_skip_nonneg :
    ∀ q, q < exampleArg5.n * exampleArg5.n → 0 ≤ exampleArg5.skip q := by
  decide

/-- C8 for two workers on `exampleArg5`, whose unskipped indices are 15, 20 and
21, the cells `(0, 3)`, `(0, 4)` and `(1, 4)`.  Worker 1 takes job 15 and worker 2
job 20; worker 2 stores its cell first and takes job 21; worker 1 stores its cell
and finds the queue empty; worker 2 stores its cell and finds the queue empty.
Both workers have then exited, the jobs handed out are 15, 20, 21 and the cells
written are 20, 15, 21.  The sequential completion of the theorem is the
interleaving of 8 + 2 * 52 steps. -/
theorem C8_task_queue_witness :
    1 ≤ 2 ∧ (∀ q, q < exampleArg5.n * exampleArg5.n → 0 ≤ exampleArg5.skip q) ∧
    (QueueSpec exampleArg5 2
      (run_workers exampleEnv.poiss_reg exampleEnv.sqrt exampleArg5 2 [1, 2, 2, 1, 2, 1, 2, 2]
        (fill_init (fun _ => Val.nan))) ∧
    QueueDone exampleArg5 2
      (run_workers exampleEnv.poiss_reg exampleEnv.sqrt exampleArg5 2
        ([1, 2, 2, 1, 2, 1, 2, 2] ++ seq_sched (2 * (exampleArg5.n * exampleArg5.n) + 2) 2)
        (fill_init (fun _ => Val.nan))) ∧
    (AllExited 2
        (run_workers exampleEnv.poiss_reg exampleEnv.sqrt exampleArg5 2 [1, 2, 2, 1, 2, 1, 2, 2]
          (fill_init (fun _ => Val.nan))) →
      QueueDone exampleArg5 2
        (run_workers exampleEnv.poiss_reg exampleEnv.sqrt exampleArg5 2 [1, 2, 2, 1, 2, 1, 2, 2]
          (fill_init (fun _ => Val.nan))))) ∧
    unskipped exampleArg5 = [15, 20, 21] ∧
    AllExited 2
      (run_workers exampleEnv.poiss_reg exampleEnv.sqrt exampleArg5 2 [1, 2, 2, 1, 2, 1, 2, 2]
        (fill_init (fun _ => Val.nan))) ∧
    (run_workers exampleEnv.poiss_reg exampleEnv.sqrt exampleArg5 2 [1, 2, 2, 1, 2, 1, 2, 2]
      (fill_init (fun _ => Val.nan))).handed = [15, 20, 21] ∧
    (run_workers exampleEnv.poiss_reg exampleEnv.sqrt exampleArg5 2 [1, 2, 2, 1, 2, 1, 2, 2]
      (fill_init (fun _ => Val.nan))).written = [20, 15, 21] ∧
    (run_workers exampleEnv.poiss_reg exampleEnv.sqrt exampleArg5 2 [1, 2, 2, 1]
      (fill_init (fun _ => Val.nan))).handed = [15, 20] ∧
    ¬ AllExited 2
      (run_workers exampleEnv.poiss_reg exampleEnv.sqrt exampleArg5 2 [1, 2, 2, 1]
        (fill_init (fun _ => Val.nan))) :=
  ⟨by decide, exampleArg5_skip_nonneg,
    C8_task_queue exampleEnv.poiss_reg exampleEnv.sqrt exampleArg5 2 [1, 2, 2, 1, 2, 1, 2, 2]
      (fun _ => Val.nan) (by decide) exampleArg5_skip_nonneg,
    by decide, by decide, by decide, by decide, by decide, by decide⟩

end TADbit
